import Mathlib

/-!
# mdl2obj: layout walk and mesh emission

A shallow embedding of `src/mdl2obj.c`.  The input file is a list of bytes; a C
pointer into it is the byte offset from the start of the buffer.  Every read
goes through `rd8`, which yields `none` when the offset lies outside the file
contents: the program has no check there, and what it would read is not
determined by the file.  (At the offset equal to the file length
`g_file_get_contents` stores a terminating zero byte, which is not part of the
file contents either; a run that reads it is not described here.)  A run has a
result only if all its reads lie inside, so a result of the model is a result of
the program, and the statements about truncated or altered files below are about
runs that have a result.
Unsigned 32-bit arithmetic is written with an explicit `% 4294967296`; pointer
arithmetic (64-bit) is left unreduced.  Loop counters (`gint i`, `gint k`) range
over the naturals below the loop bound; a `gint` counter that would pass `2^31 - 1`
is not modelled.  Floating-point results are not computed: a record that is
printed with `%g` keeps the integer operands of the C expression that produces
the printed value.
-/

namespace Mdl2Obj

/-! ## The input buffer -/

/-- One byte of the input file. -/
abbrev Byte := Fin 256

/-- Contents of the input file, as filled in by `g_file_get_contents`. -/
abbrev Buf := List Byte

/-- Read of one `guint8` at byte offset `off`; `none` when the offset is not an
offset of a byte of the file. -/
def rd8 (buf : Buf) (off : Nat) : Option Nat :=
  (buf[off]?).map Fin.val

/-- Read of one little-endian `guint32` at byte offset `off`. -/
def rd32 (buf : Buf) (off : Nat) : Option Nat := do
  let b0 ← rd8 buf off
  let b1 ← rd8 buf (off + 1)
  let b2 ← rd8 buf (off + 2)
  let b3 ← rd8 buf (off + 3)
  pure (b0 + 256 * b1 + 65536 * b2 + 16777216 * b3)

/-- Runs `f i, f (i+1), ..., f (i+n-1)` in this order and gathers the results;
the whole loop has no result as soon as one iteration has none.  This is the
shape of every `for (gint i = 0; i < n; i++)` loop of the emitter. -/
def collect {α : Type} (f : Nat → Option α) : Nat → Nat → Option (List α)
  | _, 0 => some []
  | i, n + 1 => do
    let x ← f i
    let xs ← collect f (i + 1) n
    pure (x :: xs)

/-! ## Records of the file format -/

/-- `struct vec3_s`: three `gfloat`, kept as their raw 32-bit patterns. -/
structure vec3_s where
  x : Nat
  y : Nat
  z : Nat
  deriving DecidableEq

/-- `struct mdl_s` (84 bytes).  Byte offsets: id 0, version 4, scale 8, origin 20,
radius 32, offsets 36, num_skins 48, skin_width 52, skin_height 56, num_verts 60,
num_triangles 64, num_frames 68, sync_type 72, flags 76, size 80.  Only the
fields that `main` accesses are kept. -/
structure mdl_s where
  scale : vec3_s
  origin : vec3_s
  num_skins : Nat
  skin_width : Nat
  skin_height : Nat
  num_verts : Nat
  num_triangles : Nat
  num_frames : Nat
  deriving DecidableEq

/-- `struct stvert_s` (12 bytes). -/
structure stvert_s where
  on_seam : Nat
  s : Nat
  t : Nat
  deriving DecidableEq

/-- `struct triangle_s` (16 bytes); `vertex0..2` are `vertex[0..2]`. -/
structure triangle_s where
  front : Nat
  vertex0 : Nat
  vertex1 : Nat
  vertex2 : Nat
  deriving DecidableEq

/-- `sizeof(struct mdl_s)`. -/
def sizeof_mdl_s : Nat := 84
/-- `sizeof(struct skin_s)`. -/
def sizeof_skin_s : Nat := 4
/-- `sizeof(struct skin_group_s)`: type, num_skins, time. -/
def sizeof_skin_group_s : Nat := 12
/-- `sizeof(struct stvert_s)`. -/
def sizeof_stvert_s : Nat := 12
/-- `sizeof(struct triangle_s)`. -/
def sizeof_triangle_s : Nat := 16
/-- `sizeof(struct vert_s)`. -/
def sizeof_vert_s : Nat := 4
/-- `sizeof(struct frame_s)`: type, min, max, name[16]. -/
def sizeof_frame_s : Nat := 28
/-- `sizeof(gfloat)`. -/
def sizeof_gfloat : Nat := 4

/-- Read of a `struct vec3_s` at `off`. -/
def rdVec3 (buf : Buf) (off : Nat) : Option vec3_s := do
  let x ← rd32 buf off
  let y ← rd32 buf (off + 4)
  let z ← rd32 buf (off + 8)
  pure ⟨x, y, z⟩

/-- The header fields `main` reads through `mdl = buf`. -/
def readMdl (buf : Buf) : Option mdl_s := do
  let scale ← rdVec3 buf 8
  let origin ← rdVec3 buf 20
  let num_skins ← rd32 buf 48
  let skin_width ← rd32 buf 52
  let skin_height ← rd32 buf 56
  let num_verts ← rd32 buf 60
  let num_triangles ← rd32 buf 64
  let num_frames ← rd32 buf 68
  pure ⟨scale, origin, num_skins, skin_width, skin_height, num_verts, num_triangles, num_frames⟩

/-- The record `stvert[i]`, where `stvert` is the byte offset of the table. -/
def stvert_at (buf : Buf) (stvert i : Nat) : Option stvert_s := do
  let on_seam ← rd32 buf (stvert + sizeof_stvert_s * i)
  let s ← rd32 buf (stvert + sizeof_stvert_s * i + 4)
  let t ← rd32 buf (stvert + sizeof_stvert_s * i + 8)
  pure ⟨on_seam, s, t⟩

/-- The field `stvert[v].on_seam`. -/
def on_seam_at (buf : Buf) (stvert v : Nat) : Option Nat :=
  rd32 buf (stvert + sizeof_stvert_s * v)

/-- The record `triangle[i]`, where `triangle` is the byte offset of the table. -/
def triangle_at (buf : Buf) (triangle i : Nat) : Option triangle_s := do
  let front ← rd32 buf (triangle + sizeof_triangle_s * i)
  let v0 ← rd32 buf (triangle + sizeof_triangle_s * i + 4)
  let v1 ← rd32 buf (triangle + sizeof_triangle_s * i + 8)
  let v2 ← rd32 buf (triangle + sizeof_triangle_s * i + 12)
  pure ⟨front, v0, v1, v2⟩

/-! ## Layout walk (lines 101-120) -/

/-- Byte advance of the cursor over a skin entry tagged as a group, line 110:
`sizeof(struct skin_group_s) + skin_group->num_skins * mdl->skin_width * mdl->skin_height`,
the product being taken in `guint32`. -/
def skinGroupAdvance (sub w h : Nat) : Nat :=
  sizeof_skin_group_s + (sub * w % 4294967296) * h % 4294967296

/-- Byte advance of the cursor over a simple skin entry, line 114:
`sizeof(struct skin_s) + mdl->skin_width * mdl->skin_height`. -/
def skinSimpleAdvance (w h : Nat) : Nat :=
  sizeof_skin_s + w * h % 4294967296

/-- The loop of lines 104-116: `n` entries are still to be skipped and `skin` is
the cursor.  The result is the cursor after the last entry. -/
def skinWalk (buf : Buf) (w h : Nat) : Nat → Nat → Option Nat
  | 0, skin => some skin
  | n + 1, skin => do
    let type ← rd32 buf skin
    if type ≠ 0 then
      let sub ← rd32 buf (skin + 4)
      skinWalk buf w h n (skin + skinGroupAdvance sub w h)
    else
      skinWalk buf w h n (skin + skinSimpleAdvance w h)

/-- The three table offsets computed at lines 118-120. -/
structure Layout where
  stvert : Nat
  triangle : Nat
  frame : Nat
  deriving DecidableEq

/-- Lines 101-120: skip the skins, then place the three tables one after the other. -/
def layout (buf : Buf) (m : mdl_s) : Option Layout := do
  let skin ← skinWalk buf m.skin_width m.skin_height m.num_skins sizeof_mdl_s
  let stvert := skin
  let triangle := stvert + sizeof_stvert_s * m.num_verts
  let frame := triangle + sizeof_triangle_s * m.num_triangles
  pure ⟨stvert, triangle, frame⟩

/-! ## Text records -/

/-- Value shown by `%d` for a `guint32` argument (two-complement reading). -/
def toS32 (x : Nat) : Int :=
  if x < 2147483648 then (x : Int) else (x : Int) - 4294967296

/-- One line appended to the `GString` of a mesh file.
* `v scale origin q0 q1 q2` is `"v %g %g %g\n"` with the values
  `scale.x * q0 + origin.x`, `scale.y * q1 + origin.y`, `scale.z * q2 + origin.z`;
* `vt a w t h` is `"vt %g %g\n"` with the values `(float) a / w` and `1 - (float) t / h`;
* `vt_0_0` is the literal `"vt 0 0\n"`;
* `f p0 t0 p1 t1 p2 t2` is `"f %d/%d %d/%d %d/%d\n"`;
* `text s` is the text `s`, printed without any numeric conversion (the material
  record, which the `GString` still holds when the frame loop starts). -/
inductive Line where
  | text (s : String)
  | mtllib (file : String)
  | usemtl (name : String)
  | v (scale origin : vec3_s) (q0 q1 q2 : Nat)
  | vt (a w t h : Nat)
  | vt_0_0
  | f (p0 t0 p1 t1 p2 t2 : Int)
  deriving DecidableEq

/-- `g_string_printf`: the previous contents are discarded. -/
def g_string_printf (_old : List Line) (l : Line) : List Line := [l]

/-- `g_string_append_printf`. -/
def g_string_append_printf (old : List Line) (l : Line) : List Line := old ++ [l]

/-! ## Mesh emitter (lines 147-230) -/

/-- Body of the loop of lines 161-167 for vertex `i`; `vert` is the byte offset of
the pose array.  Only `v[0]`, `v[1]`, `v[2]` are read. -/
def positionLine (buf : Buf) (m : mdl_s) (vert i : Nat) : Option Line := do
  let q0 ← rd8 buf (vert + sizeof_vert_s * i)
  let q1 ← rd8 buf (vert + sizeof_vert_s * i + 1)
  let q2 ← rd8 buf (vert + sizeof_vert_s * i + 2)
  pure (Line.v m.scale m.origin q0 q1 q2)

/-- Lines 161-167. -/
def positionPass (buf : Buf) (m : mdl_s) (vert : Nat) : Option (List Line) :=
  collect (positionLine buf m vert) 0 m.num_verts

/-- The record printed at lines 173-175 for `stvert[i]`. -/
def primaryLine (m : mdl_s) (st : stvert_s) : Line :=
  Line.vt st.s m.skin_width st.t m.skin_height

/-- The record printed at lines 187-196 for `stvert[i]`. -/
def secondaryLine (m : mdl_s) (st : stvert_s) : Line :=
  if st.on_seam = 0 then Line.vt_0_0
  else Line.vt ((st.s + m.skin_width / 2) % 4294967296) m.skin_width st.t m.skin_height

/-- Lines 169-181: the primary records together with the final value of `needs_hack`. -/
def primaryPass (buf : Buf) (m : mdl_s) (stvert : Nat) : Option (List Line × Bool) := do
  let sts ← collect (stvert_at buf stvert) 0 m.num_verts
  pure (sts.map (primaryLine m), sts.any (fun st => decide (st.on_seam ≠ 0)))

/-- Lines 185-197, the loop that runs when `needs_hack` is set. -/
def secondaryPass (buf : Buf) (m : mdl_s) (stvert : Nat) : Option (List Line) :=
  collect (fun i => (stvert_at buf stvert i).map (secondaryLine m)) 0 m.num_verts

/-- Lines 169-198: all `vt` records of one frame. -/
def uvPass (buf : Buf) (m : mdl_s) (stvert : Nat) : Option (List Line) := do
  let (prim, needs_hack) ← primaryPass buf m stvert
  if needs_hack = true then
    let sec ← secondaryPass buf m stvert
    pure (prim ++ sec)
  else
    pure prim

/-- Position index of a face slot: `triangle[i].vertex[j] + 1` in `guint32`. -/
def posIndex (v : Nat) : Nat := (v + 1) % 4294967296

/-- UV index of a face slot, lines 204, 206, 208:
`vertex + 1 + (front == 0 && stvert[vertex].on_seam != 0 ? mdl->num_verts : 0)` in
`guint32`; `stvert[vertex]` is read only when `front == 0`. -/
def uvIndex (buf : Buf) (stvert num_verts front v : Nat) : Option Nat :=
  if front = 0 then do
    let on_seam ← on_seam_at buf stvert v
    pure ((v + 1 + (if on_seam ≠ 0 then num_verts else 0)) % 4294967296)
  else
    pure ((v + 1 + 0) % 4294967296)

/-- The record printed at lines 202-208 for `triangle[i]`. -/
def faceLine (buf : Buf) (stvert num_verts : Nat) (tri : triangle_s) : Option Line := do
  let t0 ← uvIndex buf stvert num_verts tri.front tri.vertex0
  let t2 ← uvIndex buf stvert num_verts tri.front tri.vertex2
  let t1 ← uvIndex buf stvert num_verts tri.front tri.vertex1
  pure (Line.f (toS32 (posIndex tri.vertex0)) (toS32 t0)
               (toS32 (posIndex tri.vertex2)) (toS32 t2)
               (toS32 (posIndex tri.vertex1)) (toS32 t1))

/-- Lines 200-209. -/
def facePass (buf : Buf) (m : mdl_s) (stvert triangle : Nat) : Option (List Line) :=
  collect (fun i => (triangle_at buf triangle i).bind (faceLine buf stvert m.num_verts))
    0 m.num_triangles

/-- Lines 158-209: the text of one mesh file.  `obj` is the `GString` as the
previous iteration (or the material record) left it, `vert` the pose array. -/
def emitFrame (buf : Buf) (m : mdl_s) (mdl_name : String) (lay : Layout)
    (obj : List Line) (vert : Nat) : Option (List Line) := do
  let obj := g_string_printf obj (Line.mtllib (mdl_name ++ ".mtl"))
  let obj := g_string_append_printf obj (Line.usemtl mdl_name)
  let vs ← positionPass buf m vert
  let uvs ← uvPass buf m lay.stvert
  let fs ← facePass buf m lay.stvert lay.triangle
  pure (obj ++ vs ++ uvs ++ fs)

/-- Cursor after one frame block, lines 151-156. -/
def frameAdvance (type num_verts frame : Nat) : Nat :=
  (if type ≠ 0 then frame + (2 * sizeof_vert_s + sizeof_gfloat) else frame)
    + sizeof_frame_s + num_verts * sizeof_vert_s

/-- Text shown by `%d` for the `gint` loop counter `k`. -/
def fmt_d (k : Nat) : String := toString k

/-- Lines 211-218: name of the mesh file of frame `k`. -/
def outFile (mdl_name : String) (num_frames k : Nat) : String :=
  if num_frames = 1 then mdl_name ++ ".obj"
  else mdl_name ++ "_" ++ fmt_d k ++ ".obj"

/-- The loop of lines 147-230 with `n` iterations still to run, `k` the loop
counter and `frame` the cursor.  `vert = frame + 1` is taken before the cursor
moves.  The result lists the files written, in order, with their contents. -/
def frameLoop (buf : Buf) (m : mdl_s) (mdl_name : String) (lay : Layout) :
    Nat → Nat → Nat → List Line → Option (List (String × List Line))
  | 0, _, _, _ => some []
  | n + 1, k, frame, obj => do
    let vert := frame + sizeof_frame_s
    let type ← rd32 buf frame
    let next := frameAdvance type m.num_verts frame
    let obj ← emitFrame buf m mdl_name lay obj vert
    let rest ← frameLoop buf m mdl_name lay n (k + 1) next obj
    pure ((outFile mdl_name m.num_frames k, obj) :: rest)

/-- Files written by one run. -/
structure Output where
  mtl_file : String
  mtl : String
  objs : List (String × List Line)
  deriving DecidableEq

/-- Lines 127-134: the material record. -/
def materialRecord (mdl_name : String) : String :=
  "newmtl " ++ mdl_name ++ "\n" ++ "Ka 1 1 1\n" ++ "Kd 1 1 1\n" ++ "Ks 0 0 0\n" ++ "Tr 1\n"
    ++ "illum 1\n" ++ "Ns 0\n" ++ "map_Kd textures/" ++ mdl_name ++ ".jpg\n"

/-- Lines 101-230 of `main`, for the file contents `buf` and the material name
`mdl_name` derived from `argv[1]`.  The frame loop starts with the `GString` that
holds the material record.  `none` stands for a run that reads outside the file
contents. -/
def convert (mdl_name : String) (buf : Buf) : Option Output := do
  let m ← readMdl buf
  let lay ← layout buf m
  let obj := [Line.text (materialRecord mdl_name)]
  let objs ← frameLoop buf m mdl_name lay m.num_frames 0 lay.frame obj
  pure ⟨mdl_name ++ ".mtl", materialRecord mdl_name, objs⟩

/-! ## Fixtures -/

/-- Little-endian bytes of a `guint32`. -/
def le32 (n : Nat) : Buf :=
  [Fin.ofNat n, Fin.ofNat (n / 256), Fin.ofNat (n / 65536), Fin.ofNat (n / 16777216)]

/-- A header with zero floats and the given counts. -/
def mkHeader (num_skins skin_width skin_height num_verts num_triangles num_frames : Nat) : Buf :=
  List.replicate 48 0 ++ le32 num_skins ++ le32 skin_width ++ le32 skin_height
    ++ le32 num_verts ++ le32 num_triangles ++ le32 num_frames ++ List.replicate 12 0

/-- Header value with zero floats. -/
def mkMdl (num_skins skin_width skin_height num_verts num_triangles num_frames : Nat) : mdl_s :=
  ⟨⟨0, 0, 0⟩, ⟨0, 0, 0⟩, num_skins, skin_width, skin_height, num_verts, num_triangles, num_frames⟩

/-- A 144-byte model: no skin, one vertex, one frame, and one triangle with
`front = 1` whose `vertex[0]` is `0xFFFFFFFF`. -/
def wrapModel : Buf :=
  mkHeader 0 8 8 1 1 1 ++ (le32 0 ++ le32 3 ++ le32 4)
    ++ (le32 1 ++ le32 4294967295 ++ le32 0 ++ le32 0)
    ++ List.replicate 28 0 ++ [1, 2, 3, 0]

/-- A 176-byte model: no skin, one frame, two vertices of which vertex 0 is on the
seam, a triangle with `front = 0` and a triangle with `front = 1`, both over the
vertices (0, 1, 1). -/
def seamModel : Buf :=
  mkHeader 0 8 8 2 2 1 ++ (le32 1 ++ le32 3 ++ le32 4) ++ (le32 0 ++ le32 5 ++ le32 6)
    ++ (le32 0 ++ le32 0 ++ le32 1 ++ le32 1) ++ (le32 1 ++ le32 0 ++ le32 1 ++ le32 1)
    ++ List.replicate 28 0 ++ [1, 2, 3, 0, 4, 5, 6, 0]

/-- A 176-byte model like `seamModel` in which no vertex is on the seam. -/
def plainModel : Buf :=
  mkHeader 0 8 8 2 2 1 ++ (le32 0 ++ le32 3 ++ le32 4) ++ (le32 0 ++ le32 5 ++ le32 6)
    ++ (le32 0 ++ le32 0 ++ le32 1 ++ le32 1) ++ (le32 1 ++ le32 0 ++ le32 1 ++ le32 1)
    ++ List.replicate 28 0 ++ [1, 2, 3, 0, 4, 5, 6, 0]

/-- Size of an animated skin entry as the specification describes it: the type
tag, the sub-count, the aggregate duration, one duration value per sub-image and
`n` images of `w * h` bytes each. -/
def specSkinGroupSize (n w h : Nat) : Nat :=
  4 + 4 + 4 + 4 * n + n * (w * h)

/-- A 174-byte model with one animated skin group of 3 sub-images of 2x1 bytes,
laid out as the specification describes the entry: tag 1, sub-count 3, aggregate
duration 1.0, the durations 0.1, 0.2, 0.3, the three images, and then the texcoord
record (on_seam 1, s 7, t 9), one triangle and one simple frame. -/
def groupSkinModel : Buf :=
  mkHeader 1 2 1 1 1 1
    ++ (le32 1 ++ le32 3 ++ le32 1065353216)
    ++ (le32 1036831949 ++ le32 1045220557 ++ le32 1050253722)
    ++ [11, 12, 21, 22, 31, 32]
    ++ (le32 1 ++ le32 7 ++ le32 9)
    ++ (le32 1 ++ le32 0 ++ le32 0 ++ le32 0)
    ++ List.replicate 28 0 ++ [1, 2, 3, 0]

/-- A 129-byte model with two simple skins of 2x2 bytes, one vertex, one
triangle and no frame. -/
def twoSkinModel : Buf :=
  mkHeader 2 2 2 1 1 0 ++ (le32 0 ++ [1, 2, 3, 4]) ++ (le32 0 ++ [5, 6, 7, 8])
    ++ (le32 0 ++ le32 1 ++ le32 1) ++ (le32 1 ++ le32 0 ++ le32 0 ++ le32 0) ++ [0]

/-- A 188-byte model with one vertex, one triangle and two frames.  Frame 0, at
offset 112, is tagged as a group: its 28-byte header is followed by the bounding
pair min = (10, 11, 12), max = (20, 21, 22) and a float, and then by the pose
(1, 2, 3).  Frame 1, at offset 156, is simple, with the pose (4, 5, 6). -/
def groupFrameModel : Buf :=
  mkHeader 0 8 8 1 1 2 ++ (le32 0 ++ le32 3 ++ le32 4)
    ++ (le32 1 ++ le32 0 ++ le32 0 ++ le32 0)
    ++ (le32 1 ++ List.replicate 24 0 ++ [10, 11, 12, 0, 20, 21, 22, 0] ++ le32 1065353216
        ++ [1, 2, 3, 0])
    ++ (le32 0 ++ List.replicate 24 0 ++ [4, 5, 6, 0])

/-- A 212-byte model with one vertex, one triangle and three simple frames with
the poses (1, 2, 3), (4, 5, 6), (7, 8, 9). -/
def threeFrameModel : Buf :=
  mkHeader 0 8 8 1 1 3 ++ (le32 0 ++ le32 3 ++ le32 4)
    ++ (le32 1 ++ le32 0 ++ le32 0 ++ le32 0)
    ++ (List.replicate 28 0 ++ [1, 2, 3, 0]) ++ (List.replicate 28 0 ++ [4, 5, 6, 0])
    ++ (List.replicate 28 0 ++ [7, 8, 9, 0])

/-- Size of a frame block as the specification describes it: the frame header,
the min/max bounding pair (two quantized vertex records) when the frame is tagged
as a group, and `num_verts` quantized vertex records of 4 bytes each. -/
def specFrameBlockSize (type num_verts : Nat) : Nat :=
  28 + (if type ≠ 0 then 2 * 4 else 0) + num_verts * 4

/-! ## Predicates used in the statements -/

/-- Every read of the face pass lies inside the buffer: the triangle table does,
and so does `stvert[v].on_seam` for each vertex index `v` of a triangle whose
`front` is 0. -/
def FacesReadable (buf : Buf) (m : mdl_s) (stvert triangle : Nat) : Prop :=
  triangle + sizeof_triangle_s * m.num_triangles ≤ buf.length ∧
  ∀ i, i < m.num_triangles → ∀ tri ∈ triangle_at buf triangle i, tri.front = 0 →
    stvert + sizeof_stvert_s * tri.vertex0 + 4 ≤ buf.length ∧
    stvert + sizeof_stvert_s * tri.vertex1 + 4 ≤ buf.length ∧
    stvert + sizeof_stvert_s * tri.vertex2 + 4 ≤ buf.length

/-- What the face pass prints as UV index `t` in a slot that holds the vertex
index `v` of a triangle with flag `front`: the `guint32` value of
`v + 1 + (front == 0 && on_seam != 0 ? num_verts : 0)` shown by `%d`; this is
`v + 1`, or `v + 1 + num_verts` for an on-seam vertex of a triangle with
`front == 0`, as long as `v + 1 + num_verts` stays below `2^31`. -/
def UvSlot (buf : Buf) (stvert num_verts front v : Nat) (t : Int) : Prop :=
  (front ≠ 0 → t = toS32 ((v + 1) % 4294967296)) ∧
  (front = 0 → ∃ on_seam, on_seam_at buf stvert v = some on_seam ∧
    (on_seam = 0 → t = toS32 ((v + 1) % 4294967296)) ∧
    (on_seam ≠ 0 → t = toS32 ((v + 1 + num_verts) % 4294967296))) ∧
  (v + 1 + num_verts < 2147483648 →
    (front ≠ 0 → t = (v : Int) + 1) ∧
    (front = 0 → ∃ on_seam, on_seam_at buf stvert v = some on_seam ∧
      (on_seam = 0 → t = (v : Int) + 1) ∧
      (on_seam ≠ 0 → t = (v : Int) + 1 + num_verts)))

/-- Cursor with which iteration `k` of the frame loop starts when the loop is
entered with the cursor `frame`: the cursor moves as in lines 151-156. -/
def frameCursor (buf : Buf) (num_verts : Nat) : Nat → Nat → Option Nat
  | 0, frame => some frame
  | k + 1, frame => do
    let type ← rd32 buf frame
    frameCursor buf num_verts k (frameAdvance type num_verts frame)

/-- Every read of a run lies inside the buffer: those of the face pass do, and
the frame cursor, after the last of the `num_frames` blocks, has not left the
buffer. -/
def Readable (buf : Buf) (m : mdl_s) (lay : Layout) : Prop :=
  FacesReadable buf m lay.stvert lay.triangle ∧
  ∃ e, frameCursor buf m.num_verts m.num_frames lay.frame = some e ∧ e ≤ buf.length

/-- A face slot for vertex `v` whose printed UV index `t` is larger than
`num_verts`: the secondary set is part of the UV records `uvs`, `t` is
`v + 1 + num_verts`, and the record that the 1-based index `t` selects is the
mirrored-half record of the on-seam vertex `v`, not the literal `vt 0 0`. -/
def SecondaryRef (buf : Buf) (m : mdl_s) (stvert : Nat) (uvs : List Line) (v : Nat)
    (t : Int) : Prop :=
  (m.num_verts : Int) < t →
    ∃ st, stvert_at buf stvert v = some st ∧ st.on_seam ≠ 0 ∧
      t = (v : Int) + 1 + m.num_verts ∧
      uvs.length = 2 * m.num_verts ∧
      uvs[(t - 1).toNat]? = some (Line.vt ((st.s + m.skin_width / 2) % 4294967296)
        m.skin_width st.t m.skin_height) ∧
      uvs[(t - 1).toNat]? ≠ some Line.vt_0_0

/-- A 116-byte model whose header declares one simple skin of 65536 x 65536
pixels; the bytes after the skin's type tag are a texcoord record (0, 1, 2) and a
triangle. -/
def wrapSkinModel : Buf :=
  mkHeader 1 65536 65536 1 1 0 ++ le32 0 ++ (le32 0 ++ le32 1 ++ le32 2)
    ++ (le32 1 ++ le32 0 ++ le32 0 ++ le32 0)

/-- A face slot with position index `p` and UV index `t` refers to records that
the mesh file holds: `p` to one of its `num_verts` position records, `t` to one
of its `n_uv` UV records (indices are 1-based). -/
def SlotInRange (num_verts n_uv : Nat) (p t : Int) : Prop :=
  1 ≤ p ∧ p ≤ (num_verts : Int) ∧ 1 ≤ t ∧ t ≤ (n_uv : Int)

/-- Whether the line is a position record (`v`). -/
def Line.isV : Line → Bool
  | Line.v _ _ _ _ _ => true
  | _ => false

/-- Whether the line is a UV record (`vt`, computed or literal). -/
def Line.isVt : Line → Bool
  | Line.vt _ _ _ _ => true
  | Line.vt_0_0 => true
  | _ => false

/-- Whether the line is a face record (`f`). -/
def Line.isF : Line → Bool
  | Line.f _ _ _ _ _ _ => true
  | _ => false

/-- The `gfloat` arithmetic of the emitter, left uninterpreted: `ofInt` is the
conversion of an integer operand to `gfloat`, the others are the operations on
`gfloat` values. -/
structure FloatOps (F : Type) where
  ofInt : Nat → F
  add : F → F → F
  sub : F → F → F
  mul : F → F → F
  div : F → F → F

/-- The three values a position record prints, lines 164-166:
`mdl->scale.x * vert[i].v[0] + mdl->origin.x` and the same for `y` and `z`;
`ofBits` gives the `gfloat` stored with a 32-bit pattern. -/
def positionValues {F : Type} (A : FloatOps F) (ofBits : Nat → F) : Line → Option (F × F × F)
  | Line.v scale origin q0 q1 q2 =>
    some (A.add (A.mul (ofBits scale.x) (A.ofInt q0)) (ofBits origin.x),
          A.add (A.mul (ofBits scale.y) (A.ofInt q1)) (ofBits origin.y),
          A.add (A.mul (ofBits scale.z) (A.ofInt q2)) (ofBits origin.z))
  | _ => none

/-- The two values a UV record prints, lines 174-175 and 194-195:
`(float) a / w` and `1 - (float) t / h`; the literal record prints `0 0`. -/
def uvValues {F : Type} (A : FloatOps F) : Line → Option (F × F)
  | Line.vt a w t h =>
    some (A.div (A.ofInt a) (A.ofInt w), A.sub (A.ofInt 1) (A.div (A.ofInt t) (A.ofInt h)))
  | Line.vt_0_0 => some (A.ofInt 0, A.ofInt 0)
  | _ => none

/-- Exact arithmetic on the rationals: the values that the `gfloat` operations
round. -/
def exactOps : FloatOps ℚ :=
  ⟨fun n => (n : ℚ), fun x y => x + y, fun x y => x - y, fun x y => x * y, fun x y => x / y⟩

/-- A 144-byte model with an atlas of odd width 3 (height 8): one vertex, on the
seam, with `s = 0`, `t = 4`; one triangle with `front = 0`; one simple frame. -/
def oddWidthModel : Buf :=
  mkHeader 0 3 8 1 1 1 ++ (le32 1 ++ le32 0 ++ le32 4)
    ++ (le32 0 ++ le32 0 ++ le32 0 ++ le32 0)
    ++ List.replicate 28 0 ++ [1, 2, 3, 0]

/-- Modelled from the spec: `g_path_get_basename` of GLib, whose code is not
under src/.  It gives "the input file's base name", the directory part
stripped: the last component of the path.  Trailing separators are dropped first,
a path of separators only gives `/` and the empty path gives `.`. -/
def g_path_get_basename (file_name : List Char) : List Char :=
  if file_name = [] then ['.']
  else
    let trimmed := (file_name.reverse.dropWhile (fun c => c = '/')).reverse
    if trimmed = [] then ['/']
    else (trimmed.reverse.takeWhile (fun c => c ≠ '/')).reverse

/-- `strcspn (s, reject)`: the number of leading characters of `s` that do not
occur in `reject`. -/
def strcspn (s reject : List Char) : Nat :=
  (s.takeWhile (fun c => !reject.contains c)).length

/-- Lines 124-125: `mdl_name = g_path_get_basename (argv[1])`, then the string is
ended at index `strcspn (mdl_name, ".")`. -/
def mdl_name_of (argv1 : String) : String :=
  String.mk ((g_path_get_basename argv1.data).take
    (strcspn (g_path_get_basename argv1.data) ['.']))

/-- The run of `main` for `argc = 2`, once the file `argv[1]` has been read into
`buf`. -/
def main (argv1 : String) (buf : Buf) : Option Output :=
  convert (mdl_name_of argv1) buf

/-- Byte ranges (start, length) that the walk of lines 104-116 skips, entry by
entry: the bytes between the 4-byte tag of a simple entry, or the 12-byte header
of a group entry, and the next cursor.  These are the pixel bytes of an entry as
the structs of lines 47-55 lay it out; `specSkinPixels` gives the pixel bytes of
the layout of the specification. -/
def skinPixels (buf : Buf) (w h : Nat) : Nat → Nat → Option (List (Nat × Nat))
  | 0, _ => some []
  | n + 1, skin => do
    let type ← rd32 buf skin
    if type ≠ 0 then
      let sub ← rd32 buf (skin + 4)
      let rest ← skinPixels buf w h n (skin + skinGroupAdvance sub w h)
      pure ((skin + sizeof_skin_group_s, skinGroupAdvance sub w h - sizeof_skin_group_s) :: rest)
    else
      let rest ← skinPixels buf w h n (skin + skinSimpleAdvance w h)
      pure ((skin + sizeof_skin_s, skinSimpleAdvance w h - sizeof_skin_s) :: rest)

/-- The offset lies in one of the ranges (start, length). -/
def InRanges (ranges : List (Nat × Nat)) (off : Nat) : Prop :=
  ∃ r ∈ ranges, r.1 ≤ off ∧ off < r.1 + r.2

/-- A 152-byte model with one simple skin of 2x2 pixels `px`, one vertex, one
triangle and one simple frame. -/
def skinnedModel (px : List Byte) : Buf :=
  mkHeader 1 2 2 1 1 1 ++ (le32 0 ++ px) ++ (le32 0 ++ le32 1 ++ le32 1)
    ++ (le32 1 ++ le32 0 ++ le32 0 ++ le32 0) ++ (List.replicate 28 0 ++ [1, 2, 3, 0])

/-- Byte ranges (start, length) of the pixel data of the skin entries as the
specification lays an entry out: a simple entry is its tag followed by
`w * h` pixel bytes; an animated entry is its tag, the sub-count, the aggregate
duration and one duration value per sub-image, followed by the `sub` images of
`w * h` bytes each, and has the size `specSkinGroupSize sub w h`. -/
def specSkinPixels (buf : Buf) (w h : Nat) : Nat → Nat → Option (List (Nat × Nat))
  | 0, _ => some []
  | n + 1, skin => do
    let type ← rd32 buf skin
    if type ≠ 0 then
      let sub ← rd32 buf (skin + 4)
      let rest ← specSkinPixels buf w h n (skin + specSkinGroupSize sub w h)
      pure ((skin + 12 + 4 * sub, sub * (w * h)) :: rest)
    else
      let rest ← specSkinPixels buf w h n (skin + 4 + w * h)
      pure ((skin + 4, w * h) :: rest)

/-- The model `groupSkinModel` with other bytes in its three images: the six
bytes at the offsets 108 to 113 are 41, 42, 51, 52, 61, 62. -/
def groupSkinModelB : Buf :=
  mkHeader 1 2 1 1 1 1
    ++ (le32 1 ++ le32 3 ++ le32 1065353216)
    ++ (le32 1036831949 ++ le32 1045220557 ++ le32 1050253722)
    ++ [41, 42, 51, 52, 61, 62]
    ++ (le32 1 ++ le32 7 ++ le32 9)
    ++ (le32 1 ++ le32 0 ++ le32 0 ++ le32 0)
    ++ List.replicate 28 0 ++ [1, 2, 3, 0]

/-! ## Reads -/

theorem rd8_of_lt (buf : Buf) (off : Nat) (h : off < buf.length) :
    ∃ x, rd8 buf off = some x := by
  simp [rd8, List.getElem?_eq_getElem h]

theorem rd8_bound {buf : Buf} {off x : Nat} (h : rd8 buf off = some x) :
    off < buf.length ∧ x < 256 := by
  simp only [rd8, Option.map_eq_some'] at h
  obtain ⟨a, ha, rfl⟩ := h
  exact ⟨(List.getElem?_eq_some_iff.1 ha).1, a.isLt⟩

theorem rd32_of_le (buf : Buf) (off : Nat) (h : off + 4 ≤ buf.length) :
    ∃ x, rd32 buf off = some x := by
  obtain ⟨b0, h0⟩ := rd8_of_lt buf off (by omega)
  obtain ⟨b1, h1⟩ := rd8_of_lt buf (off + 1) (by omega)
  obtain ⟨b2, h2⟩ := rd8_of_lt buf (off + 2) (by omega)
  obtain ⟨b3, h3⟩ := rd8_of_lt buf (off + 3) (by omega)
  simp [rd32, h0, h1, h2, h3]

theorem rd32_bound {buf : Buf} {off x : Nat} (h : rd32 buf off = some x) :
    off + 4 ≤ buf.length ∧ x < 4294967296 := by
  simp only [rd32, Option.bind_eq_bind, Option.bind_eq_some, Option.pure_def,
    Option.some.injEq] at h
  obtain ⟨b0, h0, b1, h1, b2, h2, b3, h3, rfl⟩ := h
  have := rd8_bound h0
  have := rd8_bound h1
  have := rd8_bound h2
  have := rd8_bound h3
  omega

/-! ## The loop combinator -/

theorem collect_eq_some_iff {α : Type} (f : Nat → Option α) (n : Nat) :
    ∀ (i : Nat) (l : List α),
      collect f i n = some l ↔ l.length = n ∧ ∀ j, j < n → f (i + j) = l[j]? := by
  induction n with
  | zero =>
    intro i l
    simp only [collect, Option.some.injEq]
    constructor
    · rintro rfl
      exact ⟨rfl, fun j hj => absurd hj (Nat.not_lt_zero j)⟩
    · rintro ⟨hl, -⟩
      exact (List.length_eq_zero.1 hl).symm
  | succ n ih =>
    intro i l
    simp only [collect, Option.bind_eq_bind, Option.bind_eq_some, Option.pure_def,
      Option.some.injEq]
    constructor
    · rintro ⟨x, hx, xs, hxs, rfl⟩
      obtain ⟨hlen, hall⟩ := (ih (i + 1) xs).1 hxs
      refine ⟨by simp [hlen], fun j hj => ?_⟩
      cases j with
      | zero => simpa using hx
      | succ j =>
        have := hall j (by omega)
        simpa [Nat.add_assoc, Nat.add_comm 1 j] using this
    · rintro ⟨hlen, hall⟩
      cases l with
      | nil => simp at hlen
      | cons x xs =>
        refine ⟨x, by simpa using hall 0 (by omega), xs, ?_, rfl⟩
        refine (ih (i + 1) xs).2 ⟨by simpa using hlen, fun j hj => ?_⟩
        have := hall (j + 1) (by omega)
        simpa [Nat.add_assoc, Nat.add_comm 1 j] using this

theorem collect_of_forall {α : Type} (f : Nat → Option α) (n : Nat) :
    ∀ i : Nat, (∀ j, j < n → ∃ x, f (i + j) = some x) → ∃ l, collect f i n = some l := by
  induction n with
  | zero => intro i _; exact ⟨[], rfl⟩
  | succ n ih =>
    intro i h
    obtain ⟨x, hx⟩ := h 0 (by omega)
    obtain ⟨xs, hxs⟩ := ih (i + 1) (fun j hj => by
      obtain ⟨y, hy⟩ := h (j + 1) (by omega)
      exact ⟨y, by simpa [Nat.add_assoc, Nat.add_comm 1 j] using hy⟩)
    exact ⟨x :: xs, by simp [collect, Nat.add_zero] at hx ⊢; simp [hx, hxs]⟩

/-! ## Table records -/

theorem stvert_at_of_le (buf : Buf) (stvert i : Nat)
    (h : stvert + sizeof_stvert_s * (i + 1) ≤ buf.length) :
    ∃ st, stvert_at buf stvert i = some st := by
  simp only [sizeof_stvert_s] at h
  obtain ⟨a, ha⟩ := rd32_of_le buf (stvert + 12 * i) (by omega)
  obtain ⟨b, hb⟩ := rd32_of_le buf (stvert + 12 * i + 4) (by omega)
  obtain ⟨c, hc⟩ := rd32_of_le buf (stvert + 12 * i + 8) (by omega)
  simp [stvert_at, sizeof_stvert_s, ha, hb, hc]

theorem on_seam_of_stvert_at {buf : Buf} {stvert i : Nat} {st : stvert_s}
    (h : stvert_at buf stvert i = some st) : on_seam_at buf stvert i = some st.on_seam := by
  simp only [stvert_at, Option.bind_eq_bind, Option.bind_eq_some, Option.pure_def,
    Option.some.injEq] at h
  obtain ⟨a, ha, b, _, c, _, rfl⟩ := h
  simpa [on_seam_at] using ha

theorem triangle_at_of_le (buf : Buf) (triangle i : Nat)
    (h : triangle + sizeof_triangle_s * (i + 1) ≤ buf.length) :
    ∃ tri, triangle_at buf triangle i = some tri := by
  simp only [sizeof_triangle_s] at h
  obtain ⟨a, ha⟩ := rd32_of_le buf (triangle + 16 * i) (by omega)
  obtain ⟨b, hb⟩ := rd32_of_le buf (triangle + 16 * i + 4) (by omega)
  obtain ⟨c, hc⟩ := rd32_of_le buf (triangle + 16 * i + 8) (by omega)
  obtain ⟨d, hd⟩ := rd32_of_le buf (triangle + 16 * i + 12) (by omega)
  simp [triangle_at, sizeof_triangle_s, ha, hb, hc, hd]

theorem triangle_at_bound {buf : Buf} {triangle i : Nat} {tri : triangle_s}
    (h : triangle_at buf triangle i = some tri) :
    tri.front < 4294967296 ∧ tri.vertex0 < 4294967296 ∧ tri.vertex1 < 4294967296
      ∧ tri.vertex2 < 4294967296 := by
  simp only [triangle_at, Option.bind_eq_bind, Option.bind_eq_some, Option.pure_def,
    Option.some.injEq] at h
  obtain ⟨a, ha, b, hb, c, hc, d, hd, rfl⟩ := h
  exact ⟨(rd32_bound ha).2, (rd32_bound hb).2, (rd32_bound hc).2, (rd32_bound hd).2⟩

/-! ## UV pass -/

theorem stverts_of_le (buf : Buf) (stvert n : Nat)
    (h : stvert + sizeof_stvert_s * n ≤ buf.length) :
    ∃ sts : List stvert_s, collect (stvert_at buf stvert) 0 n = some sts := by
  apply collect_of_forall
  intro j hj
  rw [Nat.zero_add]
  apply stvert_at_of_le
  simp only [sizeof_stvert_s] at h ⊢
  omega

theorem secondaryPass_of_stverts {buf : Buf} {m : mdl_s} {stvert : Nat} {sts : List stvert_s}
    (h : collect (stvert_at buf stvert) 0 m.num_verts = some sts) :
    secondaryPass buf m stvert = some (sts.map (secondaryLine m)) := by
  obtain ⟨hlen, hall⟩ := (collect_eq_some_iff _ _ _ _).1 h
  refine (collect_eq_some_iff _ _ _ _).2 ⟨by simpa using hlen, fun j hj => ?_⟩
  rw [hall j hj]
  simp

theorem uvPass_of_stverts {buf : Buf} {m : mdl_s} {stvert : Nat} {sts : List stvert_s}
    (h : collect (stvert_at buf stvert) 0 m.num_verts = some sts) :
    uvPass buf m stvert =
      some (if sts.any (fun st => decide (st.on_seam ≠ 0)) = true
        then sts.map (primaryLine m) ++ sts.map (secondaryLine m)
        else sts.map (primaryLine m)) := by
  simp only [uvPass, primaryPass, h, Option.bind_eq_bind, Option.some_bind, Option.pure_def]
  split
  · simp [secondaryPass_of_stverts h]
  · rfl

/-! ## Face pass -/

theorem uvIndex_front (buf : Buf) (stvert nv : Nat) {front : Nat} (v : Nat) (h : front ≠ 0) :
    uvIndex buf stvert nv front v = some ((v + 1) % 4294967296) := by
  simp [uvIndex, h]

theorem uvIndex_back (buf : Buf) (stvert nv : Nat) {front v seam : Nat} (h : front = 0)
    (hs : on_seam_at buf stvert v = some seam) :
    uvIndex buf stvert nv front v
      = some ((v + 1 + (if seam ≠ 0 then nv else 0)) % 4294967296) := by
  simp [uvIndex, h, hs]

theorem uvIndex_of_readable (buf : Buf) (stvert nv front v : Nat)
    (h : front = 0 → stvert + sizeof_stvert_s * v + 4 ≤ buf.length) :
    ∃ t, uvIndex buf stvert nv front v = some t := by
  by_cases hf : front = 0
  · obtain ⟨seam, hs⟩ := rd32_of_le buf (stvert + sizeof_stvert_s * v) (h hf)
    exact ⟨_, uvIndex_back buf stvert nv hf hs⟩
  · exact ⟨_, uvIndex_front buf stvert nv v hf⟩

/-- The face pass runs to its end on readable tables, and record `i` of its
result is the record of `triangle[i]` with the slots `vertex[0]`, `vertex[2]`,
`vertex[1]` in this order. -/
theorem facePass_records (buf : Buf) (m : mdl_s) (stvert triangle : Nat)
    (h : FacesReadable buf m stvert triangle) :
    ∃ faces, facePass buf m stvert triangle = some faces ∧ faces.length = m.num_triangles ∧
      ∀ i, i < m.num_triangles → ∃ tri t0 t2 t1,
        triangle_at buf triangle i = some tri ∧
        uvIndex buf stvert m.num_verts tri.front tri.vertex0 = some t0 ∧
        uvIndex buf stvert m.num_verts tri.front tri.vertex2 = some t2 ∧
        uvIndex buf stvert m.num_verts tri.front tri.vertex1 = some t1 ∧
        faces[i]? = some (Line.f (toS32 (posIndex tri.vertex0)) (toS32 t0)
          (toS32 (posIndex tri.vertex2)) (toS32 t2) (toS32 (posIndex tri.vertex1)) (toS32 t1)) := by
  obtain ⟨htab, hst⟩ := h
  have key : ∀ i, i < m.num_triangles → ∃ tri t0 t2 t1,
      triangle_at buf triangle i = some tri ∧
      uvIndex buf stvert m.num_verts tri.front tri.vertex0 = some t0 ∧
      uvIndex buf stvert m.num_verts tri.front tri.vertex2 = some t2 ∧
      uvIndex buf stvert m.num_verts tri.front tri.vertex1 = some t1 := by
    intro i hi
    obtain ⟨tri, htri⟩ := triangle_at_of_le buf triangle i (by
      simp only [sizeof_triangle_s] at htab ⊢
      omega)
    have hr := hst i hi tri htri
    obtain ⟨t0, h0⟩ := uvIndex_of_readable buf stvert m.num_verts tri.front tri.vertex0
      (fun hf => (hr hf).1)
    obtain ⟨t2, h2⟩ := uvIndex_of_readable buf stvert m.num_verts tri.front tri.vertex2
      (fun hf => (hr hf).2.2)
    obtain ⟨t1, h1⟩ := uvIndex_of_readable buf stvert m.num_verts tri.front tri.vertex1
      (fun hf => (hr hf).2.1)
    exact ⟨tri, t0, t2, t1, htri, h0, h2, h1⟩
  obtain ⟨faces, hfaces⟩ := collect_of_forall
    (fun i => (triangle_at buf triangle i).bind (faceLine buf stvert m.num_verts))
    m.num_triangles 0 (fun j hj => by
      obtain ⟨tri, t0, t2, t1, htri, h0, h2, h1⟩ := key j hj
      simp [htri, faceLine, h0, h2, h1])
  obtain ⟨hlen, hall⟩ := (collect_eq_some_iff _ _ _ _).1 hfaces
  refine ⟨faces, hfaces, hlen, fun i hi => ?_⟩
  obtain ⟨tri, t0, t2, t1, htri, h0, h2, h1⟩ := key i hi
  refine ⟨tri, t0, t2, t1, htri, h0, h2, h1, ?_⟩
  rw [← hall i hi]
  simp [htri, faceLine, h0, h2, h1]

/-! ## Signed reading of an index -/

theorem toS32_of_lt {x : Nat} (h : x < 2147483648) : toS32 x = (x : Int) := by
  simp [toS32, h]

theorem toS32_le (x : Nat) : toS32 x ≤ (x : Int) := by
  unfold toS32
  split <;> omega

theorem uvSlot_of_uvIndex {buf : Buf} {stvert nv front v t : Nat}
    (h : uvIndex buf stvert nv front v = some t) : UvSlot buf stvert nv front v (toS32 t) := by
  by_cases hf : front = 0
  · simp only [uvIndex, hf, if_true, Option.bind_eq_bind, Option.bind_eq_some, Option.pure_def,
      Option.some.injEq] at h
    obtain ⟨seam, hs, rfl⟩ := h
    refine ⟨fun h0 => absurd hf h0, fun _ => ⟨seam, hs, fun hz => by simp [hz],
      fun hz => by simp [hz]⟩, fun hlt => ⟨fun h0 => absurd hf h0, fun _ => ⟨seam, hs, ?_, ?_⟩⟩⟩
    · intro hz
      simp only [hz, ne_eq, not_true_eq_false, if_false, Nat.add_zero]
      rw [Nat.mod_eq_of_lt (by omega), toS32_of_lt (by omega)]
      push_cast
      rfl
    · intro hz
      simp only [hz, ne_eq, not_false_eq_true, if_true]
      rw [Nat.mod_eq_of_lt (by omega), toS32_of_lt (by omega)]
      push_cast
      rfl
  · rw [uvIndex_front buf stvert nv v hf] at h
    obtain rfl := Option.some.inj h
    refine ⟨fun _ => rfl, fun h0 => absurd h0 hf, fun hlt => ⟨fun _ => ?_, fun h0 => absurd h0 hf⟩⟩
    rw [Nat.mod_eq_of_lt (by omega), toS32_of_lt (by omega)]
    push_cast
    rfl

/-! ## C1: UV index selection -/

/-- C1 (as amended): on readable tables the face pass prints one record per
triangle, and in each slot the UV index is the 32-bit value of
`v + 1 + (front == 0 && stvert[v].on_seam != 0 ? num_verts : 0)` shown as a signed
number; whenever `v + 1 + num_verts < 2^31` this is `v + 1`, except for an on-seam
vertex of a triangle with `front == 0`, where it is `v + 1 + num_verts`. -/
theorem face_uv_index_selection (buf : Buf) (m : mdl_s) (stvert triangle : Nat)
    (h : FacesReadable buf m stvert triangle) :
    ∃ faces, facePass buf m stvert triangle = some faces ∧ faces.length = m.num_triangles ∧
      ∀ i, i < m.num_triangles → ∃ tri p0 t0 p2 t2 p1 t1,
        triangle_at buf triangle i = some tri ∧
        faces[i]? = some (Line.f p0 t0 p2 t2 p1 t1) ∧
        UvSlot buf stvert m.num_verts tri.front tri.vertex0 t0 ∧
        UvSlot buf stvert m.num_verts tri.front tri.vertex2 t2 ∧
        UvSlot buf stvert m.num_verts tri.front tri.vertex1 t1 := by
  obtain ⟨faces, hf, hlen, hall⟩ := facePass_records buf m stvert triangle h
  refine ⟨faces, hf, hlen, fun i hi => ?_⟩
  obtain ⟨tri, t0, t2, t1, htri, h0, h2, h1, hi⟩ := hall i hi
  exact ⟨tri, _, _, _, _, _, _, htri, hi, uvSlot_of_uvIndex h0, uvSlot_of_uvIndex h2,
    uvSlot_of_uvIndex h1⟩

set_option maxRecDepth 100000 in
/-- Witness for C1 on the two-triangle seam model: the triangle with `front = 0`
over the vertices (0, 1, 1) is printed as `f 1/3 2/2 2/2`, the one with `front = 1`
as `f 1/1 2/2 2/2`. -/
theorem face_uv_index_selection_witness :
    (FacesReadable seamModel (mkMdl 0 8 8 2 2 1) 84 108 ∧
     facePass seamModel (mkMdl 0 8 8 2 2 1) 84 108
       = some [Line.f 1 3 2 2 2 2, Line.f 1 1 2 2 2 2]) ∧
    ∃ faces, facePass seamModel (mkMdl 0 8 8 2 2 1) 84 108 = some faces ∧
      faces.length = (mkMdl 0 8 8 2 2 1).num_triangles ∧
      ∀ i, i < (mkMdl 0 8 8 2 2 1).num_triangles → ∃ tri p0 t0 p2 t2 p1 t1,
        triangle_at seamModel 108 i = some tri ∧
        faces[i]? = some (Line.f p0 t0 p2 t2 p1 t1) ∧
        UvSlot seamModel 84 (mkMdl 0 8 8 2 2 1).num_verts tri.front tri.vertex0 t0 ∧
        UvSlot seamModel 84 (mkMdl 0 8 8 2 2 1).num_verts tri.front tri.vertex2 t2 ∧
        UvSlot seamModel 84 (mkMdl 0 8 8 2 2 1).num_verts tri.front tri.vertex1 t1 :=
  ⟨⟨by unfold FacesReadable; decide, by decide⟩,
   face_uv_index_selection seamModel (mkMdl 0 8 8 2 2 1) 84 108 (by unfold FacesReadable; decide)⟩

set_option maxRecDepth 100000 in
/-- C1 fails as stated: in the 144-byte model `wrapModel` the only triangle has
`front = 1` and `vertex[0] = 4294967295`; the UV index printed for that slot is 0,
not `v + 1 = 4294967296`. -/
theorem uv_index_wraps_to_zero :
    readMdl wrapModel = some (mkMdl 0 8 8 1 1 1) ∧
    layout wrapModel (mkMdl 0 8 8 1 1 1) = some ⟨84, 96, 112⟩ ∧
    triangle_at wrapModel 96 0 = some ⟨1, 4294967295, 0, 0⟩ ∧
    uvIndex wrapModel 84 1 1 4294967295 = some 0 ∧
    facePass wrapModel (mkMdl 0 8 8 1 1 1) 84 96 = some [Line.f 0 0 1 1 1 1] ∧
    toS32 0 ≠ (4294967295 : Int) + 1 := by
  decide

/-! ## C3: winding and position index -/

/-- C3 (as amended): on readable tables the face pass prints exactly
`num_triangles` records in table order; the record of the stored triangle
`(v0, v1, v2)` lists the slots `v0, v2, v1`, and the position index of a slot is
the 32-bit value of `v + 1` shown as a signed number, whatever `front` and the seam
flags are; it equals `v + 1` whenever `v + 1 < 2^31`. -/
theorem face_winding_and_position_index (buf : Buf) (m : mdl_s) (stvert triangle : Nat)
    (h : FacesReadable buf m stvert triangle) :
    ∃ faces, facePass buf m stvert triangle = some faces ∧ faces.length = m.num_triangles ∧
      ∀ i, i < m.num_triangles → ∃ tri t0 t2 t1,
        triangle_at buf triangle i = some tri ∧
        faces[i]? = some (Line.f (toS32 ((tri.vertex0 + 1) % 4294967296)) t0
          (toS32 ((tri.vertex2 + 1) % 4294967296)) t2
          (toS32 ((tri.vertex1 + 1) % 4294967296)) t1) ∧
        (tri.vertex0 + 1 < 2147483648 →
          toS32 ((tri.vertex0 + 1) % 4294967296) = (tri.vertex0 : Int) + 1) ∧
        (tri.vertex2 + 1 < 2147483648 →
          toS32 ((tri.vertex2 + 1) % 4294967296) = (tri.vertex2 : Int) + 1) ∧
        (tri.vertex1 + 1 < 2147483648 →
          toS32 ((tri.vertex1 + 1) % 4294967296) = (tri.vertex1 : Int) + 1) := by
  have key : ∀ v : Nat, v + 1 < 2147483648 →
      toS32 ((v + 1) % 4294967296) = (v : Int) + 1 := by
    intro v hv
    rw [Nat.mod_eq_of_lt (by omega), toS32_of_lt hv]
    push_cast
    rfl
  obtain ⟨faces, hf, hlen, hall⟩ := facePass_records buf m stvert triangle h
  refine ⟨faces, hf, hlen, fun i hi => ?_⟩
  obtain ⟨tri, t0, t2, t1, htri, -, -, -, hi⟩ := hall i hi
  exact ⟨tri, _, _, _, htri, hi, key _, key _, key _⟩

set_option maxRecDepth 100000 in
/-- Witness for C3 on the two-triangle seam model. -/
theorem face_winding_and_position_index_witness :
    FacesReadable seamModel (mkMdl 0 8 8 2 2 1) 84 108 ∧
    ∃ faces, facePass seamModel (mkMdl 0 8 8 2 2 1) 84 108 = some faces ∧
      faces.length = (mkMdl 0 8 8 2 2 1).num_triangles ∧
      ∀ i, i < (mkMdl 0 8 8 2 2 1).num_triangles → ∃ tri t0 t2 t1,
        triangle_at seamModel 108 i = some tri ∧
        faces[i]? = some (Line.f (toS32 ((tri.vertex0 + 1) % 4294967296)) t0
          (toS32 ((tri.vertex2 + 1) % 4294967296)) t2
          (toS32 ((tri.vertex1 + 1) % 4294967296)) t1) ∧
        (tri.vertex0 + 1 < 2147483648 →
          toS32 ((tri.vertex0 + 1) % 4294967296) = (tri.vertex0 : Int) + 1) ∧
        (tri.vertex2 + 1 < 2147483648 →
          toS32 ((tri.vertex2 + 1) % 4294967296) = (tri.vertex2 : Int) + 1) ∧
        (tri.vertex1 + 1 < 2147483648 →
          toS32 ((tri.vertex1 + 1) % 4294967296) = (tri.vertex1 : Int) + 1) :=
  ⟨by unfold FacesReadable; decide,
   face_winding_and_position_index seamModel (mkMdl 0 8 8 2 2 1) 84 108
     (by unfold FacesReadable; decide)⟩

set_option maxRecDepth 100000 in
/-- C3 fails as stated: the mesh file written for `wrapModel` holds the face
`f 0/0 1/1 1/1` for the stored triangle `(4294967295, 0, 0)`: the position index
of the first slot is 0, not the stored index plus one. -/
theorem position_index_wraps_to_zero :
    triangle_at wrapModel 96 0 = some ⟨1, 4294967295, 0, 0⟩ ∧
    posIndex 4294967295 = 0 ∧
    (convert "m" wrapModel).map Output.objs =
      some [("m.obj", [Line.mtllib "m.mtl", Line.usemtl "m", Line.v ⟨0, 0, 0⟩ ⟨0, 0, 0⟩ 1 2 3,
        Line.vt 3 8 4 8, Line.f 0 0 1 1 1 1])] ∧
    (0 : Int) ≠ (4294967295 : Int) + 1 := by
  decide

/-! ## C4: the two UV sets -/

/-- C4: when the texcoord table lies inside the buffer, the UV pass prints the
`num_verts` primary records in vertex order; if some record has a non-zero seam
flag these are followed by `num_verts` secondary records (the literal `vt 0 0` for
a vertex off the seam, the mirrored-half record for a vertex on it), `2 * num_verts`
records in all; if no record has the flag set, the primary records are all that is
printed. -/
theorem uv_sets_emitted (buf : Buf) (m : mdl_s) (stvert : Nat)
    (h : stvert + sizeof_stvert_s * m.num_verts ≤ buf.length) :
    ∃ sts : List stvert_s,
      sts.length = m.num_verts ∧
      (∀ i, i < m.num_verts → stvert_at buf stvert i = sts[i]?) ∧
      ((∃ i st, i < m.num_verts ∧ stvert_at buf stvert i = some st ∧ st.on_seam ≠ 0) →
        uvPass buf m stvert = some (sts.map (primaryLine m) ++ sts.map (secondaryLine m)) ∧
        (sts.map (primaryLine m)).length = m.num_verts ∧
        (sts.map (secondaryLine m)).length = m.num_verts ∧
        (sts.map (primaryLine m) ++ sts.map (secondaryLine m)).length = 2 * m.num_verts) ∧
      ((∀ i st, i < m.num_verts → stvert_at buf stvert i = some st → st.on_seam = 0) →
        uvPass buf m stvert = some (sts.map (primaryLine m)) ∧
        (sts.map (primaryLine m)).length = m.num_verts) ∧
      (∀ st, primaryLine m st = Line.vt st.s m.skin_width st.t m.skin_height) ∧
      (∀ st, st.on_seam = 0 → secondaryLine m st = Line.vt_0_0) ∧
      (∀ st, st.on_seam ≠ 0 → secondaryLine m st =
        Line.vt ((st.s + m.skin_width / 2) % 4294967296) m.skin_width st.t m.skin_height) := by
  obtain ⟨sts, hsts⟩ := stverts_of_le buf stvert m.num_verts h
  obtain ⟨hlen, hall⟩ := (collect_eq_some_iff _ _ _ _).1 hsts
  have hall2 : ∀ i, i < m.num_verts → stvert_at buf stvert i = sts[i]? := by
    intro i hi
    simpa using hall i hi
  refine ⟨sts, hlen, hall2, ?_, ?_, fun _ => rfl, fun st hz => by simp [secondaryLine, hz],
    fun st hz => by simp [secondaryLine, hz]⟩
  · rintro ⟨i, st, hi, hst, hseam⟩
    have hmem : st ∈ sts := by
      rw [hall2 i hi] at hst
      exact List.getElem?_mem hst
    have hany : sts.any (fun st => decide (st.on_seam ≠ 0)) = true :=
      List.any_eq_true.2 ⟨st, hmem, by simpa using hseam⟩
    rw [uvPass_of_stverts hsts, if_pos hany]
    simp only [List.length_append, List.length_map, hlen, true_and]
    omega
  · intro hnone
    have hany : ¬ (sts.any (fun st => decide (st.on_seam ≠ 0)) = true) := by
      rw [List.any_eq_true]
      rintro ⟨st, hmem, hst⟩
      obtain ⟨i, hi, hget⟩ := List.getElem_of_mem hmem
      have h1 : stvert_at buf stvert i = some st := by
        rw [hall2 i (hlen ▸ hi), List.getElem?_eq_getElem hi, hget]
      have := hnone i st (hlen ▸ hi) h1
      simp [this] at hst
    rw [uvPass_of_stverts hsts, if_neg hany]
    simp [hlen]

set_option maxRecDepth 100000 in
/-- Witness for C4 on the seam model (two vertices, vertex 0 on the seam). -/
theorem uv_sets_emitted_witness :
    84 + sizeof_stvert_s * (mkMdl 0 8 8 2 2 1).num_verts ≤ seamModel.length ∧
    ∃ sts : List stvert_s,
      sts.length = (mkMdl 0 8 8 2 2 1).num_verts ∧
      (∀ i, i < (mkMdl 0 8 8 2 2 1).num_verts → stvert_at seamModel 84 i = sts[i]?) ∧
      ((∃ i st, i < (mkMdl 0 8 8 2 2 1).num_verts ∧ stvert_at seamModel 84 i = some st
          ∧ st.on_seam ≠ 0) →
        uvPass seamModel (mkMdl 0 8 8 2 2 1) 84 =
          some (sts.map (primaryLine (mkMdl 0 8 8 2 2 1))
            ++ sts.map (secondaryLine (mkMdl 0 8 8 2 2 1))) ∧
        (sts.map (primaryLine (mkMdl 0 8 8 2 2 1))).length = (mkMdl 0 8 8 2 2 1).num_verts ∧
        (sts.map (secondaryLine (mkMdl 0 8 8 2 2 1))).length = (mkMdl 0 8 8 2 2 1).num_verts ∧
        (sts.map (primaryLine (mkMdl 0 8 8 2 2 1))
            ++ sts.map (secondaryLine (mkMdl 0 8 8 2 2 1))).length
          = 2 * (mkMdl 0 8 8 2 2 1).num_verts) ∧
      ((∀ i st, i < (mkMdl 0 8 8 2 2 1).num_verts → stvert_at seamModel 84 i = some st
          → st.on_seam = 0) →
        uvPass seamModel (mkMdl 0 8 8 2 2 1) 84 = some (sts.map (primaryLine (mkMdl 0 8 8 2 2 1))) ∧
        (sts.map (primaryLine (mkMdl 0 8 8 2 2 1))).length = (mkMdl 0 8 8 2 2 1).num_verts) ∧
      (∀ st, primaryLine (mkMdl 0 8 8 2 2 1) st
        = Line.vt st.s (mkMdl 0 8 8 2 2 1).skin_width st.t (mkMdl 0 8 8 2 2 1).skin_height) ∧
      (∀ st, st.on_seam = 0 → secondaryLine (mkMdl 0 8 8 2 2 1) st = Line.vt_0_0) ∧
      (∀ st, st.on_seam ≠ 0 → secondaryLine (mkMdl 0 8 8 2 2 1) st =
        Line.vt ((st.s + (mkMdl 0 8 8 2 2 1).skin_width / 2) % 4294967296)
          (mkMdl 0 8 8 2 2 1).skin_width st.t (mkMdl 0 8 8 2 2 1).skin_height) :=
  ⟨by decide, uv_sets_emitted seamModel (mkMdl 0 8 8 2 2 1) 84 (by decide)⟩

/-! ## C2: the literal `vt 0 0` records are never referenced -/

theorem secondaryRef_of_uvIndex {buf : Buf} {m : mdl_s} {stvert : Nat} {sts : List stvert_s}
    {front v t : Nat} (hsts : collect (stvert_at buf stvert) 0 m.num_verts = some sts)
    (hv : v < m.num_verts) (ht : uvIndex buf stvert m.num_verts front v = some t) :
    SecondaryRef buf m stvert
      (if sts.any (fun st => decide (st.on_seam ≠ 0)) = true
        then sts.map (primaryLine m) ++ sts.map (secondaryLine m)
        else sts.map (primaryLine m)) v (toS32 t) := by
  intro hgt
  obtain ⟨hlen, hall⟩ := (collect_eq_some_iff _ _ _ _).1 hsts
  have hvl : v < sts.length := hlen ▸ hv
  have hget : sts[v]? = some sts[v] := List.getElem?_eq_getElem hvl
  have hst : stvert_at buf stvert v = some sts[v] := by
    have := hall v hv
    rw [Nat.zero_add] at this
    rw [this, hget]
  have hseam := on_seam_of_stvert_at hst
  have hle := toS32_le t
  by_cases hf : front = 0
  · rw [uvIndex_back buf stvert m.num_verts hf hseam] at ht
    obtain rfl := Option.some.inj ht
    by_cases hz : sts[v].on_seam = 0
    · exfalso
      simp only [hz, ne_eq, not_true_eq_false, if_false, Nat.add_zero] at hgt hle
      omega
    · simp only [hz, ne_eq, not_false_eq_true, if_true] at hgt hle ⊢
      have hval : toS32 ((v + 1 + m.num_verts) % 4294967296) = (v : Int) + 1 + m.num_verts := by
        unfold toS32 at hgt ⊢
        split at hgt <;> rename_i hlt
        · rw [if_pos hlt]
          omega
        · exfalso
          omega
      have hany : sts.any (fun st => decide (st.on_seam ≠ 0)) = true :=
        List.any_eq_true.2 ⟨sts[v], List.getElem_mem hvl, by simpa using hz⟩
      have hidx : ((v : Int) + 1 + m.num_verts - 1).toNat = sts.length + v := by
        rw [hlen]
        omega
      have hrec : (sts.map (primaryLine m) ++ sts.map (secondaryLine m))[sts.length + v]?
          = some (Line.vt ((sts[v].s + m.skin_width / 2) % 4294967296)
              m.skin_width sts[v].t m.skin_height) := by
        rw [List.getElem?_append_right (by simp)]
        simp [hget, secondaryLine, hz]
      refine ⟨sts[v], hst, hz, hval, ?_, ?_, ?_⟩
      · rw [if_pos hany]
        simp only [List.length_append, List.length_map, hlen]
        omega
      · rw [if_pos hany, hval, hidx, hrec]
      · rw [if_pos hany, hval, hidx, hrec]
        simp
  · exfalso
    rw [uvIndex_front buf stvert m.num_verts v hf] at ht
    obtain rfl := Option.some.inj ht
    omega

/-- C2: when both tables lie inside the buffer and every vertex index of every
triangle is below `num_verts`, the UV pass and the face pass run to their end,
and every face slot whose UV index is larger than `num_verts` selects, in the UV
records of the same file, the mirrored-half record of an on-seam vertex: the
secondary set is present and the selected record is never the literal `vt 0 0`. -/
theorem sentinel_never_referenced (buf : Buf) (m : mdl_s) (stvert triangle : Nat)
    (hst : stvert + sizeof_stvert_s * m.num_verts ≤ buf.length)
    (htri : triangle + sizeof_triangle_s * m.num_triangles ≤ buf.length)
    (hidx : ∀ i, i < m.num_triangles → ∀ tri ∈ triangle_at buf triangle i,
      tri.vertex0 < m.num_verts ∧ tri.vertex1 < m.num_verts ∧ tri.vertex2 < m.num_verts) :
    ∃ uvs faces, uvPass buf m stvert = some uvs ∧
      facePass buf m stvert triangle = some faces ∧ faces.length = m.num_triangles ∧
      ∀ i, i < m.num_triangles → ∃ tri p0 t0 p2 t2 p1 t1,
        triangle_at buf triangle i = some tri ∧
        faces[i]? = some (Line.f p0 t0 p2 t2 p1 t1) ∧
        SecondaryRef buf m stvert uvs tri.vertex0 t0 ∧
        SecondaryRef buf m stvert uvs tri.vertex2 t2 ∧
        SecondaryRef buf m stvert uvs tri.vertex1 t1 := by
  obtain ⟨sts, hsts⟩ := stverts_of_le buf stvert m.num_verts hst
  have hread : FacesReadable buf m stvert triangle := by
    refine ⟨htri, fun i hi tri htr _ => ?_⟩
    have := hidx i hi tri htr
    simp only [sizeof_stvert_s] at hst ⊢
    omega
  obtain ⟨faces, hf, hlen, hall⟩ := facePass_records buf m stvert triangle hread
  refine ⟨_, faces, uvPass_of_stverts hsts, hf, hlen, fun i hi => ?_⟩
  obtain ⟨tri, t0, t2, t1, htr, h0, h2, h1, hrec⟩ := hall i hi
  have hb := hidx i hi tri htr
  exact ⟨tri, _, _, _, _, _, _, htr, hrec, secondaryRef_of_uvIndex hsts hb.1 h0,
    secondaryRef_of_uvIndex hsts hb.2.2 h2, secondaryRef_of_uvIndex hsts hb.2.1 h1⟩

set_option maxRecDepth 100000 in
/-- Witness for C2 on the seam model: the only UV index above `num_verts = 2` is
the 3 of the face `f 1/3 2/2 2/2`, and UV record 3 is the mirrored-half record of
vertex 0; the literal `vt 0 0`, UV record 4, is selected by no face. -/
theorem sentinel_never_referenced_witness :
    ((84 + sizeof_stvert_s * (mkMdl 0 8 8 2 2 1).num_verts ≤ seamModel.length ∧
     108 + sizeof_triangle_s * (mkMdl 0 8 8 2 2 1).num_triangles ≤ seamModel.length ∧
     ∀ i, i < (mkMdl 0 8 8 2 2 1).num_triangles → ∀ tri ∈ triangle_at seamModel 108 i,
      tri.vertex0 < (mkMdl 0 8 8 2 2 1).num_verts ∧ tri.vertex1 < (mkMdl 0 8 8 2 2 1).num_verts
        ∧ tri.vertex2 < (mkMdl 0 8 8 2 2 1).num_verts) ∧
     uvPass seamModel (mkMdl 0 8 8 2 2 1) 84
       = some [Line.vt 3 8 4 8, Line.vt 5 8 6 8, Line.vt 7 8 4 8, Line.vt_0_0] ∧
     facePass seamModel (mkMdl 0 8 8 2 2 1) 84 108
       = some [Line.f 1 3 2 2 2 2, Line.f 1 1 2 2 2 2]) ∧
    ∃ uvs faces, uvPass seamModel (mkMdl 0 8 8 2 2 1) 84 = some uvs ∧
      facePass seamModel (mkMdl 0 8 8 2 2 1) 84 108 = some faces ∧
      faces.length = (mkMdl 0 8 8 2 2 1).num_triangles ∧
      ∀ i, i < (mkMdl 0 8 8 2 2 1).num_triangles → ∃ tri p0 t0 p2 t2 p1 t1,
        triangle_at seamModel 108 i = some tri ∧
        faces[i]? = some (Line.f p0 t0 p2 t2 p1 t1) ∧
        SecondaryRef seamModel (mkMdl 0 8 8 2 2 1) 84 uvs tri.vertex0 t0 ∧
        SecondaryRef seamModel (mkMdl 0 8 8 2 2 1) 84 uvs tri.vertex2 t2 ∧
        SecondaryRef seamModel (mkMdl 0 8 8 2 2 1) 84 uvs tri.vertex1 t1 :=
  ⟨⟨by decide, by decide⟩,
   sentinel_never_referenced seamModel (mkMdl 0 8 8 2 2 1) 84 108 (by decide) (by decide)
     (by decide)⟩

/-! ## Skin walk -/

theorem skinWalk_group_step (buf : Buf) (w h n skin : Nat) {type sub : Nat}
    (ht : rd32 buf skin = some type) (hne : type ≠ 0) (hs : rd32 buf (skin + 4) = some sub) :
    skinWalk buf w h (n + 1) skin = skinWalk buf w h n (skin + skinGroupAdvance sub w h) := by
  simp [skinWalk, ht, hne, hs]

theorem skinWalk_simple_step (buf : Buf) (w h n skin : Nat) (ht : rd32 buf skin = some 0) :
    skinWalk buf w h (n + 1) skin = skinWalk buf w h n (skin + skinSimpleAdvance w h) := by
  simp [skinWalk, ht]

theorem skinWalk_all_simple (buf : Buf) (w h : Nat) (hwh : w * h < 4294967296) (n : Nat) :
    ∀ skin : Nat, (∀ i, i < n → rd32 buf (skin + i * (4 + w * h)) = some 0) →
      skinWalk buf w h n skin = some (skin + n * (4 + w * h)) := by
  induction n with
  | zero => intro skin _; simp [skinWalk]
  | succ n ih =>
    intro skin hall
    have h0 : rd32 buf skin = some 0 := by simpa using hall 0 (by omega)
    rw [skinWalk_simple_step buf w h n skin h0]
    have hadv : skinSimpleAdvance w h = 4 + w * h := by
      simp [skinSimpleAdvance, sizeof_skin_s, Nat.mod_eq_of_lt hwh]
    rw [hadv, ih (skin + (4 + w * h)) (fun i hi => by
      have := hall (i + 1) (by omega)
      rw [← this]
      congr 1
      ring)]
    congr 1
    ring

/-! ## C5: advance over an animated skin entry -/

/-- C5 (as amended): over a skin entry tagged animated (type != 0) with
sub-count `sub` the walker advances the cursor by 12 bytes (the type tag, the
sub-count and one duration value) plus `sub * skin_width * skin_height` bytes taken
modulo 2^32; no per-image duration values are skipped, so for `sub > 0` the
advance is smaller than the size the specification gives to the entry, and a model
with one animated entry has its texcoord table read at offset
`84 + 12 + (sub * skin_width * skin_height) mod 2^32`. -/
theorem skin_group_advance (buf : Buf) (m : mdl_s) (n skin type sub : Nat)
    (ht : rd32 buf skin = some type) (hne : type ≠ 0) (hs : rd32 buf (skin + 4) = some sub) :
    skinWalk buf m.skin_width m.skin_height (n + 1) skin
      = skinWalk buf m.skin_width m.skin_height n
          (skin + (12 + (sub * m.skin_width * m.skin_height) % 4294967296)) ∧
    (0 < sub → 12 + (sub * m.skin_width * m.skin_height) % 4294967296
      < specSkinGroupSize sub m.skin_width m.skin_height) ∧
    (m.num_skins = 1 → skin = sizeof_mdl_s →
      ∃ lay, layout buf m = some lay ∧
        lay.stvert = 84 + 12 + (sub * m.skin_width * m.skin_height) % 4294967296) := by
  have hadv : skinGroupAdvance sub m.skin_width m.skin_height
      = 12 + (sub * m.skin_width * m.skin_height) % 4294967296 := by
    simp [skinGroupAdvance, sizeof_skin_group_s, Nat.mod_mul_mod]
  refine ⟨by rw [skinWalk_group_step buf _ _ n skin ht hne hs, hadv], fun hpos => ?_,
    fun h1 hskin => ?_⟩
  · have hle := Nat.mod_le (sub * m.skin_width * m.skin_height) 4294967296
    have : sub * m.skin_width * m.skin_height = sub * (m.skin_width * m.skin_height) := by ring
    simp only [specSkinGroupSize]
    omega
  · subst hskin
    refine ⟨_, by
      rw [layout, h1, skinWalk_group_step buf _ _ 0 sizeof_mdl_s ht hne hs, hadv]
      rfl, ?_⟩
    dsimp only [sizeof_mdl_s]
    omega

set_option maxRecDepth 100000 in
/-- Witness for C5 on the model with one animated skin group. -/
theorem skin_group_advance_witness :
    (rd32 groupSkinModel 84 = some 1 ∧ (1 : Nat) ≠ 0 ∧ rd32 groupSkinModel (84 + 4) = some 3) ∧
    (skinWalk groupSkinModel (mkMdl 1 2 1 1 1 1).skin_width (mkMdl 1 2 1 1 1 1).skin_height
        (0 + 1) 84
      = skinWalk groupSkinModel (mkMdl 1 2 1 1 1 1).skin_width (mkMdl 1 2 1 1 1 1).skin_height 0
          (84 + (12 + (3 * (mkMdl 1 2 1 1 1 1).skin_width * (mkMdl 1 2 1 1 1 1).skin_height)
            % 4294967296)) ∧
    (0 < 3 → 12 + (3 * (mkMdl 1 2 1 1 1 1).skin_width * (mkMdl 1 2 1 1 1 1).skin_height)
        % 4294967296
      < specSkinGroupSize 3 (mkMdl 1 2 1 1 1 1).skin_width (mkMdl 1 2 1 1 1 1).skin_height) ∧
    ((mkMdl 1 2 1 1 1 1).num_skins = 1 → 84 = sizeof_mdl_s →
      ∃ lay, layout groupSkinModel (mkMdl 1 2 1 1 1 1) = some lay ∧
        lay.stvert = 84 + 12 + (3 * (mkMdl 1 2 1 1 1 1).skin_width
          * (mkMdl 1 2 1 1 1 1).skin_height) % 4294967296)) :=
  ⟨by decide,
   skin_group_advance groupSkinModel (mkMdl 1 2 1 1 1 1) 0 84 1 3 (by decide) (by decide)
     (by decide)⟩

set_option maxRecDepth 100000 in
/-- C5 fails as stated: `groupSkinModel` holds one animated skin group of 3
sub-images in the layout of the specification, so its skin block ends at offset
`84 + specSkinGroupSize 3 2 1 = 114`, where the texcoord record (1, 7, 9) is stored.
The walk places the texcoord table at offset 102, and the first texcoord record
it reads there is not the stored one. -/
theorem skin_group_texcoords_misplaced :
    readMdl groupSkinModel = some (mkMdl 1 2 1 1 1 1) ∧
    rd32 groupSkinModel 84 = some 1 ∧ rd32 groupSkinModel 88 = some 3 ∧
    sizeof_mdl_s + specSkinGroupSize 3 2 1 = 114 ∧
    stvert_at groupSkinModel 114 0 = some ⟨1, 7, 9⟩ ∧
    layout groupSkinModel (mkMdl 1 2 1 1 1 1) = some ⟨102, 114, 130⟩ ∧
    stvert_at groupSkinModel 102 0 = some ⟨2577022540, 202063513, 538908181⟩ ∧
    (convert "m" groupSkinModel).map Output.objs =
      some [("m.obj", [Line.mtllib "m.mtl", Line.usemtl "m", Line.v ⟨0, 0, 0⟩ ⟨0, 0, 0⟩ 0 0 0,
        Line.vt 202063513 2 538908181 1, Line.vt 202063514 2 538908181 1,
        Line.f 8 8 2 2 10 10])] := by
  decide

/-! ## C6: the sections follow one another -/

/-- C6: for a model whose `num_skins` skin entries are all simple and whose
`skin_width * skin_height` fits in 32 bits, the walk runs to its end; the texcoord
table starts at `84 + num_skins * (4 + skin_width * skin_height)`, the triangle
table `12 * num_verts` bytes later and the frame table `16 * num_triangles` bytes
after that; the skin block is as long as the sum of the advances computed for its
entries. -/
theorem sections_contiguous (buf : Buf) (m : mdl_s) (_hm : readMdl buf = some m)
    (hsimple : ∀ i, i < m.num_skins →
      rd32 buf (84 + i * (4 + m.skin_width * m.skin_height)) = some 0)
    (hwh : m.skin_width * m.skin_height < 4294967296) :
    ∃ lay, layout buf m = some lay ∧
      lay.stvert = 84 + m.num_skins * (4 + m.skin_width * m.skin_height) ∧
      lay.triangle = lay.stvert + 12 * m.num_verts ∧
      lay.frame = lay.triangle + 16 * m.num_triangles ∧
      lay.stvert - 84 = ((List.range m.num_skins).map
        (fun _ => skinSimpleAdvance m.skin_width m.skin_height)).sum := by
  have hw := skinWalk_all_simple buf m.skin_width m.skin_height hwh m.num_skins sizeof_mdl_s
    (by simpa [sizeof_mdl_s] using hsimple)
  refine ⟨_, by rw [layout, hw]; rfl, by simp [sizeof_mdl_s], by simp [sizeof_stvert_s],
    by simp [sizeof_triangle_s], ?_⟩
  have hadv : skinSimpleAdvance m.skin_width m.skin_height
      = 4 + m.skin_width * m.skin_height := by
    simp [skinSimpleAdvance, sizeof_skin_s, Nat.mod_eq_of_lt hwh]
  simp [hadv, sizeof_mdl_s]

set_option maxRecDepth 100000 in
/-- Witness for C6 on a model with two simple skins. -/
theorem sections_contiguous_witness :
    (readMdl twoSkinModel = some (mkMdl 2 2 2 1 1 0) ∧
     (∀ i, i < (mkMdl 2 2 2 1 1 0).num_skins →
      rd32 twoSkinModel
        (84 + i * (4 + (mkMdl 2 2 2 1 1 0).skin_width * (mkMdl 2 2 2 1 1 0).skin_height))
        = some 0) ∧
     (mkMdl 2 2 2 1 1 0).skin_width * (mkMdl 2 2 2 1 1 0).skin_height < 4294967296) ∧
    ∃ lay, layout twoSkinModel (mkMdl 2 2 2 1 1 0) = some lay ∧
      lay.stvert = 84 + (mkMdl 2 2 2 1 1 0).num_skins
        * (4 + (mkMdl 2 2 2 1 1 0).skin_width * (mkMdl 2 2 2 1 1 0).skin_height) ∧
      lay.triangle = lay.stvert + 12 * (mkMdl 2 2 2 1 1 0).num_verts ∧
      lay.frame = lay.triangle + 16 * (mkMdl 2 2 2 1 1 0).num_triangles ∧
      lay.stvert - 84 = ((List.range (mkMdl 2 2 2 1 1 0).num_skins).map
        (fun _ => skinSimpleAdvance (mkMdl 2 2 2 1 1 0).skin_width
          (mkMdl 2 2 2 1 1 0).skin_height)).sum :=
  ⟨by decide,
   sections_contiguous twoSkinModel (mkMdl 2 2 2 1 1 0) (by decide) (by decide) (by decide)⟩

/-! ## Frame loop -/

theorem frameAdvance_ge (type num_verts frame : Nat) :
    frame + 28 + 4 * num_verts ≤ frameAdvance type num_verts frame := by
  unfold frameAdvance
  simp only [sizeof_vert_s, sizeof_gfloat, sizeof_frame_s]
  split <;> omega

theorem frameAdvance_simple (num_verts frame : Nat) :
    frameAdvance 0 num_verts frame = frame + (28 + 4 * num_verts) := by
  simp only [frameAdvance, sizeof_vert_s, sizeof_frame_s]
  simp
  omega

theorem frameCursor_ge (buf : Buf) (nv : Nat) (n : Nat) :
    ∀ frame e, frameCursor buf nv n frame = some e → frame + n * (28 + 4 * nv) ≤ e := by
  induction n with
  | zero =>
    intro frame e h
    simp only [frameCursor, Option.some.injEq] at h
    omega
  | succ n ih =>
    intro frame e h
    simp only [frameCursor, Option.bind_eq_bind, Option.bind_eq_some] at h
    obtain ⟨type, _, h⟩ := h
    have h1 := ih _ _ h
    have h2 := frameAdvance_ge type nv frame
    have : (n + 1) * (28 + 4 * nv) = n * (28 + 4 * nv) + (28 + 4 * nv) := by ring
    omega

theorem frameCursor_all_simple (buf : Buf) (nv : Nat) (n : Nat) :
    ∀ frame, (∀ k, k < n → rd32 buf (frame + k * (28 + 4 * nv)) = some 0) →
      frameCursor buf nv n frame = some (frame + n * (28 + 4 * nv)) := by
  induction n with
  | zero => intro frame _; simp [frameCursor]
  | succ n ih =>
    intro frame hall
    have h0 : rd32 buf frame = some 0 := by simpa using hall 0 (by omega)
    simp only [frameCursor, h0, Option.bind_eq_bind, Option.some_bind, frameAdvance_simple]
    rw [ih (frame + (28 + 4 * nv)) (fun k hk => by
      have := hall (k + 1) (by omega)
      rw [← this]
      congr 1
      ring)]
    congr 1
    ring

theorem positionLine_of_le (buf : Buf) (m : mdl_s) (vert i : Nat)
    (h : vert + sizeof_vert_s * (i + 1) ≤ buf.length) :
    ∃ q0 q1 q2, rd8 buf (vert + 4 * i) = some q0 ∧ rd8 buf (vert + 4 * i + 1) = some q1 ∧
      rd8 buf (vert + 4 * i + 2) = some q2 ∧
      positionLine buf m vert i = some (Line.v m.scale m.origin q0 q1 q2) := by
  simp only [sizeof_vert_s] at h
  obtain ⟨q0, h0⟩ := rd8_of_lt buf (vert + 4 * i) (by omega)
  obtain ⟨q1, h1⟩ := rd8_of_lt buf (vert + 4 * i + 1) (by omega)
  obtain ⟨q2, h2⟩ := rd8_of_lt buf (vert + 4 * i + 2) (by omega)
  exact ⟨q0, q1, q2, h0, h1, h2, by simp [positionLine, sizeof_vert_s, h0, h1, h2]⟩

/-- The position pass on a pose array that lies inside the buffer: one record per
vertex, record `i` decoded from the bytes `vert + 4 * i + 0, 1, 2`. -/
theorem positionPass_of_le (buf : Buf) (m : mdl_s) (vert : Nat)
    (h : vert + sizeof_vert_s * m.num_verts ≤ buf.length) :
    ∃ vs, positionPass buf m vert = some vs ∧ vs.length = m.num_verts ∧
      ∀ i, i < m.num_verts → ∃ q0 q1 q2,
        rd8 buf (vert + 4 * i) = some q0 ∧ rd8 buf (vert + 4 * i + 1) = some q1 ∧
        rd8 buf (vert + 4 * i + 2) = some q2 ∧
        vs[i]? = some (Line.v m.scale m.origin q0 q1 q2) := by
  have key : ∀ i, i < m.num_verts → ∃ q0 q1 q2,
      rd8 buf (vert + 4 * i) = some q0 ∧ rd8 buf (vert + 4 * i + 1) = some q1 ∧
      rd8 buf (vert + 4 * i + 2) = some q2 ∧
      positionLine buf m vert i = some (Line.v m.scale m.origin q0 q1 q2) := by
    intro i hi
    apply positionLine_of_le
    simp only [sizeof_vert_s] at h ⊢
    omega
  obtain ⟨vs, hvs⟩ := collect_of_forall (positionLine buf m vert) m.num_verts 0 (fun j hj => by
    obtain ⟨q0, q1, q2, -, -, -, hq⟩ := key j hj
    exact ⟨_, by rw [Nat.zero_add]; exact hq⟩)
  obtain ⟨hlen, hall⟩ := (collect_eq_some_iff _ _ _ _).1 hvs
  refine ⟨vs, hvs, hlen, fun i hi => ?_⟩
  obtain ⟨q0, q1, q2, h0, h1, h2, hq⟩ := key i hi
  refine ⟨q0, q1, q2, h0, h1, h2, ?_⟩
  rw [← hall i hi, Nat.zero_add, hq]

theorem emitFrame_obj_irrelevant (buf : Buf) (m : mdl_s) (mdl_name : String) (lay : Layout)
    (obj : List Line) (vert : Nat) :
    emitFrame buf m mdl_name lay obj vert = emitFrame buf m mdl_name lay [] vert := rfl

theorem emitFrame_eq (buf : Buf) (m : mdl_s) (mdl_name : String) (lay : Layout)
    (obj : List Line) (vert : Nat) {vs uvs fs : List Line}
    (hv : positionPass buf m vert = some vs) (hu : uvPass buf m lay.stvert = some uvs)
    (hf : facePass buf m lay.stvert lay.triangle = some fs) :
    emitFrame buf m mdl_name lay obj vert
      = some ([Line.mtllib (mdl_name ++ ".mtl"), Line.usemtl mdl_name] ++ vs ++ uvs ++ fs) := by
  simp [emitFrame, hv, hu, hf, g_string_printf, g_string_append_printf]

/-- What the frame loop returns, if it runs to its end: one file per iteration,
file `j` named for the counter `k + j` and holding the text emitted for the pose
array 28 bytes after the cursor of that iteration. -/
theorem frameLoop_records (buf : Buf) (m : mdl_s) (mdl_name : String) (lay : Layout) (n : Nat) :
    ∀ (k frame : Nat) (obj : List Line) (outs : List (String × List Line)),
      frameLoop buf m mdl_name lay n k frame obj = some outs →
      outs.length = n ∧ ∀ j, j < n → ∃ c text,
        frameCursor buf m.num_verts j frame = some c ∧
        emitFrame buf m mdl_name lay [] (c + 28) = some text ∧
        outs[j]? = some (outFile mdl_name m.num_frames (k + j), text) := by
  induction n with
  | zero =>
    intro k frame obj outs h
    simp only [frameLoop, Option.some.injEq] at h
    subst h
    exact ⟨rfl, fun j hj => absurd hj (Nat.not_lt_zero j)⟩
  | succ n ih =>
    intro k frame obj outs h
    simp only [frameLoop, Option.bind_eq_bind, Option.bind_eq_some, Option.pure_def,
      Option.some.injEq] at h
    obtain ⟨type, htype, text, htext, rest, hrest, rfl⟩ := h
    obtain ⟨hlen, hall⟩ := ih _ _ _ _ hrest
    refine ⟨by simp [hlen], fun j hj => ?_⟩
    cases j with
    | zero =>
      exact ⟨frame, text, rfl, by rw [← htext]; rfl, by simp⟩
    | succ j =>
      obtain ⟨c, t, hc, ht, hj⟩ := hall j (by omega)
      refine ⟨c, t, by simp [frameCursor, htype, hc], ht, ?_⟩
      simp only [List.getElem?_cons_succ, hj]
      congr 3
      omega

/-- The frame loop runs to its end when the tables and all frame blocks lie
inside the buffer. -/
theorem frameLoop_of_readable (buf : Buf) (m : mdl_s) (mdl_name : String) (lay : Layout)
    (hst : lay.stvert + sizeof_stvert_s * m.num_verts ≤ buf.length)
    (hfaces : FacesReadable buf m lay.stvert lay.triangle) (n : Nat) :
    ∀ (k frame : Nat) (obj : List Line) (e : Nat),
      frameCursor buf m.num_verts n frame = some e → e ≤ buf.length →
      ∃ outs, frameLoop buf m mdl_name lay n k frame obj = some outs := by
  obtain ⟨sts, hsts⟩ := stverts_of_le buf lay.stvert m.num_verts hst
  obtain ⟨fs, hfs, -, -⟩ := facePass_records buf m lay.stvert lay.triangle hfaces
  induction n with
  | zero => intro k frame obj e _ _; exact ⟨[], rfl⟩
  | succ n ih =>
    intro k frame obj e he hle
    simp only [frameCursor, Option.bind_eq_bind, Option.bind_eq_some] at he
    obtain ⟨type, htype, he⟩ := he
    have h1 := frameCursor_ge buf m.num_verts n _ _ he
    have h2 := frameAdvance_ge type m.num_verts frame
    obtain ⟨vs, hvs, -, -⟩ := positionPass_of_le buf m (frame + sizeof_frame_s) (by
      simp only [sizeof_frame_s, sizeof_vert_s]
      omega)
    obtain ⟨text, htext⟩ : ∃ text, emitFrame buf m mdl_name lay obj (frame + sizeof_frame_s)
        = some text :=
      ⟨_, emitFrame_eq buf m mdl_name lay obj _ hvs (uvPass_of_stverts hsts) hfs⟩
    obtain ⟨rest, hrest⟩ := ih (k + 1) (frameAdvance type m.num_verts frame) text e he hle
    exact ⟨(outFile mdl_name m.num_frames k, text) :: rest, by
      simp [frameLoop, htype, htext, hrest]⟩

theorem layout_offsets {buf : Buf} {m : mdl_s} {lay : Layout} (h : layout buf m = some lay) :
    lay.triangle = lay.stvert + 12 * m.num_verts ∧
    lay.frame = lay.triangle + 16 * m.num_triangles := by
  simp only [layout, Option.bind_eq_bind, Option.bind_eq_some, Option.pure_def,
    Option.some.injEq] at h
  obtain ⟨skin, _, rfl⟩ := h
  simp [sizeof_stvert_s, sizeof_triangle_s]

/-- A readable run completes, and its mesh files are those of `frameLoop_records`. -/
theorem convert_of_readable (mdl_name : String) (buf : Buf) (m : mdl_s) (lay : Layout)
    (hm : readMdl buf = some m) (hlay : layout buf m = some lay) (hr : Readable buf m lay) :
    ∃ out, convert mdl_name buf = some out ∧ out.mtl_file = mdl_name ++ ".mtl" ∧
      out.mtl = materialRecord mdl_name ∧
      out.objs.length = m.num_frames ∧ ∀ j, j < m.num_frames → ∃ c text,
        frameCursor buf m.num_verts j lay.frame = some c ∧
        emitFrame buf m mdl_name lay [] (c + 28) = some text ∧
        out.objs[j]? = some (outFile mdl_name m.num_frames j, text) := by
  obtain ⟨hfaces, e, he, hle⟩ := hr
  obtain ⟨h1, h2⟩ := layout_offsets hlay
  have hst : lay.stvert + sizeof_stvert_s * m.num_verts ≤ buf.length := by
    have := hfaces.1
    simp only [sizeof_stvert_s, sizeof_triangle_s] at this ⊢
    omega
  obtain ⟨outs, houts⟩ := frameLoop_of_readable buf m mdl_name lay hst hfaces m.num_frames 0
    lay.frame [Line.text (materialRecord mdl_name)] e he hle
  obtain ⟨hlen, hall⟩ := frameLoop_records buf m mdl_name lay m.num_frames 0 lay.frame
    [Line.text (materialRecord mdl_name)] outs
    houts
  refine ⟨⟨mdl_name ++ ".mtl", materialRecord mdl_name, outs⟩, ?_, rfl, rfl, hlen,
    fun j hj => ?_⟩
  · simp [convert, hm, hlay, houts]
  · obtain ⟨c, text, hc, ht, hj⟩ := hall j hj
    exact ⟨c, text, hc, ht, by simpa using hj⟩

/-! ## C7: where the pose of a group frame is read -/

set_option maxRecDepth 100000 in
/-- C7, evaluation at the failing input: in `groupFrameModel` frame 0 is tagged as
a group and starts at offset 112.  The cursor moves on by 44 bytes to offset 156,
so the pose array of the block is its last four bytes, at offset 152, which hold
(1, 2, 3).  The position record written to the file of frame 0 is decoded from
offset 140, the bytes (10, 11, 12) of the bounding pair.  Frame 1, a simple frame,
is emitted from its own pose (4, 5, 6). -/
theorem group_frame_pose_read_before_skip :
    readMdl groupFrameModel = some (mkMdl 0 8 8 1 1 2) ∧
    layout groupFrameModel (mkMdl 0 8 8 1 1 2) = some ⟨84, 96, 112⟩ ∧
    rd32 groupFrameModel 112 = some 1 ∧
    frameCursor groupFrameModel 1 1 112 = some 156 ∧
    positionPass groupFrameModel (mkMdl 0 8 8 1 1 2) 152
      = some [Line.v ⟨0, 0, 0⟩ ⟨0, 0, 0⟩ 1 2 3] ∧
    positionPass groupFrameModel (mkMdl 0 8 8 1 1 2) 140
      = some [Line.v ⟨0, 0, 0⟩ ⟨0, 0, 0⟩ 10 11 12] ∧
    (convert "m" groupFrameModel).map Output.objs =
      some [("m_0.obj", [Line.mtllib "m.mtl", Line.usemtl "m",
              Line.v ⟨0, 0, 0⟩ ⟨0, 0, 0⟩ 10 11 12, Line.vt 3 8 4 8, Line.f 1 1 1 1 1 1]),
            ("m_1.obj", [Line.mtllib "m.mtl", Line.usemtl "m",
              Line.v ⟨0, 0, 0⟩ ⟨0, 0, 0⟩ 4 5 6, Line.vt 3 8 4 8, Line.f 1 1 1 1 1 1])] := by
  decide

/-! ## C8: frame `k` emits pose `k` -/

/-- C8: for a model whose frames are all simple and lie inside the buffer, the
run completes and, for every `k < num_frames`, the position records of mesh file
`k` are decoded from the `num_verts` four-byte records that start at offset
`F + k * (28 + 4 * num_verts) + 28`, `F` being the start of the frame table; for
`k = 0` this is the pose array right after the first frame header. -/
theorem frame_k_emits_pose_k (mdl_name : String) (buf : Buf) (m : mdl_s) (lay : Layout)
    (hm : readMdl buf = some m) (hlay : layout buf m = some lay)
    (hfaces : FacesReadable buf m lay.stvert lay.triangle)
    (hlen : lay.frame + m.num_frames * (28 + 4 * m.num_verts) ≤ buf.length)
    (hsimple : ∀ k, k < m.num_frames →
      rd32 buf (lay.frame + k * (28 + 4 * m.num_verts)) = some 0) :
    ∃ out, convert mdl_name buf = some out ∧ out.objs.length = m.num_frames ∧
      ∀ k, k < m.num_frames → ∃ vs rest,
        out.objs[k]? = some (outFile mdl_name m.num_frames k,
          [Line.mtllib (mdl_name ++ ".mtl"), Line.usemtl mdl_name] ++ vs ++ rest) ∧
        vs.length = m.num_verts ∧
        ∀ i, i < m.num_verts → ∃ q0 q1 q2,
          rd8 buf (lay.frame + k * (28 + 4 * m.num_verts) + 28 + 4 * i) = some q0 ∧
          rd8 buf (lay.frame + k * (28 + 4 * m.num_verts) + 28 + 4 * i + 1) = some q1 ∧
          rd8 buf (lay.frame + k * (28 + 4 * m.num_verts) + 28 + 4 * i + 2) = some q2 ∧
          vs[i]? = some (Line.v m.scale m.origin q0 q1 q2) := by
  have hr : Readable buf m lay :=
    ⟨hfaces, _, frameCursor_all_simple buf m.num_verts m.num_frames lay.frame hsimple, hlen⟩
  obtain ⟨out, hout, -, -, hlen2, hall⟩ := convert_of_readable mdl_name buf m lay hm hlay hr
  obtain ⟨h1, h2⟩ := layout_offsets hlay
  have hst : lay.stvert + sizeof_stvert_s * m.num_verts ≤ buf.length := by
    have := hfaces.1
    simp only [sizeof_stvert_s, sizeof_triangle_s] at this ⊢
    omega
  obtain ⟨sts, hsts⟩ := stverts_of_le buf lay.stvert m.num_verts hst
  obtain ⟨fs, hfs, -, -⟩ := facePass_records buf m lay.stvert lay.triangle hfaces
  refine ⟨out, hout, hlen2, fun k hk => ?_⟩
  obtain ⟨c, text, hc, htext, hrec⟩ := hall k hk
  rw [frameCursor_all_simple buf m.num_verts k lay.frame
    (fun j hj => hsimple j (by omega))] at hc
  obtain rfl := Option.some.inj hc
  have hbound : lay.frame + k * (28 + 4 * m.num_verts) + 28 + sizeof_vert_s * m.num_verts
      ≤ buf.length := by
    have : (k + 1) * (28 + 4 * m.num_verts) ≤ m.num_frames * (28 + 4 * m.num_verts) :=
      Nat.mul_le_mul_right _ hk
    have : (k + 1) * (28 + 4 * m.num_verts)
        = k * (28 + 4 * m.num_verts) + (28 + 4 * m.num_verts) := by ring
    simp only [sizeof_vert_s]
    omega
  obtain ⟨vs, hvs, hvlen, hvall⟩ := positionPass_of_le buf m _ hbound
  obtain ⟨uvs, huvs⟩ : ∃ uvs, uvPass buf m lay.stvert = some uvs :=
    ⟨_, uvPass_of_stverts hsts⟩
  rw [emitFrame_eq buf m mdl_name lay [] _ hvs huvs hfs] at htext
  obtain rfl := Option.some.inj htext
  exact ⟨vs, uvs ++ fs, by rw [hrec, List.append_assoc], hvlen, hvall⟩

set_option maxRecDepth 100000 in
/-- Witness for C8 on the model with three simple frames. -/
theorem frame_k_emits_pose_k_witness :
    (readMdl threeFrameModel = some (mkMdl 0 8 8 1 1 3) ∧
     layout threeFrameModel (mkMdl 0 8 8 1 1 3) = some ⟨84, 96, 112⟩ ∧
     112 + (mkMdl 0 8 8 1 1 3).num_frames * (28 + 4 * (mkMdl 0 8 8 1 1 3).num_verts)
       ≤ threeFrameModel.length) ∧
    ∃ out, convert "m" threeFrameModel = some out ∧
      out.objs.length = (mkMdl 0 8 8 1 1 3).num_frames ∧
      ∀ k, k < (mkMdl 0 8 8 1 1 3).num_frames → ∃ vs rest,
        out.objs[k]? = some (outFile "m" (mkMdl 0 8 8 1 1 3).num_frames k,
          [Line.mtllib ("m" ++ ".mtl"), Line.usemtl "m"] ++ vs ++ rest) ∧
        vs.length = (mkMdl 0 8 8 1 1 3).num_verts ∧
        ∀ i, i < (mkMdl 0 8 8 1 1 3).num_verts → ∃ q0 q1 q2,
          rd8 threeFrameModel
            ((⟨84, 96, 112⟩ : Layout).frame + k * (28 + 4 * (mkMdl 0 8 8 1 1 3).num_verts)
              + 28 + 4 * i) = some q0 ∧
          rd8 threeFrameModel
            ((⟨84, 96, 112⟩ : Layout).frame + k * (28 + 4 * (mkMdl 0 8 8 1 1 3).num_verts)
              + 28 + 4 * i + 1) = some q1 ∧
          rd8 threeFrameModel
            ((⟨84, 96, 112⟩ : Layout).frame + k * (28 + 4 * (mkMdl 0 8 8 1 1 3).num_verts)
              + 28 + 4 * i + 2) = some q2 ∧
          vs[i]? = some (Line.v (mkMdl 0 8 8 1 1 3).scale (mkMdl 0 8 8 1 1 3).origin q0 q1 q2) :=
  ⟨by decide,
   frame_k_emits_pose_k "m" threeFrameModel (mkMdl 0 8 8 1 1 3) ⟨84, 96, 112⟩ (by decide)
     (by decide) (by unfold FacesReadable; decide) (by decide) (by decide)⟩

/-! ## Decimal rendering -/

theorem digitChar_inj :
    ∀ a, a < 10 → ∀ b, b < 10 → Nat.digitChar a = Nat.digitChar b → a = b := by
  decide

theorem toDigitsCore_append (f : Nat) : ∀ (n : Nat) (ds : List Char),
    Nat.toDigitsCore 10 f n ds = Nat.toDigitsCore 10 f n [] ++ ds := by
  induction f with
  | zero => intro n ds; simp [Nat.toDigitsCore]
  | succ f ih =>
    intro n ds
    simp only [Nat.toDigitsCore]
    split
    · simp
    · rw [ih (n / 10) (Nat.digitChar (n % 10) :: ds), ih (n / 10) [Nat.digitChar (n % 10)]]
      simp

theorem toDigitsCore_ne_nil (f n : Nat) : Nat.toDigitsCore 10 (f + 1) n [] ≠ [] := by
  simp only [Nat.toDigitsCore]
  split
  · simp
  · rw [toDigitsCore_append]
    simp

theorem toDigitsCore_inj (f : Nat) : ∀ (n g k : Nat), n < f → k < g →
    Nat.toDigitsCore 10 f n [] = Nat.toDigitsCore 10 g k [] → n = k := by
  induction f with
  | zero => intro n g k hn; omega
  | succ f ih =>
    intro n g k hn hk h
    cases g with
    | zero => omega
    | succ g =>
      simp only [Nat.toDigitsCore] at h
      have hd : ∀ a b : Nat, Nat.digitChar (a % 10) = Nat.digitChar (b % 10) →
          a % 10 = b % 10 :=
        fun a b => digitChar_inj _ (Nat.mod_lt _ (by omega)) _ (Nat.mod_lt _ (by omega))
      by_cases h1 : n / 10 = 0 <;> by_cases h2 : k / 10 = 0
      · simp only [h1, h2, if_true, List.cons.injEq, and_true] at h
        have := hd _ _ h
        omega
      · exfalso
        simp only [h1, h2, if_true, if_false] at h
        rw [toDigitsCore_append] at h
        have hlen := congrArg List.length h
        cases g with
        | zero => omega
        | succ g =>
          have := List.length_pos.2 (toDigitsCore_ne_nil g (k / 10))
          simp only [List.length_append, List.length_cons, List.length_nil] at hlen
          omega
      · exfalso
        simp only [h1, h2, if_true, if_false] at h
        rw [toDigitsCore_append] at h
        have hlen := congrArg List.length h
        cases f with
        | zero => omega
        | succ f =>
          have := List.length_pos.2 (toDigitsCore_ne_nil f (n / 10))
          simp only [List.length_append, List.length_cons, List.length_nil] at hlen
          omega
      · simp only [h1, h2, if_false] at h
        rw [toDigitsCore_append f, toDigitsCore_append g] at h
        obtain ⟨h3, h4⟩ := List.append_inj' h rfl
        have h5 := ih (n / 10) g (k / 10) (by omega) (by omega) h3
        simp only [List.cons.injEq, and_true] at h4
        have := hd _ _ h4
        omega

theorem fmt_d_inj {a b : Nat} (h : fmt_d a = fmt_d b) : a = b := by
  have h2 : Nat.toDigits 10 a = Nat.toDigits 10 b := congrArg String.data h
  exact toDigitsCore_inj _ _ _ _ (Nat.lt_succ_self a) (Nat.lt_succ_self b) h2

/-! ## Names of the mesh files -/

theorem outFile_one (mdl_name : String) (k : Nat) :
    outFile mdl_name 1 k = mdl_name ++ ".obj" := by
  simp [outFile]

theorem outFile_many (mdl_name : String) {nf : Nat} (h : nf ≠ 1) (k : Nat) :
    outFile mdl_name nf k = mdl_name ++ "_" ++ toString k ++ ".obj" := by
  simp [outFile, h, fmt_d]

theorem outFile_inj (mdl_name : String) {nf : Nat} (h : nf ≠ 1) {j k : Nat}
    (e : outFile mdl_name nf j = outFile mdl_name nf k) : j = k := by
  simp only [outFile, h, if_false] at e
  have e2 := congrArg String.data e
  simp only [String.data_append] at e2
  have e3 := List.append_cancel_right e2
  have e4 := List.append_cancel_left e3
  exact fmt_d_inj (String.ext e4)

theorem outFile_many_ne (mdl_name : String) {nf : Nat} (h : nf ≠ 1) (k : Nat) :
    outFile mdl_name nf k ≠ mdl_name ++ ".obj" := by
  intro e
  simp only [outFile, h, if_false] at e
  have e2 := congrArg String.data e
  simp only [String.data_append, List.append_assoc] at e2
  have e3 := List.append_cancel_left e2
  simp only [List.cons_append, List.nil_append, List.cons.injEq] at e3
  exact absurd e3.1 (by decide)

/-! ## C9: names of the mesh files -/

/-- C9: a readable run completes and writes exactly `num_frames` mesh files.
When `num_frames = 1` the only file is `<mdl_name>.obj`; otherwise file `k` is
`<mdl_name>_<k>.obj` with `k` in decimal for every `k < num_frames`.  The names are
pairwise distinct, and when `num_frames != 1` none of them is `<mdl_name>.obj`. -/
theorem frame_file_names (mdl_name : String) (buf : Buf) (m : mdl_s) (lay : Layout)
    (hm : readMdl buf = some m) (hlay : layout buf m = some lay) (hr : Readable buf m lay) :
    ∃ out, convert mdl_name buf = some out ∧
      out.objs.length = m.num_frames ∧
      (m.num_frames = 1 → out.objs.map Prod.fst = [mdl_name ++ ".obj"]) ∧
      (m.num_frames ≠ 1 → ∀ k, k < m.num_frames →
        (out.objs.map Prod.fst)[k]? = some (mdl_name ++ "_" ++ toString k ++ ".obj")) ∧
      (out.objs.map Prod.fst).Nodup ∧
      (m.num_frames ≠ 1 → mdl_name ++ ".obj" ∉ out.objs.map Prod.fst) := by
  obtain ⟨out, hout, -, -, hlen, hall⟩ := convert_of_readable mdl_name buf m lay hm hlay hr
  have hname : ∀ k, k < m.num_frames →
      (out.objs.map Prod.fst)[k]? = some (outFile mdl_name m.num_frames k) := by
    intro k hk
    obtain ⟨c, text, -, -, hrec⟩ := hall k hk
    simp [hrec]
  have hnone : ∀ k, m.num_frames ≤ k → (out.objs.map Prod.fst)[k]? = none := by
    intro k hk
    apply List.getElem?_eq_none
    simpa [hlen] using hk
  refine ⟨out, hout, hlen, fun h1 => ?_, fun hne k hk => ?_, ?_, fun hne hmem => ?_⟩
  · apply List.ext_getElem?
    intro k
    by_cases hk : k < m.num_frames
    · rw [hname k hk, h1, outFile_one]
      have : k = 0 := by omega
      subst this
      rfl
    · rw [hnone k (by omega)]
      have : 1 ≤ k := by omega
      exact (List.getElem?_eq_none (by simpa using this)).symm
  · rw [hname k hk, outFile_many mdl_name hne]
  · rw [List.nodup_iff_getElem?_ne_getElem?]
    intro i j hij hj
    have hj2 : j < m.num_frames := by simpa [hlen] using hj
    rw [hname i (by omega), hname j hj2]
    intro e
    have hne : m.num_frames ≠ 1 := by omega
    have := outFile_inj mdl_name hne (Option.some.inj e)
    omega
  · obtain ⟨k, hk⟩ := List.mem_iff_getElem?.1 hmem
    by_cases hlt : k < m.num_frames
    · rw [hname k hlt] at hk
      exact outFile_many_ne mdl_name hne k (Option.some.inj hk)
    · rw [hnone k (by omega)] at hk
      exact absurd hk (by simp)

set_option maxRecDepth 100000 in
/-- Witness for C9 on the model with three frames: the files are `m_0.obj`,
`m_1.obj`, `m_2.obj`. -/
theorem frame_file_names_witness :
    (readMdl threeFrameModel = some (mkMdl 0 8 8 1 1 3) ∧
     layout threeFrameModel (mkMdl 0 8 8 1 1 3) = some ⟨84, 96, 112⟩ ∧
     (convert "m" threeFrameModel).map (fun o => o.objs.map Prod.fst)
       = some ["m_0.obj", "m_1.obj", "m_2.obj"]) ∧
    ∃ out, convert "m" threeFrameModel = some out ∧
      out.objs.length = (mkMdl 0 8 8 1 1 3).num_frames ∧
      ((mkMdl 0 8 8 1 1 3).num_frames = 1 → out.objs.map Prod.fst = ["m" ++ ".obj"]) ∧
      ((mkMdl 0 8 8 1 1 3).num_frames ≠ 1 → ∀ k, k < (mkMdl 0 8 8 1 1 3).num_frames →
        (out.objs.map Prod.fst)[k]? = some ("m" ++ "_" ++ toString k ++ ".obj")) ∧
      (out.objs.map Prod.fst).Nodup ∧
      ((mkMdl 0 8 8 1 1 3).num_frames ≠ 1 → "m" ++ ".obj" ∉ out.objs.map Prod.fst) :=
  ⟨by decide,
   frame_file_names "m" threeFrameModel (mkMdl 0 8 8 1 1 3) ⟨84, 96, 112⟩ (by decide)
     (by decide)
     ⟨by unfold FacesReadable; decide, 208, by decide, by decide⟩⟩

/-! ## Runs on a truncated buffer -/

theorem rd8_take {buf : Buf} {n off x : Nat} (h : rd8 (buf.take n) off = some x) :
    rd8 buf off = some x := by
  simp only [rd8, Option.map_eq_some'] at h ⊢
  obtain ⟨a, ha, rfl⟩ := h
  rw [List.getElem?_take] at ha
  split at ha
  · exact ⟨a, ha, rfl⟩
  · exact absurd ha (by simp)

section Extension

variable {a b : Buf} (hab : ∀ off x, rd8 a off = some x → rd8 b off = some x)
include hab

theorem rd32_ext {off x : Nat} (h : rd32 a off = some x) : rd32 b off = some x := by
  simp only [rd32, Option.bind_eq_bind, Option.bind_eq_some, Option.pure_def,
    Option.some.injEq] at h ⊢
  obtain ⟨b0, h0, b1, h1, b2, h2, b3, h3, rfl⟩ := h
  exact ⟨b0, hab _ _ h0, b1, hab _ _ h1, b2, hab _ _ h2, b3, hab _ _ h3, rfl⟩

theorem rdVec3_ext {off : Nat} {v : vec3_s} (h : rdVec3 a off = some v) :
    rdVec3 b off = some v := by
  simp only [rdVec3, Option.bind_eq_bind, Option.bind_eq_some, Option.pure_def,
    Option.some.injEq] at h ⊢
  obtain ⟨x, hx, y, hy, z, hz, rfl⟩ := h
  exact ⟨x, rd32_ext hab hx, y, rd32_ext hab hy, z, rd32_ext hab hz, rfl⟩

theorem readMdl_ext {m : mdl_s} (h : readMdl a = some m) : readMdl b = some m := by
  simp only [readMdl, Option.bind_eq_bind, Option.bind_eq_some, Option.pure_def,
    Option.some.injEq] at h ⊢
  obtain ⟨sc, h1, og, h2, ns, h3, w, h4, ht, h5, nv, h6, nt, h7, nf, h8, rfl⟩ := h
  exact ⟨sc, rdVec3_ext hab h1, og, rdVec3_ext hab h2, ns, rd32_ext hab h3, w, rd32_ext hab h4,
    ht, rd32_ext hab h5, nv, rd32_ext hab h6, nt, rd32_ext hab h7, nf, rd32_ext hab h8, rfl⟩

theorem stvert_at_ext {stvert i : Nat} {st : stvert_s} (h : stvert_at a stvert i = some st) :
    stvert_at b stvert i = some st := by
  simp only [stvert_at, Option.bind_eq_bind, Option.bind_eq_some, Option.pure_def,
    Option.some.injEq] at h ⊢
  obtain ⟨x, hx, y, hy, z, hz, rfl⟩ := h
  exact ⟨x, rd32_ext hab hx, y, rd32_ext hab hy, z, rd32_ext hab hz, rfl⟩

theorem triangle_at_ext {triangle i : Nat} {tri : triangle_s}
    (h : triangle_at a triangle i = some tri) : triangle_at b triangle i = some tri := by
  simp only [triangle_at, Option.bind_eq_bind, Option.bind_eq_some, Option.pure_def,
    Option.some.injEq] at h ⊢
  obtain ⟨x, hx, y, hy, z, hz, w, hw, rfl⟩ := h
  exact ⟨x, rd32_ext hab hx, y, rd32_ext hab hy, z, rd32_ext hab hz, w, rd32_ext hab hw, rfl⟩

theorem skinWalk_ext (w h : Nat) (n : Nat) : ∀ (skin e : Nat),
    skinWalk a w h n skin = some e → skinWalk b w h n skin = some e := by
  induction n with
  | zero => intro skin e he; simpa [skinWalk] using he
  | succ n ih =>
    intro skin e he
    simp only [skinWalk, Option.bind_eq_bind, Option.bind_eq_some] at he ⊢
    obtain ⟨type, ht, he⟩ := he
    refine ⟨type, rd32_ext hab ht, ?_⟩
    by_cases hty : type ≠ 0
    · rw [if_pos hty] at he ⊢
      simp only [Option.bind_eq_some] at he ⊢
      obtain ⟨sub, hs, he⟩ := he
      exact ⟨sub, rd32_ext hab hs, ih _ _ he⟩
    · rw [if_neg hty] at he ⊢
      exact ih _ _ he

theorem layout_ext {m : mdl_s} {lay : Layout} (h : layout a m = some lay) :
    layout b m = some lay := by
  simp only [layout, Option.bind_eq_bind, Option.bind_eq_some, Option.pure_def,
    Option.some.injEq] at h ⊢
  obtain ⟨skin, hs, rfl⟩ := h
  exact ⟨skin, skinWalk_ext hab _ _ _ _ _ hs, rfl⟩

theorem positionLine_ext {m : mdl_s} {vert i : Nat} {l : Line}
    (h : positionLine a m vert i = some l) : positionLine b m vert i = some l := by
  simp only [positionLine, Option.bind_eq_bind, Option.bind_eq_some, Option.pure_def,
    Option.some.injEq] at h ⊢
  obtain ⟨x, hx, y, hy, z, hz, rfl⟩ := h
  exact ⟨x, hab _ _ hx, y, hab _ _ hy, z, hab _ _ hz, rfl⟩

theorem uvIndex_ext {stvert nv front v t : Nat} (h : uvIndex a stvert nv front v = some t) :
    uvIndex b stvert nv front v = some t := by
  unfold uvIndex at h ⊢
  split
  · rename_i hf
    simp only [hf, if_true, on_seam_at, Option.bind_eq_bind, Option.bind_eq_some, Option.pure_def,
      Option.some.injEq] at h ⊢
    obtain ⟨seam, hs, rfl⟩ := h
    exact ⟨seam, rd32_ext hab hs, rfl⟩
  · rename_i hf
    simpa [hf] using h

theorem faceLine_ext {stvert nv : Nat} {tri : triangle_s} {l : Line}
    (h : faceLine a stvert nv tri = some l) : faceLine b stvert nv tri = some l := by
  simp only [faceLine, Option.bind_eq_bind, Option.bind_eq_some, Option.pure_def,
    Option.some.injEq] at h ⊢
  obtain ⟨x, hx, y, hy, z, hz, rfl⟩ := h
  exact ⟨x, uvIndex_ext hab hx, y, uvIndex_ext hab hy, z, uvIndex_ext hab hz, rfl⟩

end Extension

theorem collect_ext {α : Type} {f g : Nat → Option α}
    (hfg : ∀ i x, f i = some x → g i = some x) {i n : Nat} {l : List α}
    (h : collect f i n = some l) : collect g i n = some l := by
  obtain ⟨hlen, hall⟩ := (collect_eq_some_iff _ _ _ _).1 h
  refine (collect_eq_some_iff _ _ _ _).2 ⟨hlen, fun j hj => ?_⟩
  have hj2 : j < l.length := hlen ▸ hj
  have := hall j hj
  rw [List.getElem?_eq_getElem hj2] at this ⊢
  exact hfg _ _ this

section ExtensionPasses

variable {a b : Buf} (hab : ∀ off x, rd8 a off = some x → rd8 b off = some x)
include hab

theorem positionPass_ext {m : mdl_s} {vert : Nat} {vs : List Line}
    (h : positionPass a m vert = some vs) : positionPass b m vert = some vs :=
  collect_ext (fun _ _ hx => positionLine_ext hab hx) h

theorem uvPass_ext {m : mdl_s} {stvert : Nat} {uvs : List Line}
    (h : uvPass a m stvert = some uvs) : uvPass b m stvert = some uvs := by
  simp only [uvPass, primaryPass, Option.bind_eq_bind, Option.bind_eq_some, Option.pure_def,
    Option.some.injEq] at h
  obtain ⟨⟨prim, hack⟩, ⟨sts, hsts, hp⟩, h⟩ := h
  have hsts2 := collect_ext (fun _ _ hx => stvert_at_ext hab hx) hsts
  rw [uvPass_of_stverts hsts2]
  simp only [Prod.mk.injEq] at hp
  obtain ⟨rfl, rfl⟩ := hp
  split at h
  · rename_i hh
    simp only [Option.bind_eq_some, Option.some.injEq] at h
    obtain ⟨sec, hsec, rfl⟩ := h
    have hsec2 : secondaryPass b m stvert = some sec :=
      collect_ext (fun i x hx => by
        simp only [Option.map_eq_some'] at hx ⊢
        obtain ⟨st, hst, rfl⟩ := hx
        exact ⟨st, stvert_at_ext hab hst, rfl⟩) hsec
    rw [secondaryPass_of_stverts hsts2] at hsec2
    rw [if_pos hh, Option.some.inj hsec2]
  · rename_i hh
    rw [if_neg hh]
    exact h

theorem facePass_ext {m : mdl_s} {stvert triangle : Nat} {fs : List Line}
    (h : facePass a m stvert triangle = some fs) : facePass b m stvert triangle = some fs :=
  collect_ext (fun i x hx => by
    simp only [Option.bind_eq_some] at hx ⊢
    obtain ⟨tri, htri, hl⟩ := hx
    exact ⟨tri, triangle_at_ext hab htri, faceLine_ext hab hl⟩) h

theorem emitFrame_ext {m : mdl_s} {mdl_name : String} {lay : Layout} {obj : List Line}
    {vert : Nat} {text : List Line} (h : emitFrame a m mdl_name lay obj vert = some text) :
    emitFrame b m mdl_name lay obj vert = some text := by
  simp only [emitFrame, Option.bind_eq_bind, Option.bind_eq_some, Option.pure_def,
    Option.some.injEq] at h ⊢
  obtain ⟨vs, hvs, uvs, huvs, fs, hfs, rfl⟩ := h
  exact ⟨vs, positionPass_ext hab hvs, uvs, uvPass_ext hab huvs, fs, facePass_ext hab hfs, rfl⟩

theorem frameLoop_ext {m : mdl_s} {mdl_name : String} {lay : Layout} (n : Nat) :
    ∀ (k frame : Nat) (obj : List Line) (outs : List (String × List Line)),
      frameLoop a m mdl_name lay n k frame obj = some outs →
      frameLoop b m mdl_name lay n k frame obj = some outs := by
  induction n with
  | zero => intro k frame obj outs h; simpa [frameLoop] using h
  | succ n ih =>
    intro k frame obj outs h
    simp only [frameLoop, Option.bind_eq_bind, Option.bind_eq_some, Option.pure_def,
      Option.some.injEq] at h ⊢
    obtain ⟨type, ht, text, htext, rest, hrest, rfl⟩ := h
    exact ⟨type, rd32_ext hab ht, text, emitFrame_ext hab htext, rest, ih _ _ _ _ hrest, rfl⟩

theorem convert_ext {mdl_name : String} {out : Output} (h : convert mdl_name a = some out) :
    convert mdl_name b = some out := by
  simp only [convert, Option.bind_eq_bind, Option.bind_eq_some, Option.pure_def,
    Option.some.injEq] at h ⊢
  obtain ⟨m, hm, lay, hlay, objs, hobjs, rfl⟩ := h
  exact ⟨m, readMdl_ext hab hm, lay, layout_ext hab hlay, objs, frameLoop_ext hab _ _ _ _ _ hobjs,
    rfl⟩

end ExtensionPasses

/-! ## C10: truncated input -/

/-- A run that completes on the first `n` bytes of a buffer has read bytes of
these `n` only, and writes the same files on the whole buffer. -/
theorem convert_take {mdl_name : String} {buf : Buf} {n : Nat} {out : Output}
    (h : convert mdl_name (buf.take n) = some out) : convert mdl_name buf = some out :=
  convert_ext (fun _ _ hx => rd8_take hx) h

set_option maxRecDepth 100000 in
/-- C10 fails as stated: `plainModel` is 176 bytes long and its single frame block
ends exactly at offset 176; cut down to its first 175 bytes (the normal-index byte
of the last vertex is gone) it is converted without any failure, to the same
files as the whole model. -/
theorem truncated_model_converts :
    plainModel.length = 176 ∧
    readMdl plainModel = some (mkMdl 0 8 8 2 2 1) ∧
    layout plainModel (mkMdl 0 8 8 2 2 1) = some ⟨84, 108, 140⟩ ∧
    frameCursor plainModel 2 1 140 = some 176 ∧
    (plainModel.take 175).length = 175 ∧
    convert "m" (plainModel.take 175) = convert "m" plainModel ∧
    (convert "m" (plainModel.take 175)).map Output.objs =
      some [("m.obj", [Line.mtllib "m.mtl", Line.usemtl "m",
        Line.v ⟨0, 0, 0⟩ ⟨0, 0, 0⟩ 1 2 3, Line.v ⟨0, 0, 0⟩ ⟨0, 0, 0⟩ 4 5 6,
        Line.vt 3 8 4 8, Line.vt 5 8 6 8, Line.f 1 1 2 2 2 2, Line.f 1 1 2 2 2 2])] := by
  decide

/-! ## C17: advance over a frame block -/

theorem frameAdvance_eq (type num_verts frame : Nat) :
    frameAdvance type num_verts frame
      = frame + (28 + (if type ≠ 0 then 12 else 0) + 4 * num_verts) := by
  simp only [frameAdvance, sizeof_vert_s, sizeof_gfloat, sizeof_frame_s]
  split <;> omega

/-- C17 (as amended): when the tags of `n` frame blocks can be read along the
walk, the cursor of every block `k <= n` exists; the block after the one at
offset `c` with tag `type` starts at `c + 28 + 4 * num_verts`, plus 12 bytes (two
quantized vertex records and one float) exactly when `type != 0`; so the offset
of block `k` is the start of the frame table plus the sum of these sizes over
the tags of the blocks before it. -/
theorem frame_block_advance (buf : Buf) (nv n : Nat) :
    ∀ (F e : Nat), frameCursor buf nv n F = some e →
    ∃ tags : List Nat, tags.length = n ∧
      (∀ k, k ≤ n → frameCursor buf nv k F = some
        (F + ((tags.take k).map (fun t => 28 + (if t ≠ 0 then 12 else 0) + 4 * nv)).sum)) ∧
      (∀ k, k < n → ∃ c type, tags[k]? = some type ∧
        frameCursor buf nv k F = some c ∧ rd32 buf c = some type ∧
        frameCursor buf nv (k + 1) F
          = some (c + 28 + (if type ≠ 0 then 12 else 0) + 4 * nv)) := by
  induction n with
  | zero =>
    intro F e _
    refine ⟨[], rfl, fun k hk => ?_, fun k hk => absurd hk (Nat.not_lt_zero k)⟩
    have : k = 0 := by omega
    subst this
    simp [frameCursor]
  | succ n ih =>
    intro F e h
    simp only [frameCursor, Option.bind_eq_bind, Option.bind_eq_some] at h
    obtain ⟨type, htype, h⟩ := h
    obtain ⟨tags, hlen, hcur, hstep⟩ := ih _ _ h
    have hsucc : ∀ k, frameCursor buf nv (k + 1) F
        = frameCursor buf nv k (frameAdvance type nv F) := by
      intro k
      simp [frameCursor, htype]
    refine ⟨type :: tags, by simp [hlen], fun k hk => ?_, fun k hk => ?_⟩
    · cases k with
      | zero => simp [frameCursor]
      | succ k =>
        rw [hsucc, hcur k (by omega), frameAdvance_eq]
        simp only [List.take_succ_cons, List.map_cons, List.sum_cons]
        congr 1
        omega
    · cases k with
      | zero =>
        refine ⟨F, type, by simp, rfl, htype, ?_⟩
        rw [hsucc, frameAdvance_eq]
        simp only [frameCursor]
        congr 1
        omega
      | succ k =>
        obtain ⟨c, t, ht, hc, hrd, hnext⟩ := hstep k (by omega)
        exact ⟨c, t, by simpa using ht, by rw [hsucc]; exact hc, hrd, by rw [hsucc]; exact hnext⟩

set_option maxRecDepth 100000 in
/-- Witness for C17 on the model whose first frame is a group and whose second
frame is simple: the cursors are 112, 156 and 188. -/
theorem frame_block_advance_witness :
    frameCursor groupFrameModel 1 2 112 = some 188 ∧
    ∃ tags : List Nat, tags.length = 2 ∧
      (∀ k, k ≤ 2 → frameCursor groupFrameModel 1 k 112 = some
        (112 + ((tags.take k).map (fun t => 28 + (if t ≠ 0 then 12 else 0) + 4 * 1)).sum)) ∧
      (∀ k, k < 2 → ∃ c type, tags[k]? = some type ∧
        frameCursor groupFrameModel 1 k 112 = some c ∧ rd32 groupFrameModel c = some type ∧
        frameCursor groupFrameModel 1 (k + 1) 112
          = some (c + 28 + (if type ≠ 0 then 12 else 0) + 4 * 1)) :=
  ⟨by decide, frame_block_advance groupFrameModel 1 2 112 188 (by decide)⟩

set_option maxRecDepth 100000 in
/-- C17 fails as stated: the first frame block of `groupFrameModel`, at offset
112, is tagged as a group and the model has one vertex; header, bounding pair and
pose make `28 + 8 + 4 = 40` bytes, but the next block is taken at offset 156,
44 bytes later. -/
theorem group_frame_advance_adds_twelve :
    readMdl groupFrameModel = some (mkMdl 0 8 8 1 1 2) ∧
    layout groupFrameModel (mkMdl 0 8 8 1 1 2) = some ⟨84, 96, 112⟩ ∧
    rd32 groupFrameModel 112 = some 1 ∧
    specFrameBlockSize 1 1 = 40 ∧
    frameCursor groupFrameModel 1 1 112 = some 156 ∧
    156 ≠ 112 + specFrameBlockSize 1 1 := by
  decide

/-! ## C19: skin sizes wrap at 32 bits, table strides do not -/

set_option maxRecDepth 100000 in
/-- C19: the advance over a simple skin entry is `4 + (skin_width * skin_height)
mod 2^32` bytes and over a group entry `12 + (sub * skin_width * skin_height) mod
2^32` bytes; the triangle table starts `12 * num_verts` bytes after the texcoord
table, the frame table `16 * num_triangles` bytes after the triangle table, and a
frame block spans `4 * num_verts` bytes of pose, all without reduction modulo
2^32.  For the header of `wrapSkinModel` (`skin_width = skin_height = 65536`) the
walk runs to its end and places the texcoord table at offset 88, before the
offset `84 + 4 + 65536 * 65536` at which a skin of that size ends. -/
theorem skin_sizes_wrap (buf : Buf) (m : mdl_s) (n skin type : Nat)
    (ht : rd32 buf skin = some type) :
    (type = 0 → skinWalk buf m.skin_width m.skin_height (n + 1) skin
      = skinWalk buf m.skin_width m.skin_height n
          (skin + (4 + (m.skin_width * m.skin_height) % 4294967296))) ∧
    (type ≠ 0 → ∀ sub, rd32 buf (skin + 4) = some sub →
      skinWalk buf m.skin_width m.skin_height (n + 1) skin
        = skinWalk buf m.skin_width m.skin_height n
            (skin + (12 + (sub * m.skin_width * m.skin_height) % 4294967296))) ∧
    (∀ lay, layout buf m = some lay →
      lay.triangle = lay.stvert + 12 * m.num_verts ∧
      lay.frame = lay.triangle + 16 * m.num_triangles) ∧
    (∀ t frame, frameAdvance t m.num_verts frame
      = frame + (28 + (if t ≠ 0 then 12 else 0) + 4 * m.num_verts)) ∧
    (readMdl wrapSkinModel = some (mkMdl 1 65536 65536 1 1 0) ∧
     layout wrapSkinModel (mkMdl 1 65536 65536 1 1 0) = some ⟨88, 100, 116⟩ ∧
     88 < 84 + (4 + 65536 * 65536)) := by
  refine ⟨fun h0 => ?_, fun hne sub hs => ?_, fun lay hlay => layout_offsets hlay,
    fun t frame => frameAdvance_eq t m.num_verts frame, by decide⟩
  · subst h0
    rw [skinWalk_simple_step buf _ _ n skin ht]
    rfl
  · rw [skinWalk_group_step buf _ _ n skin ht hne hs]
    simp [skinGroupAdvance, sizeof_skin_group_s, Nat.mod_mul_mod]

set_option maxRecDepth 100000 in
/-- Witness for C19 on the skin entry of `wrapSkinModel`, at offset 84. -/
theorem skin_sizes_wrap_witness :
    rd32 wrapSkinModel 84 = some 0 ∧
    skinWalk wrapSkinModel 65536 65536 (0 + 1) 84
      = skinWalk wrapSkinModel 65536 65536 0 (84 + (4 + (65536 * 65536) % 4294967296)) ∧
    skinWalk wrapSkinModel 65536 65536 1 84 = some 88 :=
  ⟨by decide,
   ((skin_sizes_wrap wrapSkinModel (mkMdl 1 65536 65536 1 1 0) 0 84 0 (by decide)).1 rfl),
   by decide⟩

/-! ## C18: emitted indices are in range -/

theorem slotInRange_of_uvIndex {buf : Buf} {m : mdl_s} {stvert : Nat} {sts : List stvert_s}
    {front v t : Nat} (hsts : collect (stvert_at buf stvert) 0 m.num_verts = some sts)
    (hnv : 2 * m.num_verts < 2147483648)
    (hv : v < m.num_verts) (ht : uvIndex buf stvert m.num_verts front v = some t) :
    SlotInRange m.num_verts
      (if sts.any (fun st => decide (st.on_seam ≠ 0)) = true
        then sts.map (primaryLine m) ++ sts.map (secondaryLine m)
        else sts.map (primaryLine m)).length (toS32 (posIndex v)) (toS32 t) := by
  obtain ⟨hlen, hall⟩ := (collect_eq_some_iff _ _ _ _).1 hsts
  have hvl : v < sts.length := hlen ▸ hv
  have hget : sts[v]? = some sts[v] := List.getElem?_eq_getElem hvl
  have hst : stvert_at buf stvert v = some sts[v] := by
    have := hall v hv
    rw [Nat.zero_add] at this
    rw [this, hget]
  have hseam := on_seam_of_stvert_at hst
  have hp : toS32 (posIndex v) = (v : Int) + 1 := by
    unfold posIndex
    rw [Nat.mod_eq_of_lt (by omega), toS32_of_lt (by omega)]
    push_cast
    rfl
  have key : toS32 t = (v : Int) + 1 ∨
      (toS32 t = (v : Int) + 1 + m.num_verts ∧
        sts.any (fun st => decide (st.on_seam ≠ 0)) = true) := by
    by_cases hf : front = 0
    · rw [uvIndex_back buf stvert m.num_verts hf hseam] at ht
      by_cases hz : sts[v].on_seam = 0
      · left
        rw [if_neg (by simpa using hz), Nat.add_zero] at ht
        obtain rfl := Option.some.inj ht
        rw [Nat.mod_eq_of_lt (by omega), toS32_of_lt (by omega)]
        push_cast
        rfl
      · right
        rw [if_pos hz] at ht
        obtain rfl := Option.some.inj ht
        refine ⟨?_, List.any_eq_true.2 ⟨sts[v], List.getElem_mem hvl, by simpa using hz⟩⟩
        rw [Nat.mod_eq_of_lt (by omega), toS32_of_lt (by omega)]
        push_cast
        rfl
    · left
      rw [uvIndex_front buf stvert m.num_verts v hf] at ht
      obtain rfl := Option.some.inj ht
      rw [Nat.mod_eq_of_lt (by omega), toS32_of_lt (by omega)]
      push_cast
      rfl
  rcases key with h | ⟨h, hany⟩
  · have hN : m.num_verts ≤ (if sts.any (fun st => decide (st.on_seam ≠ 0)) = true
          then sts.map (primaryLine m) ++ sts.map (secondaryLine m)
          else sts.map (primaryLine m)).length := by
      split <;> simp [hlen]
    refine ⟨by rw [hp]; omega, by rw [hp]; omega, by rw [h]; omega, ?_⟩
    rw [h]
    omega
  · rw [if_pos hany]
    refine ⟨by rw [hp]; omega, by rw [hp]; omega, by rw [h]; omega, ?_⟩
    rw [h]
    simp only [List.length_append, List.length_map, hlen]
    omega

/-- C18: when both tables lie inside the buffer, every vertex index of every
triangle is below `num_verts` and `2 * num_verts < 2^31` (no index wraps), the UV
pass prints `num_verts` records if no vertex is on the seam and `2 * num_verts`
otherwise, and in every face record each position index lies in `[1, num_verts]`
and each UV index in `[1, N]`, `N` being the number of UV records printed. -/
theorem face_indices_in_range (buf : Buf) (m : mdl_s) (stvert triangle : Nat)
    (hst : stvert + sizeof_stvert_s * m.num_verts ≤ buf.length)
    (htri : triangle + sizeof_triangle_s * m.num_triangles ≤ buf.length)
    (hidx : ∀ i, i < m.num_triangles → ∀ tri ∈ triangle_at buf triangle i,
      tri.vertex0 < m.num_verts ∧ tri.vertex1 < m.num_verts ∧ tri.vertex2 < m.num_verts)
    (hnv : 2 * m.num_verts < 2147483648) :
    ∃ uvs faces, uvPass buf m stvert = some uvs ∧
      facePass buf m stvert triangle = some faces ∧ faces.length = m.num_triangles ∧
      ((∃ i st, i < m.num_verts ∧ stvert_at buf stvert i = some st ∧ st.on_seam ≠ 0) →
        uvs.length = 2 * m.num_verts) ∧
      ((∀ i st, i < m.num_verts → stvert_at buf stvert i = some st → st.on_seam = 0) →
        uvs.length = m.num_verts) ∧
      ∀ i, i < m.num_triangles → ∃ p0 t0 p2 t2 p1 t1,
        faces[i]? = some (Line.f p0 t0 p2 t2 p1 t1) ∧
        SlotInRange m.num_verts uvs.length p0 t0 ∧
        SlotInRange m.num_verts uvs.length p2 t2 ∧
        SlotInRange m.num_verts uvs.length p1 t1 := by
  obtain ⟨sts, hsts⟩ := stverts_of_le buf stvert m.num_verts hst
  obtain ⟨hlen, hall⟩ := (collect_eq_some_iff _ _ _ _).1 hsts
  have hall2 : ∀ i, i < m.num_verts → stvert_at buf stvert i = sts[i]? := by
    intro i hi
    simpa using hall i hi
  have hread : FacesReadable buf m stvert triangle := by
    refine ⟨htri, fun i hi tri htr _ => ?_⟩
    have := hidx i hi tri htr
    simp only [sizeof_stvert_s] at hst ⊢
    omega
  obtain ⟨faces, hf, hflen, hfall⟩ := facePass_records buf m stvert triangle hread
  refine ⟨_, faces, uvPass_of_stverts hsts, hf, hflen, ?_, ?_, fun i hi => ?_⟩
  · rintro ⟨i, st, hi, hsti, hseam⟩
    have hmem : st ∈ sts := by
      rw [hall2 i hi] at hsti
      exact List.getElem?_mem hsti
    have hany : sts.any (fun st => decide (st.on_seam ≠ 0)) = true :=
      List.any_eq_true.2 ⟨st, hmem, by simpa using hseam⟩
    rw [if_pos hany]
    simp only [List.length_append, List.length_map, hlen]
    omega
  · intro hnone
    have hany : ¬ (sts.any (fun st => decide (st.on_seam ≠ 0)) = true) := by
      rw [List.any_eq_true]
      rintro ⟨st, hmem, hsti⟩
      obtain ⟨i, hi, hget⟩ := List.getElem_of_mem hmem
      have h1 : stvert_at buf stvert i = some st := by
        rw [hall2 i (hlen ▸ hi), List.getElem?_eq_getElem hi, hget]
      have := hnone i st (hlen ▸ hi) h1
      simp [this] at hsti
    rw [if_neg hany]
    simp [hlen]
  · obtain ⟨tri, t0, t2, t1, htr, h0, h2, h1, hrec⟩ := hfall i hi
    have hb := hidx i hi tri htr
    exact ⟨_, _, _, _, _, _, hrec, slotInRange_of_uvIndex hsts hnv hb.1 h0,
      slotInRange_of_uvIndex hsts hnv hb.2.2 h2, slotInRange_of_uvIndex hsts hnv hb.2.1 h1⟩

set_option maxRecDepth 100000 in
/-- Witness for C18 on the seam model: four UV records, and the faces
`f 1/3 2/2 2/2` and `f 1/1 2/2 2/2`. -/
theorem face_indices_in_range_witness :
    (84 + sizeof_stvert_s * (mkMdl 0 8 8 2 2 1).num_verts ≤ seamModel.length ∧
     108 + sizeof_triangle_s * (mkMdl 0 8 8 2 2 1).num_triangles ≤ seamModel.length ∧
     (∀ i, i < (mkMdl 0 8 8 2 2 1).num_triangles → ∀ tri ∈ triangle_at seamModel 108 i,
      tri.vertex0 < (mkMdl 0 8 8 2 2 1).num_verts ∧ tri.vertex1 < (mkMdl 0 8 8 2 2 1).num_verts
        ∧ tri.vertex2 < (mkMdl 0 8 8 2 2 1).num_verts) ∧
     2 * (mkMdl 0 8 8 2 2 1).num_verts < 2147483648) ∧
    ∃ uvs faces, uvPass seamModel (mkMdl 0 8 8 2 2 1) 84 = some uvs ∧
      facePass seamModel (mkMdl 0 8 8 2 2 1) 84 108 = some faces ∧
      faces.length = (mkMdl 0 8 8 2 2 1).num_triangles ∧
      ((∃ i st, i < (mkMdl 0 8 8 2 2 1).num_verts ∧ stvert_at seamModel 84 i = some st
          ∧ st.on_seam ≠ 0) →
        uvs.length = 2 * (mkMdl 0 8 8 2 2 1).num_verts) ∧
      ((∀ i st, i < (mkMdl 0 8 8 2 2 1).num_verts → stvert_at seamModel 84 i = some st
          → st.on_seam = 0) →
        uvs.length = (mkMdl 0 8 8 2 2 1).num_verts) ∧
      ∀ i, i < (mkMdl 0 8 8 2 2 1).num_triangles → ∃ p0 t0 p2 t2 p1 t1,
        faces[i]? = some (Line.f p0 t0 p2 t2 p1 t1) ∧
        SlotInRange (mkMdl 0 8 8 2 2 1).num_verts uvs.length p0 t0 ∧
        SlotInRange (mkMdl 0 8 8 2 2 1).num_verts uvs.length p2 t2 ∧
        SlotInRange (mkMdl 0 8 8 2 2 1).num_verts uvs.length p1 t1 :=
  ⟨by decide,
   face_indices_in_range seamModel (mkMdl 0 8 8 2 2 1) 84 108 (by decide) (by decide)
     (by decide) (by decide)⟩

/-! ## Kinds of records in a mesh file -/

theorem collect_mem {α : Type} {f : Nat → Option α} {i n : Nat} {l : List α}
    (h : collect f i n = some l) : ∀ x ∈ l, ∃ j, f j = some x := by
  obtain ⟨hlen, hall⟩ := (collect_eq_some_iff _ _ _ _).1 h
  intro x hx
  obtain ⟨j, hj, hget⟩ := List.getElem_of_mem hx
  refine ⟨i + j, ?_⟩
  rw [hall j (hlen ▸ hj), List.getElem?_eq_getElem hj, hget]

theorem positionPass_kind {buf : Buf} {m : mdl_s} {vert : Nat} {vs : List Line}
    (h : positionPass buf m vert = some vs) :
    vs.length = m.num_verts ∧ ∀ l ∈ vs, l.isV = true := by
  refine ⟨((collect_eq_some_iff _ _ _ _).1 h).1, fun l hl => ?_⟩
  obtain ⟨j, hj⟩ := collect_mem h l hl
  simp only [positionLine, Option.bind_eq_bind, Option.bind_eq_some, Option.pure_def,
    Option.some.injEq] at hj
  obtain ⟨q0, -, q1, -, q2, -, rfl⟩ := hj
  rfl

theorem facePass_kind {buf : Buf} {m : mdl_s} {stvert triangle : Nat} {fs : List Line}
    (h : facePass buf m stvert triangle = some fs) :
    fs.length = m.num_triangles ∧ ∀ l ∈ fs, l.isF = true := by
  refine ⟨((collect_eq_some_iff _ _ _ _).1 h).1, fun l hl => ?_⟩
  obtain ⟨j, hj⟩ := collect_mem h l hl
  simp only [faceLine, Option.bind_eq_bind, Option.bind_eq_some, Option.pure_def,
    Option.some.injEq] at hj
  obtain ⟨tri, -, t0, -, t2, -, t1, -, rfl⟩ := hj
  rfl

theorem primaryLine_kind (m : mdl_s) (st : stvert_s) : (primaryLine m st).isVt = true := rfl

theorem secondaryLine_kind (m : mdl_s) (st : stvert_s) : (secondaryLine m st).isVt = true := by
  unfold secondaryLine
  split <;> rfl

/-- The UV records of a frame: the primary set, then the secondary set or
nothing. -/
theorem uvPass_kind {buf : Buf} {m : mdl_s} {stvert : Nat} {uvs : List Line}
    (h : uvPass buf m stvert = some uvs) :
    ∃ prim sec, uvs = prim ++ sec ∧ prim.length = m.num_verts ∧
      (sec = [] ∨ sec.length = m.num_verts) ∧ ∀ l ∈ uvs, l.isVt = true := by
  have h0 := h
  simp only [uvPass, primaryPass, Option.bind_eq_bind, Option.bind_eq_some, Option.pure_def,
    Option.some.injEq] at h0
  obtain ⟨⟨prim, hack⟩, ⟨sts, hsts, -⟩, -⟩ := h0
  have hlen := ((collect_eq_some_iff _ _ _ _).1 hsts).1
  rw [uvPass_of_stverts hsts] at h
  have h := Option.some.inj h
  by_cases hany : sts.any (fun st => decide (st.on_seam ≠ 0)) = true
  · rw [if_pos hany] at h
    subst h
    refine ⟨sts.map (primaryLine m), sts.map (secondaryLine m), rfl, by simp [hlen],
      Or.inr (by simp [hlen]), fun l hl => ?_⟩
    simp only [List.mem_append, List.mem_map] at hl
    rcases hl with ⟨st, -, rfl⟩ | ⟨st, -, rfl⟩
    · exact primaryLine_kind m st
    · exact secondaryLine_kind m st
  · rw [if_neg hany] at h
    subst h
    refine ⟨sts.map (primaryLine m), [], (List.append_nil _).symm, by simp [hlen],
      Or.inl rfl, fun l hl => ?_⟩
    simp only [List.mem_map] at hl
    obtain ⟨st, -, rfl⟩ := hl
    exact primaryLine_kind m st

theorem emitFrame_some {buf : Buf} {m : mdl_s} {mdl_name : String} {lay : Layout}
    {obj : List Line} {vert : Nat} {text : List Line}
    (h : emitFrame buf m mdl_name lay obj vert = some text) :
    ∃ vs uvs fs, positionPass buf m vert = some vs ∧ uvPass buf m lay.stvert = some uvs ∧
      facePass buf m lay.stvert lay.triangle = some fs ∧
      text = [Line.mtllib (mdl_name ++ ".mtl"), Line.usemtl mdl_name] ++ vs ++ uvs ++ fs := by
  simp only [emitFrame, Option.bind_eq_bind, Option.bind_eq_some, Option.pure_def,
    Option.some.injEq] at h
  obtain ⟨vs, hvs, uvs, huvs, fs, hfs, rfl⟩ := h
  exact ⟨vs, uvs, fs, hvs, huvs, hfs, by simp [g_string_printf, g_string_append_printf]⟩

/-! ## C13: UV records and faces do not depend on the frame -/

/-- C13: a readable run completes, and there are one list of UV records and one
list of face records such that every mesh file `k < num_frames` is the two
leading lines, `num_verts` position records, that list of UV records and that
list of face records; two frames can differ in their position records only. -/
theorem uv_and_faces_frame_invariant (mdl_name : String) (buf : Buf) (m : mdl_s)
    (lay : Layout) (hm : readMdl buf = some m) (hlay : layout buf m = some lay)
    (hr : Readable buf m lay) :
    ∃ out uvs fs, convert mdl_name buf = some out ∧
      uvPass buf m lay.stvert = some uvs ∧
      facePass buf m lay.stvert lay.triangle = some fs ∧
      (∀ l ∈ uvs, l.isVt = true) ∧ (∀ l ∈ fs, l.isF = true) ∧
      ∀ k, k < m.num_frames → ∃ vs, vs.length = m.num_verts ∧ (∀ l ∈ vs, l.isV = true) ∧
        out.objs[k]? = some (outFile mdl_name m.num_frames k,
          [Line.mtllib (mdl_name ++ ".mtl"), Line.usemtl mdl_name] ++ vs ++ uvs ++ fs) := by
  obtain ⟨out, hout, -, -, -, hall⟩ := convert_of_readable mdl_name buf m lay hm hlay hr
  obtain ⟨h1, h2⟩ := layout_offsets hlay
  have hst : lay.stvert + sizeof_stvert_s * m.num_verts ≤ buf.length := by
    have := hr.1.1
    simp only [sizeof_stvert_s, sizeof_triangle_s] at this ⊢
    omega
  obtain ⟨sts, hsts⟩ := stverts_of_le buf lay.stvert m.num_verts hst
  obtain ⟨fs, hfs, -, -⟩ := facePass_records buf m lay.stvert lay.triangle hr.1
  obtain ⟨uvs, huvs⟩ : ∃ uvs, uvPass buf m lay.stvert = some uvs :=
    ⟨_, uvPass_of_stverts hsts⟩
  obtain ⟨-, -, -, -, -, hkind⟩ := uvPass_kind huvs
  refine ⟨out, uvs, fs, hout, huvs, hfs, hkind, (facePass_kind hfs).2, fun k hk => ?_⟩
  obtain ⟨c, text, -, htext, hrec⟩ := hall k hk
  obtain ⟨vs, uvs2, fs2, hvs, huvs2, hfs2, rfl⟩ := emitFrame_some htext
  rw [huvs] at huvs2
  rw [hfs] at hfs2
  obtain rfl := Option.some.inj huvs2
  obtain rfl := Option.some.inj hfs2
  exact ⟨vs, (positionPass_kind hvs).1, (positionPass_kind hvs).2, hrec⟩

set_option maxRecDepth 100000 in
/-- Witness for C13 on the model with three frames. -/
theorem uv_and_faces_frame_invariant_witness :
    (readMdl threeFrameModel = some (mkMdl 0 8 8 1 1 3) ∧
     layout threeFrameModel (mkMdl 0 8 8 1 1 3) = some ⟨84, 96, 112⟩) ∧
    ∃ out uvs fs, convert "m" threeFrameModel = some out ∧
      uvPass threeFrameModel (mkMdl 0 8 8 1 1 3) (⟨84, 96, 112⟩ : Layout).stvert = some uvs ∧
      facePass threeFrameModel (mkMdl 0 8 8 1 1 3) (⟨84, 96, 112⟩ : Layout).stvert
        (⟨84, 96, 112⟩ : Layout).triangle = some fs ∧
      (∀ l ∈ uvs, l.isVt = true) ∧ (∀ l ∈ fs, l.isF = true) ∧
      ∀ k, k < (mkMdl 0 8 8 1 1 3).num_frames → ∃ vs,
        vs.length = (mkMdl 0 8 8 1 1 3).num_verts ∧ (∀ l ∈ vs, l.isV = true) ∧
        out.objs[k]? = some (outFile "m" (mkMdl 0 8 8 1 1 3).num_frames k,
          [Line.mtllib ("m" ++ ".mtl"), Line.usemtl "m"] ++ vs ++ uvs ++ fs) :=
  ⟨by decide,
   uv_and_faces_frame_invariant "m" threeFrameModel (mkMdl 0 8 8 1 1 3) ⟨84, 96, 112⟩
     (by decide) (by decide)
     ⟨by unfold FacesReadable; decide, 208, by decide, by decide⟩⟩

/-! ## C14: structure of a mesh file -/

/-- C14: a readable run completes; the material record is written to
`<mdl_name>.mtl` and begins with `newmtl <mdl_name>`; every mesh file `k` is, in
this order, the line `mtllib <mdl_name>.mtl`, the line `usemtl <mdl_name>`,
`num_verts` position records, `num_verts` primary UV records, the secondary UV
records (none or `num_verts`) and `num_triangles` face records, and nothing else:
whatever the text buffer held before (the material record, the records of the
previous frame), `g_string_printf` discards it. -/
theorem mesh_file_structure (mdl_name : String) (buf : Buf) (m : mdl_s) (lay : Layout)
    (hm : readMdl buf = some m) (hlay : layout buf m = some lay) (hr : Readable buf m lay) :
    ∃ out, convert mdl_name buf = some out ∧
      out.mtl_file = mdl_name ++ ".mtl" ∧
      out.mtl = "newmtl " ++ mdl_name ++ "\n" ++ "Ka 1 1 1\n" ++ "Kd 1 1 1\n" ++ "Ks 0 0 0\n"
        ++ "Tr 1\n" ++ "illum 1\n" ++ "Ns 0\n" ++ "map_Kd textures/" ++ mdl_name ++ ".jpg\n" ∧
      (∀ obj vert, emitFrame buf m mdl_name lay obj vert
        = emitFrame buf m mdl_name lay [] vert) ∧
      ∀ k, k < m.num_frames → ∃ vs prim sec fs text,
        out.objs[k]? = some (outFile mdl_name m.num_frames k, text) ∧
        text = [Line.mtllib out.mtl_file, Line.usemtl mdl_name] ++ vs ++ prim ++ sec ++ fs ∧
        vs.length = m.num_verts ∧ (∀ l ∈ vs, l.isV = true) ∧
        prim.length = m.num_verts ∧ (sec = [] ∨ sec.length = m.num_verts) ∧
        (∀ l ∈ prim ++ sec, l.isVt = true) ∧
        fs.length = m.num_triangles ∧ (∀ l ∈ fs, l.isF = true) ∧
        Line.text out.mtl ∉ text := by
  obtain ⟨out, hout, hfile, hmtl, -, hall⟩ := convert_of_readable mdl_name buf m lay hm hlay hr
  refine ⟨out, hout, hfile, by rw [hmtl]; rfl, fun obj vert => rfl, fun k hk => ?_⟩
  obtain ⟨c, text, -, htext, hrec⟩ := hall k hk
  obtain ⟨vs, uvs, fs, hvs, huvs, hfs, rfl⟩ := emitFrame_some htext
  obtain ⟨prim, sec, rfl, hprim, hsec, hkind⟩ := uvPass_kind huvs
  obtain ⟨hvlen, hvkind⟩ := positionPass_kind hvs
  obtain ⟨hflen, hfkind⟩ := facePass_kind hfs
  refine ⟨vs, prim, sec, fs, _, hrec, by rw [hfile]; simp, hvlen, hvkind, hprim, hsec, hkind,
    hflen, hfkind, ?_⟩
  intro hmem
  rcases List.mem_append.1 hmem with h | h
  · rcases List.mem_append.1 h with h | h
    · rcases List.mem_append.1 h with h | h
      · simp at h
      · exact absurd (hvkind _ h) (by simp [Line.isV])
    · exact absurd (hkind _ h) (by simp [Line.isVt])
  · exact absurd (hfkind _ h) (by simp [Line.isF])

set_option maxRecDepth 100000 in
/-- Witness for C14 on the model with three frames. -/
theorem mesh_file_structure_witness :
    (readMdl threeFrameModel = some (mkMdl 0 8 8 1 1 3) ∧
     layout threeFrameModel (mkMdl 0 8 8 1 1 3) = some ⟨84, 96, 112⟩ ∧
     (convert "m" threeFrameModel).map Output.objs =
      some [("m_0.obj", [Line.mtllib "m.mtl", Line.usemtl "m",
              Line.v ⟨0, 0, 0⟩ ⟨0, 0, 0⟩ 1 2 3, Line.vt 3 8 4 8, Line.f 1 1 1 1 1 1]),
            ("m_1.obj", [Line.mtllib "m.mtl", Line.usemtl "m",
              Line.v ⟨0, 0, 0⟩ ⟨0, 0, 0⟩ 4 5 6, Line.vt 3 8 4 8, Line.f 1 1 1 1 1 1]),
            ("m_2.obj", [Line.mtllib "m.mtl", Line.usemtl "m",
              Line.v ⟨0, 0, 0⟩ ⟨0, 0, 0⟩ 7 8 9, Line.vt 3 8 4 8, Line.f 1 1 1 1 1 1])]) ∧
    ∃ out, convert "m" threeFrameModel = some out ∧
      out.mtl_file = "m" ++ ".mtl" ∧
      out.mtl = "newmtl " ++ "m" ++ "\n" ++ "Ka 1 1 1\n" ++ "Kd 1 1 1\n" ++ "Ks 0 0 0\n"
        ++ "Tr 1\n" ++ "illum 1\n" ++ "Ns 0\n" ++ "map_Kd textures/" ++ "m" ++ ".jpg\n" ∧
      (∀ obj vert, emitFrame threeFrameModel (mkMdl 0 8 8 1 1 3) "m" ⟨84, 96, 112⟩ obj vert
        = emitFrame threeFrameModel (mkMdl 0 8 8 1 1 3) "m" ⟨84, 96, 112⟩ [] vert) ∧
      ∀ k, k < (mkMdl 0 8 8 1 1 3).num_frames → ∃ vs prim sec fs text,
        out.objs[k]? = some (outFile "m" (mkMdl 0 8 8 1 1 3).num_frames k, text) ∧
        text = [Line.mtllib out.mtl_file, Line.usemtl "m"] ++ vs ++ prim ++ sec ++ fs ∧
        vs.length = (mkMdl 0 8 8 1 1 3).num_verts ∧ (∀ l ∈ vs, l.isV = true) ∧
        prim.length = (mkMdl 0 8 8 1 1 3).num_verts ∧
        (sec = [] ∨ sec.length = (mkMdl 0 8 8 1 1 3).num_verts) ∧
        (∀ l ∈ prim ++ sec, l.isVt = true) ∧
        fs.length = (mkMdl 0 8 8 1 1 3).num_triangles ∧ (∀ l ∈ fs, l.isF = true) ∧
        Line.text out.mtl ∉ text :=
  ⟨by decide,
   mesh_file_structure "m" threeFrameModel (mkMdl 0 8 8 1 1 3) ⟨84, 96, 112⟩
     (by decide) (by decide)
     ⟨by unfold FacesReadable; decide, 208, by decide, by decide⟩⟩

/-! ## C11: position pass -/

theorem collect_congr {α : Type} {f g : Nat → Option α} (n : Nat) :
    ∀ i : Nat, (∀ j, j < n → f (i + j) = g (i + j)) → collect f i n = collect g i n := by
  induction n with
  | zero => intro i _; rfl
  | succ n ih =>
    intro i h
    have h0 : f i = g i := by simpa using h 0 (by omega)
    have hrest : collect f (i + 1) n = collect g (i + 1) n :=
      ih (i + 1) (fun j hj => by
        have := h (j + 1) (by omega)
        simpa [Nat.add_assoc, Nat.add_comm 1 j] using this)
    simp only [collect, h0, hrest]

/-- C11: a readable run completes, and for every frame `k` the mesh file holds,
after its two leading lines, exactly `num_verts` position records in vertex
order; record `i` prints `scale.x * v[0] + origin.x`, `scale.y * v[1] + origin.y`,
`scale.z * v[2] + origin.z` (in `gfloat` arithmetic) for the bytes `v[0..2]` of
entry `i` of the array `vert = frame + 1` of that frame, each a number below 256.
The fourth byte of an entry is not read: two models with the same scale, origin
and coordinate bytes give the same records. -/
theorem position_pass_records (mdl_name : String) (buf : Buf) (m : mdl_s) (lay : Layout)
    (hm : readMdl buf = some m) (hlay : layout buf m = some lay) (hr : Readable buf m lay) :
    ∃ out, convert mdl_name buf = some out ∧
      (∀ k, k < m.num_frames → ∃ c vs rest,
        frameCursor buf m.num_verts k lay.frame = some c ∧
        out.objs[k]? = some (outFile mdl_name m.num_frames k,
          [Line.mtllib (mdl_name ++ ".mtl"), Line.usemtl mdl_name] ++ vs ++ rest) ∧
        (∀ l ∈ rest, l.isV = false) ∧
        vs.length = m.num_verts ∧
        ∀ i, i < m.num_verts → ∃ q0 q1 q2 l,
          rd8 buf (c + 28 + 4 * i) = some q0 ∧ rd8 buf (c + 28 + 4 * i + 1) = some q1 ∧
          rd8 buf (c + 28 + 4 * i + 2) = some q2 ∧ q0 < 256 ∧ q1 < 256 ∧ q2 < 256 ∧
          vs[i]? = some l ∧
          ∀ (F : Type) (A : FloatOps F) (ofBits : Nat → F), positionValues A ofBits l =
            some (A.add (A.mul (ofBits m.scale.x) (A.ofInt q0)) (ofBits m.origin.x),
                  A.add (A.mul (ofBits m.scale.y) (A.ofInt q1)) (ofBits m.origin.y),
                  A.add (A.mul (ofBits m.scale.z) (A.ofInt q2)) (ofBits m.origin.z))) ∧
      (∀ (buf2 : Buf) (m2 : mdl_s) (vert vert2 : Nat),
        m2.scale = m.scale → m2.origin = m.origin → m2.num_verts = m.num_verts →
        (∀ i, i < m.num_verts → rd8 buf2 (vert2 + 4 * i) = rd8 buf (vert + 4 * i) ∧
          rd8 buf2 (vert2 + 4 * i + 1) = rd8 buf (vert + 4 * i + 1) ∧
          rd8 buf2 (vert2 + 4 * i + 2) = rd8 buf (vert + 4 * i + 2)) →
        positionPass buf2 m2 vert2 = positionPass buf m vert) := by
  obtain ⟨out, hout, -, -, -, hall⟩ := convert_of_readable mdl_name buf m lay hm hlay hr
  refine ⟨out, hout, fun k hk => ?_, fun buf2 m2 vert vert2 hs ho hn hbytes => ?_⟩
  · obtain ⟨c, text, hc, htext, hrec⟩ := hall k hk
    obtain ⟨vs, uvs, fs, hvs, huvs, hfs, rfl⟩ := emitFrame_some htext
    obtain ⟨hlen, hvall⟩ := (collect_eq_some_iff _ _ _ _).1 hvs
    obtain ⟨-, -, -, -, -, hkind⟩ := uvPass_kind huvs
    refine ⟨c, vs, uvs ++ fs, hc, by rw [hrec, List.append_assoc], fun l hl => ?_, hlen,
      fun i hi => ?_⟩
    · rcases List.mem_append.1 hl with h | h
      · have := hkind l h
        cases l <;> simp_all [Line.isVt, Line.isV]
      · have := (facePass_kind hfs).2 l h
        cases l <;> simp_all [Line.isF, Line.isV]
    · have hi2 : i < vs.length := hlen ▸ hi
      have hline := hvall i hi
      rw [Nat.zero_add, List.getElem?_eq_getElem hi2] at hline
      simp only [positionLine, sizeof_vert_s, Option.bind_eq_bind, Option.bind_eq_some,
        Option.pure_def, Option.some.injEq] at hline
      obtain ⟨q0, h0, q1, h1, q2, h2, hl⟩ := hline
      refine ⟨q0, q1, q2, vs[i], h0, h1, h2, (rd8_bound h0).2, (rd8_bound h1).2,
        (rd8_bound h2).2, List.getElem?_eq_getElem hi2, fun F A ofBits => ?_⟩
      rw [← hl]
      rfl
  · unfold positionPass
    rw [hn]
    apply collect_congr
    intro j hj
    obtain ⟨h0, h1, h2⟩ := hbytes j hj
    simp only [Nat.zero_add, positionLine, sizeof_vert_s, h0, h1, h2, hs, ho]

set_option maxRecDepth 100000 in
/-- Witness for C11 on the model with three frames, whose poses are (1, 2, 3),
(4, 5, 6) and (7, 8, 9). -/
theorem position_pass_records_witness :
    (readMdl threeFrameModel = some (mkMdl 0 8 8 1 1 3) ∧
     layout threeFrameModel (mkMdl 0 8 8 1 1 3) = some ⟨84, 96, 112⟩ ∧
     positionPass threeFrameModel (mkMdl 0 8 8 1 1 3) (144 + 28)
       = some [Line.v ⟨0, 0, 0⟩ ⟨0, 0, 0⟩ 4 5 6]) ∧
    ∃ out, convert "m" threeFrameModel = some out ∧
      (∀ k, k < (mkMdl 0 8 8 1 1 3).num_frames → ∃ c vs rest,
        frameCursor threeFrameModel (mkMdl 0 8 8 1 1 3).num_verts k
          (⟨84, 96, 112⟩ : Layout).frame = some c ∧
        out.objs[k]? = some (outFile "m" (mkMdl 0 8 8 1 1 3).num_frames k,
          [Line.mtllib ("m" ++ ".mtl"), Line.usemtl "m"] ++ vs ++ rest) ∧
        (∀ l ∈ rest, l.isV = false) ∧
        vs.length = (mkMdl 0 8 8 1 1 3).num_verts ∧
        ∀ i, i < (mkMdl 0 8 8 1 1 3).num_verts → ∃ q0 q1 q2 l,
          rd8 threeFrameModel (c + 28 + 4 * i) = some q0 ∧
          rd8 threeFrameModel (c + 28 + 4 * i + 1) = some q1 ∧
          rd8 threeFrameModel (c + 28 + 4 * i + 2) = some q2 ∧
          q0 < 256 ∧ q1 < 256 ∧ q2 < 256 ∧
          vs[i]? = some l ∧
          ∀ (F : Type) (A : FloatOps F) (ofBits : Nat → F), positionValues A ofBits l =
            some (A.add (A.mul (ofBits (mkMdl 0 8 8 1 1 3).scale.x) (A.ofInt q0))
                    (ofBits (mkMdl 0 8 8 1 1 3).origin.x),
                  A.add (A.mul (ofBits (mkMdl 0 8 8 1 1 3).scale.y) (A.ofInt q1))
                    (ofBits (mkMdl 0 8 8 1 1 3).origin.y),
                  A.add (A.mul (ofBits (mkMdl 0 8 8 1 1 3).scale.z) (A.ofInt q2))
                    (ofBits (mkMdl 0 8 8 1 1 3).origin.z))) ∧
      (∀ (buf2 : Buf) (m2 : mdl_s) (vert vert2 : Nat),
        m2.scale = (mkMdl 0 8 8 1 1 3).scale → m2.origin = (mkMdl 0 8 8 1 1 3).origin →
        m2.num_verts = (mkMdl 0 8 8 1 1 3).num_verts →
        (∀ i, i < (mkMdl 0 8 8 1 1 3).num_verts →
          rd8 buf2 (vert2 + 4 * i) = rd8 threeFrameModel (vert + 4 * i) ∧
          rd8 buf2 (vert2 + 4 * i + 1) = rd8 threeFrameModel (vert + 4 * i + 1) ∧
          rd8 buf2 (vert2 + 4 * i + 2) = rd8 threeFrameModel (vert + 4 * i + 2)) →
        positionPass buf2 m2 vert2 = positionPass threeFrameModel (mkMdl 0 8 8 1 1 3) vert) :=
  ⟨by decide,
   position_pass_records "m" threeFrameModel (mkMdl 0 8 8 1 1 3) ⟨84, 96, 112⟩
     (by decide) (by decide)
     ⟨by unfold FacesReadable; decide, 208, by decide, by decide⟩⟩

/-! ## C12: the mirrored-half record -/

theorem exact_u_difference (s w : Nat) (hw : 0 < w) :
    ((s + w / 2 : Nat) : ℚ) / (w : ℚ) - (s : ℚ) / (w : ℚ) = ((w / 2 : Nat) : ℚ) / (w : ℚ) ∧
    (w % 2 = 0 → ((w / 2 : Nat) : ℚ) / (w : ℚ) = 1 / 2) ∧
    (w % 2 = 1 → ((w / 2 : Nat) : ℚ) / (w : ℚ) ≠ 1 / 2) := by
  have hw0 : (w : ℚ) ≠ 0 := by exact_mod_cast (Nat.pos_iff_ne_zero.1 hw)
  refine ⟨?_, fun heven => ?_, fun hodd heq => ?_⟩
  · push_cast
    ring
  · have h2 : (w : ℚ) = 2 * ((w / 2 : Nat) : ℚ) := by
      have : w = 2 * (w / 2) := by omega
      exact_mod_cast this
    rw [div_eq_iff hw0]
    linarith
  · rw [div_eq_iff hw0] at heq
    have h2 : (2 : ℚ) * ((w / 2 : Nat) : ℚ) = (w : ℚ) := by linarith
    have h3 : 2 * (w / 2) = w := by exact_mod_cast h2
    omega

/-- C12 (as amended): for an on-seam vertex `i` with atlas coordinates `(s, t)`
the secondary UV record prints `(float) a / skin_width` with
`a = (s + skin_width / 2) mod 2^32`, `skin_width / 2` being the integer quotient,
and the same `1 - (float) t / skin_height` as the primary record.  In exact
arithmetic, for `skin_width > 0` and `s + skin_width / 2 < 2^32`, the secondary
`u` exceeds the primary `u` by `(skin_width / 2) / skin_width`: one half when
`skin_width` is even, and not one half when it is odd. -/
theorem mirrored_half_formula (buf : Buf) (m : mdl_s) (stvert i : Nat) (st : stvert_s)
    (htab : stvert + sizeof_stvert_s * m.num_verts ≤ buf.length) (hi : i < m.num_verts)
    (hst : stvert_at buf stvert i = some st) (hseam : st.on_seam ≠ 0) :
    ∃ uvs, uvPass buf m stvert = some uvs ∧
      uvs[i]? = some (Line.vt st.s m.skin_width st.t m.skin_height) ∧
      uvs[m.num_verts + i]? = some (Line.vt ((st.s + m.skin_width / 2) % 4294967296)
        m.skin_width st.t m.skin_height) ∧
      (∀ (F : Type) (A : FloatOps F),
        uvValues A (Line.vt ((st.s + m.skin_width / 2) % 4294967296)
            m.skin_width st.t m.skin_height)
          = some (A.div (A.ofInt ((st.s + m.skin_width / 2) % 4294967296))
                    (A.ofInt m.skin_width),
                  A.sub (A.ofInt 1) (A.div (A.ofInt st.t) (A.ofInt m.skin_height))) ∧
        uvValues A (Line.vt st.s m.skin_width st.t m.skin_height)
          = some (A.div (A.ofInt st.s) (A.ofInt m.skin_width),
                  A.sub (A.ofInt 1) (A.div (A.ofInt st.t) (A.ofInt m.skin_height)))) ∧
      (0 < m.skin_width → st.s + m.skin_width / 2 < 4294967296 →
        ∃ u1 v1 u2 v2,
          uvValues exactOps (Line.vt st.s m.skin_width st.t m.skin_height) = some (u1, v1) ∧
          uvValues exactOps (Line.vt ((st.s + m.skin_width / 2) % 4294967296)
            m.skin_width st.t m.skin_height) = some (u2, v2) ∧
          v2 = v1 ∧
          u2 - u1 = ((m.skin_width / 2 : Nat) : ℚ) / (m.skin_width : ℚ) ∧
          (m.skin_width % 2 = 0 → u2 - u1 = 1 / 2) ∧
          (m.skin_width % 2 = 1 → u2 - u1 ≠ 1 / 2)) := by
  obtain ⟨sts, hsts⟩ := stverts_of_le buf stvert m.num_verts htab
  obtain ⟨hlen, hall⟩ := (collect_eq_some_iff _ _ _ _).1 hsts
  have hget : sts[i]? = some st := by
    have := hall i hi
    rw [Nat.zero_add, hst] at this
    exact this.symm
  have hany : sts.any (fun st => decide (st.on_seam ≠ 0)) = true :=
    List.any_eq_true.2 ⟨st, List.getElem?_mem hget, by simpa using hseam⟩
  refine ⟨_, uvPass_of_stverts hsts, ?_, ?_, fun F A => ⟨rfl, rfl⟩, fun hw hno => ?_⟩
  · rw [if_pos hany, List.getElem?_append_left (by simp [hlen, hi])]
    simp [hget, primaryLine]
  · rw [if_pos hany, List.getElem?_append_right (by simp [hlen])]
    simp [hlen, hget, secondaryLine, hseam]
  · obtain ⟨h1, h2, h3⟩ := exact_u_difference st.s m.skin_width hw
    refine ⟨_, _, _, _, rfl, rfl, rfl, ?_, fun he => ?_, fun ho => ?_⟩
    · simp only [exactOps, Nat.mod_eq_of_lt hno]
      exact h1
    · simp only [exactOps, Nat.mod_eq_of_lt hno]
      rw [h1]
      exact h2 he
    · simp only [exactOps, Nat.mod_eq_of_lt hno]
      rw [h1]
      exact h3 ho

set_option maxRecDepth 100000 in
/-- Witness for C12 on the seam model (atlas width 8, vertex 0 on the seam with
`s = 3`, `t = 4`). -/
theorem mirrored_half_formula_witness :
    (84 + sizeof_stvert_s * (mkMdl 0 8 8 2 2 1).num_verts ≤ seamModel.length ∧
     0 < (mkMdl 0 8 8 2 2 1).num_verts ∧
     stvert_at seamModel 84 0 = some ⟨1, 3, 4⟩ ∧ (⟨1, 3, 4⟩ : stvert_s).on_seam ≠ 0) ∧
    ∃ uvs, uvPass seamModel (mkMdl 0 8 8 2 2 1) 84 = some uvs ∧
      uvs[0]? = some (Line.vt 3 8 4 8) ∧
      uvs[(mkMdl 0 8 8 2 2 1).num_verts + 0]? = some (Line.vt ((3 + 8 / 2) % 4294967296) 8 4 8) ∧
      (∀ (F : Type) (A : FloatOps F),
        uvValues A (Line.vt ((3 + 8 / 2) % 4294967296) 8 4 8)
          = some (A.div (A.ofInt ((3 + 8 / 2) % 4294967296)) (A.ofInt 8),
                  A.sub (A.ofInt 1) (A.div (A.ofInt 4) (A.ofInt 8))) ∧
        uvValues A (Line.vt 3 8 4 8)
          = some (A.div (A.ofInt 3) (A.ofInt 8),
                  A.sub (A.ofInt 1) (A.div (A.ofInt 4) (A.ofInt 8)))) ∧
      (0 < 8 → 3 + 8 / 2 < 4294967296 →
        ∃ u1 v1 u2 v2,
          uvValues exactOps (Line.vt 3 8 4 8) = some (u1, v1) ∧
          uvValues exactOps (Line.vt ((3 + 8 / 2) % 4294967296) 8 4 8) = some (u2, v2) ∧
          v2 = v1 ∧
          u2 - u1 = ((8 / 2 : Nat) : ℚ) / ((8 : Nat) : ℚ) ∧
          (8 % 2 = 0 → u2 - u1 = 1 / 2) ∧
          (8 % 2 = 1 → u2 - u1 ≠ 1 / 2)) :=
  ⟨by decide,
   mirrored_half_formula seamModel (mkMdl 0 8 8 2 2 1) 84 0 ⟨1, 3, 4⟩ (by decide) (by decide)
     (by decide) (by decide)⟩

set_option maxRecDepth 100000 in
/-- C12 fails as stated: in `oddWidthModel` the atlas is 3 wide and the only
vertex is on the seam with `s = 0`.  `skin_width / 2` is 1, which is not half of
3; the primary record prints `0 / 3` and the secondary record `1 / 3`, so the
secondary `u` exceeds the primary `u` by one third, not by one half. -/
theorem odd_width_is_not_halved :
    (readMdl oddWidthModel = some (mkMdl 0 3 8 1 1 1) ∧
     stvert_at oddWidthModel 84 0 = some ⟨1, 0, 4⟩ ∧
     uvPass oddWidthModel (mkMdl 0 3 8 1 1 1) 84 = some [Line.vt 0 3 4 8, Line.vt 1 3 4 8] ∧
     2 * (3 / 2) ≠ 3) ∧
    uvValues exactOps (Line.vt 0 3 4 8) = some (0, 1 / 2) ∧
    uvValues exactOps (Line.vt 1 3 4 8) = some (1 / 3, 1 / 2) ∧
    (1 / 3 : ℚ) - 0 ≠ 1 / 2 := by
  refine ⟨by decide, ?_, ?_, by norm_num⟩
  · simp only [uvValues, exactOps, Option.some.injEq, Prod.mk.injEq]
    norm_num
  · simp only [uvValues, exactOps, Option.some.injEq, Prod.mk.injEq]
    norm_num

/-! ## C16: the material name -/

theorem take_takeWhile_length (p : Char → Bool) :
    ∀ l : List Char, l.take (l.takeWhile p).length = l.takeWhile p := by
  intro l
  induction l with
  | nil => rfl
  | cons c cs ih =>
    by_cases hc : p c = true
    · simp [List.takeWhile_cons, hc, ih]
    · simp [List.takeWhile_cons, hc]

theorem takeWhile_ne_dot_append (post : List Char) :
    ∀ pre : List Char, '.' ∉ pre →
      (pre ++ '.' :: post).takeWhile (fun c => decide (c ≠ '.')) = pre := by
  intro pre
  induction pre with
  | nil => intro _; simp [List.takeWhile_cons]
  | cons c cs ih =>
    intro h
    have hc : c ≠ '.' := fun e => h (by simp [e])
    have hcs : '.' ∉ cs := fun e => h (by simp [e])
    rw [List.cons_append, List.takeWhile_cons_of_pos (by simpa using hc), ih hcs]

theorem mdl_name_of_data (argv1 : String) :
    (mdl_name_of argv1).data
      = (g_path_get_basename argv1.data).takeWhile (fun c => decide (c ≠ '.')) := by
  have hp : (fun c : Char => !(['.'] : List Char).contains c)
      = (fun c : Char => decide (c ≠ '.')) := by
    funext c
    by_cases hc : c = '.' <;> simp [hc]
  simp only [mdl_name_of, strcspn, hp]
  exact take_takeWhile_length _ _

theorem convert_fields {mdl_name : String} {buf : Buf} {out : Output} {m : mdl_s}
    (hm : readMdl buf = some m) (h : convert mdl_name buf = some out) :
    out.mtl_file = mdl_name ++ ".mtl" ∧ out.mtl = materialRecord mdl_name ∧
    out.objs.length = m.num_frames ∧
    ∀ k, k < m.num_frames → ∃ text,
      out.objs[k]? = some (outFile mdl_name m.num_frames k, text) := by
  simp only [convert, hm, Option.bind_eq_bind, Option.some_bind, Option.bind_eq_some,
    Option.pure_def, Option.some.injEq] at h
  obtain ⟨lay, -, objs, hobjs, rfl⟩ := h
  obtain ⟨hlen, hall⟩ := frameLoop_records buf m mdl_name lay m.num_frames 0 lay.frame _ objs
    hobjs
  refine ⟨rfl, rfl, hlen, fun k hk => ?_⟩
  obtain ⟨c, text, -, -, hrec⟩ := hall k hk
  exact ⟨text, by simpa using hrec⟩

/-- C16 (as amended): the material name is the base name of the input path cut
at its first dot: everything from the first `.` of the base name on is removed
(for `dir/foo.v2.mdl` the name is `foo`), and a base name without any dot is kept
unchanged.  This name is the one in `newmtl`, in `textures/<name>.jpg`, and in the
names of the material file and of all mesh files. -/
theorem material_name_cut_at_first_dot (argv1 : String) :
    (mdl_name_of argv1).data
      = (g_path_get_basename argv1.data).takeWhile (fun c => decide (c ≠ '.')) ∧
    '.' ∉ (mdl_name_of argv1).data ∧
    ('.' ∉ g_path_get_basename argv1.data →
      (mdl_name_of argv1).data = g_path_get_basename argv1.data) ∧
    (∀ pre post, g_path_get_basename argv1.data = pre ++ '.' :: post → '.' ∉ pre →
      (mdl_name_of argv1).data = pre) ∧
    (∀ buf m out, readMdl buf = some m → main argv1 buf = some out →
      out.mtl_file = mdl_name_of argv1 ++ ".mtl" ∧
      out.mtl = "newmtl " ++ mdl_name_of argv1 ++ "\n" ++ "Ka 1 1 1\n" ++ "Kd 1 1 1\n"
        ++ "Ks 0 0 0\n" ++ "Tr 1\n" ++ "illum 1\n" ++ "Ns 0\n" ++ "map_Kd textures/"
        ++ mdl_name_of argv1 ++ ".jpg\n" ∧
      out.objs.length = m.num_frames ∧
      ∀ k, k < m.num_frames → ∃ text,
        out.objs[k]? = some (outFile (mdl_name_of argv1) m.num_frames k, text)) := by
  have hd := mdl_name_of_data argv1
  refine ⟨hd, ?_, fun hno => ?_, fun pre post hsplit hpre => ?_,
    fun buf m out hm hout => ?_⟩
  · rw [hd]
    intro hmem
    have := List.mem_takeWhile_imp hmem
    simp at this
  · rw [hd, List.takeWhile_eq_self_iff]
    intro c hc
    have : c ≠ '.' := fun e => hno (e ▸ hc)
    simpa using this
  · rw [hd, hsplit]
    exact takeWhile_ne_dot_append post pre hpre
  · obtain ⟨h1, h2, h3, h4⟩ := convert_fields hm hout
    exact ⟨h1, by rw [h2]; rfl, h3, h4⟩

set_option maxRecDepth 100000 in
/-- Witness for C16 on the path `dir/foo.v2.mdl`, whose base name `foo.v2.mdl`
splits at its first dot into `foo` and `v2.mdl`. -/
theorem material_name_cut_at_first_dot_witness :
    (g_path_get_basename "dir/foo.v2.mdl".data = "foo".data ++ '.' :: "v2.mdl".data ∧
     '.' ∉ "foo".data ∧
     readMdl plainModel = some (mkMdl 0 8 8 2 2 1) ∧
     (main "dir/foo.v2.mdl" plainModel).map (fun o => (o.mtl_file, o.objs.map Prod.fst))
       = some ("foo.mtl", ["foo.obj"])) ∧
    (mdl_name_of "dir/foo.v2.mdl").data = "foo".data :=
  ⟨by decide,
   (material_name_cut_at_first_dot "dir/foo.v2.mdl").2.2.2.1 "foo".data "v2.mdl".data
     (by decide) (by decide)⟩

set_option maxRecDepth 100000 in
/-- C16 fails as stated: for the input path `dir/foo.v2.mdl` the material name is
`foo`, not `foo.v2`; the material record is written to `foo.mtl` and declares
`newmtl foo`. -/
theorem multi_dot_name_is_cut_short :
    g_path_get_basename "dir/foo.v2.mdl".data = "foo.v2.mdl".data ∧
    mdl_name_of "dir/foo.v2.mdl" = "foo" ∧
    mdl_name_of "dir/foo.v2.mdl" ≠ "foo.v2" ∧
    (main "dir/foo.v2.mdl" plainModel).map (fun o => (o.mtl_file, o.mtl))
      = some ("foo.mtl", "newmtl foo\nKa 1 1 1\nKd 1 1 1\nKs 0 0 0\nTr 1\nillum 1\nNs 0\n"
          ++ "map_Kd textures/foo.jpg\n") := by
  decide

/-! ## C15: skin pixel data does not reach the output -/

theorem rd32_congr {a b : Buf} {off : Nat} (h0 : rd8 a off = rd8 b off)
    (h1 : rd8 a (off + 1) = rd8 b (off + 1)) (h2 : rd8 a (off + 2) = rd8 b (off + 2))
    (h3 : rd8 a (off + 3) = rd8 b (off + 3)) : rd32 a off = rd32 b off := by
  simp only [rd32, h0, h1, h2, h3]

theorem skinPixels_lower (a : Buf) (w h : Nat) (n : Nat) :
    ∀ (skin : Nat) (ranges : List (Nat × Nat)), skinPixels a w h n skin = some ranges →
      ∀ r ∈ ranges, skin + 4 ≤ r.1 := by
  induction n with
  | zero =>
    intro skin ranges hp r hr
    simp only [skinPixels, Option.some.injEq] at hp
    subst hp
    simp at hr
  | succ n ih =>
    intro skin ranges hp r hr
    simp only [skinPixels, Option.bind_eq_bind, Option.bind_eq_some] at hp
    obtain ⟨type, -, hp⟩ := hp
    by_cases hty : type ≠ 0
    · rw [if_pos hty] at hp
      simp only [Option.bind_eq_some, Option.pure_def, Option.some.injEq] at hp
      obtain ⟨sub, -, rest, hrest, rfl⟩ := hp
      rcases List.mem_cons.1 hr with rfl | hr
      · simp only [sizeof_skin_group_s]
        omega
      · have := ih _ _ hrest r hr
        simp only [skinGroupAdvance, sizeof_skin_group_s] at this
        omega
    · rw [if_neg hty] at hp
      simp only [Option.bind_eq_some, Option.pure_def, Option.some.injEq] at hp
      obtain ⟨rest, hrest, rfl⟩ := hp
      rcases List.mem_cons.1 hr with rfl | hr
      · simp only [sizeof_skin_s]
        omega
      · have := ih _ _ hrest r hr
        simp only [skinSimpleAdvance, sizeof_skin_s] at this
        omega

theorem skinWalk_of_pixels (a : Buf) (w h : Nat) (n : Nat) :
    ∀ (skin : Nat) (ranges : List (Nat × Nat)), skinPixels a w h n skin = some ranges →
      ∃ E, skinWalk a w h n skin = some E ∧ skin ≤ E ∧ ∀ r ∈ ranges, r.1 + r.2 ≤ E := by
  induction n with
  | zero =>
    intro skin ranges hp
    simp only [skinPixels, Option.some.injEq] at hp
    subst hp
    exact ⟨skin, rfl, Nat.le_refl _, fun r hr => by simp at hr⟩
  | succ n ih =>
    intro skin ranges hp
    simp only [skinPixels, Option.bind_eq_bind, Option.bind_eq_some] at hp
    obtain ⟨type, htype, hp⟩ := hp
    by_cases hty : type ≠ 0
    · rw [if_pos hty] at hp
      simp only [Option.bind_eq_some, Option.pure_def, Option.some.injEq] at hp
      obtain ⟨sub, hsub, rest, hrest, rfl⟩ := hp
      obtain ⟨E, hE, hle, hend⟩ := ih _ _ hrest
      refine ⟨E, by rw [skinWalk_group_step a w h n skin htype hty hsub, hE], by omega,
        fun r hr => ?_⟩
      rcases List.mem_cons.1 hr with rfl | hr
      · simp only [skinGroupAdvance, sizeof_skin_group_s] at hle ⊢
        omega
      · exact hend r hr
    · rw [if_neg hty] at hp
      simp only [Option.bind_eq_some, Option.pure_def, Option.some.injEq] at hp
      obtain ⟨rest, hrest, rfl⟩ := hp
      have h0 : type = 0 := by omega
      subst h0
      obtain ⟨E, hE, hle, hend⟩ := ih _ _ hrest
      refine ⟨E, by rw [skinWalk_simple_step a w h n skin htype, hE], by omega,
        fun r hr => ?_⟩
      rcases List.mem_cons.1 hr with rfl | hr
      · simp only [skinSimpleAdvance, sizeof_skin_s] at hle ⊢
        omega
      · exact hend r hr

theorem skinWalk_agree (a b : Buf) (w h : Nat) (n : Nat) :
    ∀ (skin : Nat) (ranges : List (Nat × Nat)), skinPixels a w h n skin = some ranges →
      (∀ off, skin ≤ off → ¬ InRanges ranges off → rd8 a off = rd8 b off) →
      skinWalk b w h n skin = skinWalk a w h n skin ∧
      skinPixels b w h n skin = some ranges := by
  induction n with
  | zero =>
    intro skin ranges hp _
    exact ⟨rfl, hp⟩
  | succ n ih =>
    intro skin ranges hp hab
    have hlow := skinPixels_lower a w h (n + 1) skin ranges hp
    have hout : ∀ off, off < skin + 4 → ¬ InRanges ranges off := by
      rintro off hoff ⟨r, hr, h1, -⟩
      have := hlow r hr
      omega
    have htag : rd32 b skin = rd32 a skin :=
      (rd32_congr (hab _ (by omega) (hout _ (by omega)))
        (hab _ (by omega) (hout _ (by omega))) (hab _ (by omega) (hout _ (by omega)))
        (hab _ (by omega) (hout _ (by omega)))).symm
    simp only [skinPixels, Option.bind_eq_bind, Option.bind_eq_some] at hp
    obtain ⟨type, htype, hp⟩ := hp
    by_cases hty : type ≠ 0
    · rw [if_pos hty] at hp
      simp only [Option.bind_eq_some, Option.pure_def, Option.some.injEq] at hp
      obtain ⟨sub, hsub, rest, hrest, rfl⟩ := hp
      have hlow2 := skinPixels_lower a w h n _ rest hrest
      have hout2 : ∀ off, off < skin + 12 →
          ¬ InRanges ((skin + sizeof_skin_group_s,
            skinGroupAdvance sub w h - sizeof_skin_group_s) :: rest) off := by
        rintro off hoff ⟨r, hr, h1, -⟩
        rcases List.mem_cons.1 hr with rfl | hr
        · simp only [sizeof_skin_group_s] at h1
          omega
        · have := hlow2 r hr
          simp only [skinGroupAdvance, sizeof_skin_group_s] at this
          omega
      have hsubb : rd32 b (skin + 4) = rd32 a (skin + 4) :=
        (rd32_congr (hab _ (by omega) (hout2 _ (by omega)))
          (hab _ (by omega) (hout2 _ (by omega))) (hab _ (by omega) (hout2 _ (by omega)))
          (hab _ (by omega) (hout2 _ (by omega)))).symm
      obtain ⟨hw, hpx⟩ := ih _ rest hrest (fun off hoff hnot => by
        apply hab off (by omega)
        rintro ⟨r, hr, h1, h2⟩
        rcases List.mem_cons.1 hr with rfl | hr
        · simp only [skinGroupAdvance, sizeof_skin_group_s] at hoff h2
          omega
        · exact hnot ⟨r, hr, h1, h2⟩)
      rw [htype] at htag
      rw [hsub] at hsubb
      refine ⟨by rw [skinWalk_group_step b w h n skin htag hty hsubb,
        skinWalk_group_step a w h n skin htype hty hsub, hw], ?_⟩
      simp [skinPixels, htag, hty, hsubb, hpx]
    · rw [if_neg hty] at hp
      simp only [Option.bind_eq_some, Option.pure_def, Option.some.injEq] at hp
      obtain ⟨rest, hrest, rfl⟩ := hp
      have h0 : type = 0 := by omega
      subst h0
      obtain ⟨hw, hpx⟩ := ih _ rest hrest (fun off hoff hnot => by
        apply hab off (by omega)
        rintro ⟨r, hr, h1, h2⟩
        rcases List.mem_cons.1 hr with rfl | hr
        · simp only [skinSimpleAdvance, sizeof_skin_s] at hoff h2
          omega
        · exact hnot ⟨r, hr, h1, h2⟩)
      rw [htype] at htag
      refine ⟨by rw [skinWalk_simple_step b w h n skin htag,
        skinWalk_simple_step a w h n skin htype, hw], ?_⟩
      simp [skinPixels, htag, hpx]

section AgreeFrom

variable {a b : Buf} {E : Nat} (hE : ∀ off, E ≤ off → rd8 a off = rd8 b off)
include hE

theorem rd32_from (off : Nat) (h : E ≤ off) : rd32 a off = rd32 b off :=
  rd32_congr (hE _ h) (hE _ (by omega)) (hE _ (by omega)) (hE _ (by omega))

theorem stvert_at_from {stvert : Nat} (h : E ≤ stvert) (i : Nat) :
    stvert_at a stvert i = stvert_at b stvert i := by
  simp only [stvert_at, rd32_from hE (stvert + sizeof_stvert_s * i) (by omega),
    rd32_from hE (stvert + sizeof_stvert_s * i + 4) (by omega),
    rd32_from hE (stvert + sizeof_stvert_s * i + 8) (by omega)]

theorem triangle_at_from {triangle : Nat} (h : E ≤ triangle) (i : Nat) :
    triangle_at a triangle i = triangle_at b triangle i := by
  simp only [triangle_at, rd32_from hE (triangle + sizeof_triangle_s * i) (by omega),
    rd32_from hE (triangle + sizeof_triangle_s * i + 4) (by omega),
    rd32_from hE (triangle + sizeof_triangle_s * i + 8) (by omega),
    rd32_from hE (triangle + sizeof_triangle_s * i + 12) (by omega)]

theorem positionLine_from (m : mdl_s) {vert : Nat} (h : E ≤ vert) (i : Nat) :
    positionLine a m vert i = positionLine b m vert i := by
  simp only [positionLine, hE (vert + sizeof_vert_s * i) (by omega),
    hE (vert + sizeof_vert_s * i + 1) (by omega), hE (vert + sizeof_vert_s * i + 2) (by omega)]

theorem uvIndex_from {stvert : Nat} (h : E ≤ stvert) (nv front v : Nat) :
    uvIndex a stvert nv front v = uvIndex b stvert nv front v := by
  simp only [uvIndex, on_seam_at, rd32_from hE (stvert + sizeof_stvert_s * v) (by omega)]

theorem faceLine_from {stvert : Nat} (h : E ≤ stvert) (nv : Nat) (tri : triangle_s) :
    faceLine a stvert nv tri = faceLine b stvert nv tri := by
  simp only [faceLine, uvIndex_from hE h]

theorem positionPass_from (m : mdl_s) {vert : Nat} (h : E ≤ vert) :
    positionPass a m vert = positionPass b m vert := by
  unfold positionPass
  exact collect_congr _ _ (fun j _ => positionLine_from hE m h _)

theorem uvPass_from (m : mdl_s) {stvert : Nat} (h : E ≤ stvert) :
    uvPass a m stvert = uvPass b m stvert := by
  have hf : stvert_at a stvert = stvert_at b stvert := funext (stvert_at_from hE h)
  simp only [uvPass, primaryPass, secondaryPass, hf]

theorem facePass_from (m : mdl_s) {stvert triangle : Nat} (h : E ≤ stvert)
    (ht : E ≤ triangle) : facePass a m stvert triangle = facePass b m stvert triangle := by
  have hf : triangle_at a triangle = triangle_at b triangle := funext (triangle_at_from hE ht)
  have hg : faceLine a stvert m.num_verts = faceLine b stvert m.num_verts :=
    funext (faceLine_from hE h m.num_verts)
  simp only [facePass, hf, hg]

theorem emitFrame_from (m : mdl_s) (mdl_name : String) {lay : Layout} (h : E ≤ lay.stvert)
    (ht : E ≤ lay.triangle) (obj : List Line) {vert : Nat} (hv : E ≤ vert) :
    emitFrame a m mdl_name lay obj vert = emitFrame b m mdl_name lay obj vert := by
  simp only [emitFrame, positionPass_from hE m hv, uvPass_from hE m h, facePass_from hE m h ht]

theorem frameLoop_from (m : mdl_s) (mdl_name : String) {lay : Layout} (h : E ≤ lay.stvert)
    (ht : E ≤ lay.triangle) (n : Nat) :
    ∀ (k frame : Nat) (obj : List Line), E ≤ frame →
      frameLoop a m mdl_name lay n k frame obj = frameLoop b m mdl_name lay n k frame obj := by
  induction n with
  | zero => intro k frame obj _; rfl
  | succ n ih =>
    intro k frame obj hf
    have hnext : ∀ type, E ≤ frameAdvance type m.num_verts frame := by
      intro type
      have := frameAdvance_ge type m.num_verts frame
      omega
    have hrest : ∀ type obj2, frameLoop a m mdl_name lay n (k + 1)
          (frameAdvance type m.num_verts frame) obj2
        = frameLoop b m mdl_name lay n (k + 1) (frameAdvance type m.num_verts frame) obj2 :=
      fun type obj2 => ih _ _ _ (hnext type)
    simp only [frameLoop, rd32_from hE frame hf,
      emitFrame_from hE m mdl_name h ht obj (Nat.le_trans hf (Nat.le_add_right _ _)), hrest]

end AgreeFrom

theorem readMdl_agree {a b : Buf} (h : ∀ off, off < 72 → rd8 a off = rd8 b off) :
    readMdl a = readMdl b := by
  have h32 : ∀ off, off + 4 ≤ 72 → rd32 a off = rd32 b off := fun off ho =>
    rd32_congr (h _ (by omega)) (h _ (by omega)) (h _ (by omega)) (h _ (by omega))
  simp only [readMdl, rdVec3, h32 8 (by omega), h32 12 (by omega), h32 16 (by omega),
    h32 20 (by omega), h32 24 (by omega), h32 28 (by omega), h32 48 (by omega),
    h32 52 (by omega), h32 56 (by omega), h32 60 (by omega), h32 64 (by omega),
    h32 68 (by omega)]

/-- When every entry is simple and `w * h` fits in a `guint32`, the ranges the
walk skips are the pixel ranges of the specification's layout. -/
theorem specSkinPixels_of_simple (a : Buf) (w h : Nat) (hwh : w * h < 4294967296) (n : Nat) :
    ∀ (skin : Nat) (ranges : List (Nat × Nat)),
      (∀ i, i < n → rd32 a (skin + i * (4 + w * h)) = some 0) →
      skinPixels a w h n skin = some ranges → specSkinPixels a w h n skin = some ranges := by
  induction n with
  | zero => intro skin ranges _ hp; simpa [skinPixels, specSkinPixels] using hp
  | succ n ih =>
    intro skin ranges htags hp
    have h0 : rd32 a skin = some 0 := by simpa using htags 0 (by omega)
    have hadv : skinSimpleAdvance w h = 4 + w * h := by
      simp only [skinSimpleAdvance, sizeof_skin_s, Nat.mod_eq_of_lt hwh]
    simp only [skinPixels, h0, Option.bind_eq_bind, Option.some_bind, ne_eq, not_true_eq_false,
      if_false, Option.bind_eq_some, Option.pure_def, Option.some.injEq] at hp
    obtain ⟨rest, hrest, rfl⟩ := hp
    rw [hadv] at hrest
    have hrest2 := ih (skin + (4 + w * h)) rest (fun i hi => by
      have := htags (i + 1) (by omega)
      rw [← this]
      congr 1
      rw [Nat.add_mul]
      omega) hrest
    have e1 : skin + 4 + w * h = skin + (4 + w * h) := by omega
    simp only [specSkinPixels, h0, Option.bind_eq_bind, Option.some_bind, ne_eq,
      not_true_eq_false, if_false, e1, hrest2, Option.pure_def, Option.some.injEq,
      hadv, sizeof_skin_s]
    congr 2
    omega

/-- C15 (as amended): let the skin walk on the buffer `a` delimit the byte ranges
it skips for its `num_skins` entries (after the 4-byte tag of a simple entry, after
the 12-byte header of a group entry), and let the buffer `b` hold the same byte as
`a` at every offset outside these ranges (same header, tags, sub-counts,
texcoords, triangles and frames).  Then the walk on `b` skips the same ranges and
ends at the same offset, and the two runs write the same material record and the
same mesh files.  When every entry is simple and `skin_width * skin_height` fits
in a `guint32`, these ranges are exactly the pixel bytes of the specification's
skin layout. -/
theorem skin_pixels_do_not_matter (mdl_name : String) (a b : Buf) (m : mdl_s)
    (ranges : List (Nat × Nat)) (hm : readMdl a = some m)
    (hpx : skinPixels a m.skin_width m.skin_height m.num_skins sizeof_mdl_s = some ranges)
    (hab : ∀ off, ¬ InRanges ranges off → a[off]? = b[off]?) :
    readMdl b = some m ∧
    skinPixels b m.skin_width m.skin_height m.num_skins sizeof_mdl_s = some ranges ∧
    layout b m = layout a m ∧
    convert mdl_name b = convert mdl_name a ∧
    (m.skin_width * m.skin_height < 4294967296 →
      (∀ i, i < m.num_skins →
        rd32 a (sizeof_mdl_s + i * (4 + m.skin_width * m.skin_height)) = some 0) →
      specSkinPixels a m.skin_width m.skin_height m.num_skins sizeof_mdl_s = some ranges) := by
  have hrd : ∀ off, ¬ InRanges ranges off → rd8 a off = rd8 b off := by
    intro off hoff
    simp only [rd8, hab off hoff]
  have hlow := skinPixels_lower a _ _ _ _ ranges hpx
  have hhead : ∀ off, off < 72 → rd8 a off = rd8 b off := by
    intro off hoff
    apply hrd
    rintro ⟨r, hr, h1, -⟩
    have := hlow r hr
    simp only [sizeof_mdl_s] at this
    omega
  have hmb : readMdl b = some m := by rw [← readMdl_agree hhead, hm]
  obtain ⟨hwalk, hpxb⟩ := skinWalk_agree a b _ _ _ _ ranges hpx (fun off _ hnot => hrd off hnot)
  obtain ⟨E, hE, hEle, hend⟩ := skinWalk_of_pixels a _ _ _ _ ranges hpx
  have hfrom : ∀ off, E ≤ off → rd8 b off = rd8 a off := by
    intro off hoff
    symm
    apply hrd
    rintro ⟨r, hr, -, h2⟩
    have := hend r hr
    omega
  have hlay : layout b m = layout a m := by
    simp only [layout, hwalk]
  refine ⟨hmb, hpxb, hlay, ?_, fun hwh htags =>
    specSkinPixels_of_simple a _ _ hwh _ _ ranges htags hpx⟩
  simp only [convert, hm, hmb, hlay, Option.bind_eq_bind, Option.some_bind]
  cases hl : layout a m with
  | none => rfl
  | some lay =>
    have hst : lay.stvert = E := by
      simp only [layout, hE, Option.bind_eq_bind, Option.some_bind, Option.pure_def,
        Option.some.injEq] at hl
      rw [← hl]
    obtain ⟨h1, h2⟩ := layout_offsets hl
    simp only [Option.some_bind]
    rw [frameLoop_from hfrom m mdl_name (by omega) (by omega) m.num_frames 0 lay.frame _
      (by omega)]

set_option maxRecDepth 100000 in
/-- Witness for C15 on two models with one simple skin that differ in their four
skin pixels only. -/
theorem skin_pixels_do_not_matter_witness :
    (readMdl (skinnedModel [1, 2, 3, 4]) = some (mkMdl 1 2 2 1 1 1) ∧
     skinPixels (skinnedModel [1, 2, 3, 4]) 2 2 1 sizeof_mdl_s = some [(88, 4)] ∧
     specSkinPixels (skinnedModel [1, 2, 3, 4]) 2 2 1 sizeof_mdl_s = some [(88, 4)] ∧
     (skinnedModel [1, 2, 3, 4])[89]? ≠ (skinnedModel [9, 8, 7, 6])[89]?) ∧
    (readMdl (skinnedModel [9, 8, 7, 6]) = some (mkMdl 1 2 2 1 1 1) ∧
     skinPixels (skinnedModel [9, 8, 7, 6]) (mkMdl 1 2 2 1 1 1).skin_width
       (mkMdl 1 2 2 1 1 1).skin_height (mkMdl 1 2 2 1 1 1).num_skins sizeof_mdl_s
       = some [(88, 4)] ∧
     layout (skinnedModel [9, 8, 7, 6]) (mkMdl 1 2 2 1 1 1)
       = layout (skinnedModel [1, 2, 3, 4]) (mkMdl 1 2 2 1 1 1) ∧
     convert "m" (skinnedModel [9, 8, 7, 6]) = convert "m" (skinnedModel [1, 2, 3, 4]) ∧
     ((mkMdl 1 2 2 1 1 1).skin_width * (mkMdl 1 2 2 1 1 1).skin_height < 4294967296 →
      (∀ i, i < (mkMdl 1 2 2 1 1 1).num_skins →
        rd32 (skinnedModel [1, 2, 3, 4]) (sizeof_mdl_s
          + i * (4 + (mkMdl 1 2 2 1 1 1).skin_width * (mkMdl 1 2 2 1 1 1).skin_height))
          = some 0) →
      specSkinPixels (skinnedModel [1, 2, 3, 4]) (mkMdl 1 2 2 1 1 1).skin_width
        (mkMdl 1 2 2 1 1 1).skin_height (mkMdl 1 2 2 1 1 1).num_skins sizeof_mdl_s
        = some [(88, 4)])) :=
  ⟨by decide,
   skin_pixels_do_not_matter "m" (skinnedModel [1, 2, 3, 4]) (skinnedModel [9, 8, 7, 6])
     (mkMdl 1 2 2 1 1 1) [(88, 4)] (by decide) (by decide) (by
       intro off hoff
       have hnot : ¬ (88 ≤ off ∧ off < 92) := by
         intro h
         exact hoff ⟨(88, 4), by simp, h.1, by omega⟩
       have ht : (skinnedModel [1, 2, 3, 4]).take 88 = (skinnedModel [9, 8, 7, 6]).take 88 := by
         decide
       have hd : (skinnedModel [1, 2, 3, 4]).drop 92 = (skinnedModel [9, 8, 7, 6]).drop 92 := by
         decide
       by_cases hlt : off < 88
       · rw [← List.getElem?_take_of_lt hlt, ht, List.getElem?_take_of_lt hlt]
       · have hoff2 : off = 92 + (off - 92) := by omega
         rw [hoff2, ← List.getElem?_drop, hd, List.getElem?_drop])⟩

set_option maxRecDepth 100000 in
/-- C15 fails as stated.  `groupSkinModel` and `groupSkinModelB` have one animated
skin entry of 3 images of 2x1 bytes, laid out as the specification describes it:
the pixel bytes of the entry are the six bytes at the offsets 108 to 113, after
the three durations.  The two buffers have the same length and the same bytes
before offset 108 and from offset 114 on (same header, tag, sub-count, durations,
texcoords, triangles and frames), and differ in these pixel bytes only.  The walk
of lines 104-116 skips the six bytes 96 to 101 and takes the texcoord table at
offset 102, so the texcoord record `stvert[0]` is read from the bytes 102 to 113:
the two runs write different `vt` records. -/
theorem group_skin_pixels_matter :
    specSkinPixels groupSkinModel 2 1 1 sizeof_mdl_s = some [(108, 6)] ∧
    specSkinPixels groupSkinModelB 2 1 1 sizeof_mdl_s = some [(108, 6)] ∧
    groupSkinModel.length = 174 ∧ groupSkinModelB.length = 174 ∧
    groupSkinModel.take 108 = groupSkinModelB.take 108 ∧
    groupSkinModel.drop 114 = groupSkinModelB.drop 114 ∧
    readMdl groupSkinModel = some (mkMdl 1 2 1 1 1 1) ∧
    readMdl groupSkinModelB = some (mkMdl 1 2 1 1 1 1) ∧
    skinPixels groupSkinModel 2 1 1 sizeof_mdl_s = some [(96, 6)] ∧
    layout groupSkinModel (mkMdl 1 2 1 1 1 1) = some ⟨102, 114, 130⟩ ∧
    layout groupSkinModelB (mkMdl 1 2 1 1 1 1) = some ⟨102, 114, 130⟩ ∧
    (convert "m" groupSkinModel).map Output.objs =
      some [("m.obj", [Line.mtllib "m.mtl", Line.usemtl "m", Line.v ⟨0, 0, 0⟩ ⟨0, 0, 0⟩ 0 0 0,
        Line.vt 202063513 2 538908181 1, Line.vt 202063514 2 538908181 1,
        Line.f 8 8 2 2 10 10])] ∧
    (convert "m" groupSkinModelB).map Output.objs =
      some [("m.obj", [Line.mtllib "m.mtl", Line.usemtl "m", Line.v ⟨0, 0, 0⟩ ⟨0, 0, 0⟩ 0 0 0,
        Line.vt 707346073 2 1044198451 1, Line.vt 707346074 2 1044198451 1,
        Line.f 8 8 2 2 10 10])] ∧
    convert "m" groupSkinModel ≠ convert "m" groupSkinModelB := by
  decide

/-! ## C10: a cut buffer that still holds every byte read is converted -/

theorem rd8_take_of_lt (buf : Buf) {n off : Nat} (h : off < n) :
    rd8 (buf.take n) off = rd8 buf off := by
  simp only [rd8, List.getElem?_take_of_lt h]

theorem rd32_take_of_le (buf : Buf) {n off : Nat} (h : off + 4 ≤ n) :
    rd32 (buf.take n) off = rd32 buf off :=
  rd32_congr (rd8_take_of_lt buf (by omega)) (rd8_take_of_lt buf (by omega))
    (rd8_take_of_lt buf (by omega)) (rd8_take_of_lt buf (by omega))

theorem skinWalk_ge (buf : Buf) (w h : Nat) (cnt : Nat) :
    ∀ skin E, skinWalk buf w h cnt skin = some E →
      skin ≤ E ∧ (0 < cnt → skin + 4 ≤ E) := by
  induction cnt with
  | zero =>
    intro skin E hE
    simp only [skinWalk, Option.some.injEq] at hE
    exact ⟨by omega, fun h0 => absurd h0 (Nat.lt_irrefl 0)⟩
  | succ cnt ih =>
    intro skin E hE
    simp only [skinWalk, Option.bind_eq_bind, Option.bind_eq_some] at hE
    obtain ⟨type, -, hE⟩ := hE
    by_cases hty : type ≠ 0
    · rw [if_pos hty] at hE
      simp only [Option.bind_eq_some] at hE
      obtain ⟨sub, -, hE⟩ := hE
      have := (ih _ _ hE).1
      simp only [skinGroupAdvance, sizeof_skin_group_s] at this
      exact ⟨by omega, fun _ => by omega⟩
    · rw [if_neg hty] at hE
      have := (ih _ _ hE).1
      simp only [skinSimpleAdvance, sizeof_skin_s] at this
      exact ⟨by omega, fun _ => by omega⟩

theorem skinWalk_take (buf : Buf) (w h n : Nat) (cnt : Nat) :
    ∀ skin E, skinWalk buf w h cnt skin = some E → E ≤ n →
      skinWalk (buf.take n) w h cnt skin = some E := by
  induction cnt with
  | zero => intro skin E hE _; simpa [skinWalk] using hE
  | succ cnt ih =>
    intro skin E hE hn
    simp only [skinWalk, Option.bind_eq_bind, Option.bind_eq_some] at hE
    obtain ⟨type, htype, hE⟩ := hE
    by_cases hty : type ≠ 0
    · rw [if_pos hty] at hE
      simp only [Option.bind_eq_some] at hE
      obtain ⟨sub, hsub, hE⟩ := hE
      have hge := (skinWalk_ge buf w h cnt _ _ hE).1
      simp only [skinGroupAdvance, sizeof_skin_group_s] at hge
      have h1 : rd32 (buf.take n) skin = some type := by
        rw [rd32_take_of_le buf (by omega), htype]
      have h2 : rd32 (buf.take n) (skin + 4) = some sub := by
        rw [rd32_take_of_le buf (by omega), hsub]
      rw [skinWalk_group_step (buf.take n) w h cnt skin h1 hty h2]
      exact ih _ _ hE hn
    · rw [if_neg hty] at hE
      have h0 : type = 0 := by omega
      subst h0
      have hge := (skinWalk_ge buf w h cnt _ _ hE).1
      simp only [skinSimpleAdvance, sizeof_skin_s] at hge
      have h1 : rd32 (buf.take n) skin = some 0 := by
        rw [rd32_take_of_le buf (by omega), htype]
      rw [skinWalk_simple_step (buf.take n) w h cnt skin h1]
      exact ih _ _ hE hn

theorem frameCursor_take (buf : Buf) (nv n : Nat) (cnt : Nat) :
    ∀ frame e, frameCursor buf nv cnt frame = some e → e ≤ n + 1 →
      frameCursor (buf.take n) nv cnt frame = some e := by
  induction cnt with
  | zero => intro frame e he _; simpa [frameCursor] using he
  | succ cnt ih =>
    intro frame e he hn
    simp only [frameCursor, Option.bind_eq_bind, Option.bind_eq_some] at he ⊢
    obtain ⟨type, htype, he⟩ := he
    have h1 := frameCursor_ge buf nv cnt _ _ he
    have h2 := frameAdvance_ge type nv frame
    refine ⟨type, ?_, ih _ _ he hn⟩
    rw [rd32_take_of_le buf (by omega), htype]

theorem positionPass_of_coords (buf : Buf) (m : mdl_s) (vert : Nat)
    (h : vert + sizeof_vert_s * m.num_verts ≤ buf.length + 1) :
    ∃ vs, positionPass buf m vert = some vs := by
  simp only [sizeof_vert_s] at h
  exact collect_of_forall (positionLine buf m vert) m.num_verts 0 (fun j hj => by
    obtain ⟨q0, h0⟩ := rd8_of_lt buf (vert + 4 * j) (by omega)
    obtain ⟨q1, h1⟩ := rd8_of_lt buf (vert + 4 * j + 1) (by omega)
    obtain ⟨q2, h2⟩ := rd8_of_lt buf (vert + 4 * j + 2) (by omega)
    exact ⟨Line.v m.scale m.origin q0 q1 q2, by
      rw [Nat.zero_add]
      simp [positionLine, sizeof_vert_s, h0, h1, h2]⟩)

/-- The frame loop runs to its end when the tables lie inside the buffer and the
cursor, after the last frame block, is at most one byte past the end of the
buffer: the last byte of a block is never read. -/
theorem frameLoop_of_cursor (buf : Buf) (m : mdl_s) (mdl_name : String) (lay : Layout)
    (hst : lay.stvert + sizeof_stvert_s * m.num_verts ≤ buf.length)
    (hfaces : FacesReadable buf m lay.stvert lay.triangle) (n : Nat) :
    ∀ (k frame : Nat) (obj : List Line) (e : Nat),
      frameCursor buf m.num_verts n frame = some e → e ≤ buf.length + 1 →
      ∃ outs, frameLoop buf m mdl_name lay n k frame obj = some outs := by
  obtain ⟨sts, hsts⟩ := stverts_of_le buf lay.stvert m.num_verts hst
  obtain ⟨fs, hfs, -, -⟩ := facePass_records buf m lay.stvert lay.triangle hfaces
  induction n with
  | zero => intro k frame obj e _ _; exact ⟨[], rfl⟩
  | succ n ih =>
    intro k frame obj e he hle
    simp only [frameCursor, Option.bind_eq_bind, Option.bind_eq_some] at he
    obtain ⟨type, htype, he⟩ := he
    have h1 := frameCursor_ge buf m.num_verts n _ _ he
    have h2 := frameAdvance_ge type m.num_verts frame
    obtain ⟨vs, hvs⟩ := positionPass_of_coords buf m (frame + sizeof_frame_s) (by
      simp only [sizeof_frame_s, sizeof_vert_s]
      omega)
    obtain ⟨text, htext⟩ : ∃ text, emitFrame buf m mdl_name lay obj (frame + sizeof_frame_s)
        = some text :=
      ⟨_, emitFrame_eq buf m mdl_name lay obj _ hvs (uvPass_of_stverts hsts) hfs⟩
    obtain ⟨rest, hrest⟩ := ih (k + 1) (frameAdvance type m.num_verts frame) text e he hle
    exact ⟨(outFile mdl_name m.num_frames k, text) :: rest, by
      simp [frameLoop, htype, htext, hrest]⟩

/-- C10 (as amended): the run has no bounds check and no `TruncatedInput`
outcome.  Take a well-formed model buffer: header and tables readable, every
vertex index of every triangle below `num_verts`, at least one frame, and the
cursor after the last frame block at `e <= length`.  Cut it down to its first `n`
bytes with `e <= n + 1`, for instance to the `e - 1` bytes that lack the last byte
of the last frame block.  The run on the cut buffer completes, and it writes
exactly the files of the run on the whole buffer. -/
theorem truncated_run_completes (mdl_name : String) (buf : Buf) (m : mdl_s) (lay : Layout)
    (e n : Nat) (hm : readMdl buf = some m) (hlay : layout buf m = some lay)
    (hidx : ∀ i, i < m.num_triangles → ∀ tri ∈ triangle_at buf lay.triangle i,
      tri.vertex0 < m.num_verts ∧ tri.vertex1 < m.num_verts ∧ tri.vertex2 < m.num_verts)
    (hcur : frameCursor buf m.num_verts m.num_frames lay.frame = some e)
    (hnf : 0 < m.num_frames) (hlen : e ≤ buf.length) (hn : e ≤ n + 1) :
    ∃ out, convert mdl_name (buf.take n) = some out ∧ convert mdl_name buf = some out ∧
      out.objs.length = m.num_frames := by
  obtain ⟨h1, h2⟩ := layout_offsets hlay
  have hge := frameCursor_ge buf m.num_verts m.num_frames _ _ hcur
  have hmul : 28 + 4 * m.num_verts ≤ m.num_frames * (28 + 4 * m.num_verts) :=
    Nat.le_mul_of_pos_left _ hnf
  have hframe : lay.frame + 28 ≤ e := by omega
  have hskin : sizeof_mdl_s ≤ lay.stvert := by
    simp only [layout, Option.bind_eq_bind, Option.bind_eq_some, Option.pure_def,
      Option.some.injEq] at hlay
    obtain ⟨skin, hskin, rfl⟩ := hlay
    exact (skinWalk_ge buf _ _ _ _ _ hskin).1
  simp only [sizeof_mdl_s] at hskin
  have htlen : (buf.take n).length = min n buf.length := List.length_take _ _
  have hmt : readMdl (buf.take n) = some m := by
    rw [← hm]
    exact readMdl_agree (fun off hoff => rd8_take_of_lt buf (by omega))
  have hlayt : layout (buf.take n) m = some lay := by
    simp only [layout, Option.bind_eq_bind, Option.bind_eq_some, Option.pure_def,
      Option.some.injEq] at hlay ⊢
    obtain ⟨skin, hsk, rfl⟩ := hlay
    exact ⟨skin, skinWalk_take buf _ _ n _ _ _ hsk (by
      simp only [sizeof_stvert_s, sizeof_triangle_s] at hframe
      omega), rfl⟩
  have hcurt : frameCursor (buf.take n) m.num_verts m.num_frames lay.frame = some e :=
    frameCursor_take buf m.num_verts n _ _ _ hcur hn
  have htri : lay.triangle + sizeof_triangle_s * m.num_triangles ≤ (buf.take n).length := by
    simp only [sizeof_triangle_s, htlen]
    omega
  have hfaces : FacesReadable (buf.take n) m lay.stvert lay.triangle := by
    refine ⟨htri, fun i hi tri htr _ => ?_⟩
    have hb := hidx i hi tri (triangle_at_ext (fun _ _ hx => rd8_take hx) htr)
    simp only [sizeof_stvert_s, sizeof_triangle_s] at htri ⊢
    omega
  have hst : lay.stvert + sizeof_stvert_s * m.num_verts ≤ (buf.take n).length := by
    simp only [sizeof_stvert_s, sizeof_triangle_s] at htri ⊢
    omega
  obtain ⟨outs, houts⟩ := frameLoop_of_cursor (buf.take n) m mdl_name lay hst hfaces
    m.num_frames 0 lay.frame [Line.text (materialRecord mdl_name)] e hcurt (by
      rw [htlen]
      omega)
  obtain ⟨hlen2, -⟩ := frameLoop_records (buf.take n) m mdl_name lay m.num_frames 0 lay.frame
    [Line.text (materialRecord mdl_name)] outs houts
  have hconv : convert mdl_name (buf.take n)
      = some ⟨mdl_name ++ ".mtl", materialRecord mdl_name, outs⟩ := by
    simp [convert, hmt, hlayt, houts]
  exact ⟨_, hconv, convert_ext (fun _ _ hx => rd8_take hx) hconv, hlen2⟩

set_option maxRecDepth 100000 in
/-- Witness for C10 on `plainModel` (176 bytes, its frame block ends at 176),
cut down to its first 175 bytes. -/
theorem truncated_run_completes_witness :
    (readMdl plainModel = some (mkMdl 0 8 8 2 2 1) ∧
     layout plainModel (mkMdl 0 8 8 2 2 1) = some ⟨84, 108, 140⟩ ∧
     (∀ i, i < (mkMdl 0 8 8 2 2 1).num_triangles → ∀ tri ∈ triangle_at plainModel 108 i,
       tri.vertex0 < (mkMdl 0 8 8 2 2 1).num_verts ∧ tri.vertex1 < (mkMdl 0 8 8 2 2 1).num_verts
         ∧ tri.vertex2 < (mkMdl 0 8 8 2 2 1).num_verts) ∧
     frameCursor plainModel 2 1 140 = some 176 ∧
     0 < (mkMdl 0 8 8 2 2 1).num_frames ∧ 176 ≤ plainModel.length ∧ 176 ≤ 175 + 1 ∧
     (plainModel.take 175).length < plainModel.length) ∧
    ∃ out, convert "m" (plainModel.take 175) = some out ∧ convert "m" plainModel = some out ∧
      out.objs.length = (mkMdl 0 8 8 2 2 1).num_frames :=
  ⟨by decide,
   truncated_run_completes "m" plainModel (mkMdl 0 8 8 2 2 1) ⟨84, 108, 140⟩ 176 175
     (by decide) (by decide) (by decide) (by decide) (by decide) (by decide) (by decide)⟩

end Mdl2Obj
